import Mathlib

/-! The go-athena `presto` package: parameterised SQL rewriting.

A shallow embedding of `presto/parameterized_sql.go` and a verification of
its natural-language specification.

Conventions of the embedding.

* A Go `string` is a sequence of bytes: `GoString = List (Fin 256)`.
* A `rune` that the code handles is never negative, so runes are `Nat`.
* `int` is 64 bits wide (the `amd64`/`arm64` ports); `int64` values are `Int`
  kept inside `[-2^63, 2^63)` by explicit wrapping.
* A Go function of result type `(string, error)` either returns a pair or
  panics: see `Outcome`.
* Writes to standard output (`fmt.Println`, `spew.Dump`) are not part of the
  returned value and are left out.
* The generated ANTLR lexer and parser (`presto/internal`) are an external
  collaborator; they enter through the structure `Grammar`.
* The parts of the Go standard library the code calls (`unicode/utf8`,
  `strconv`) are modelled after the library's documented behaviour; the
  Unicode tables of `strconv.IsPrint` above Latin-1 and the float formatter
  are parameters (`Stdlib`).
-/

namespace Presto

/-! ## Bytes and strings -/

/-- One byte of a Go string. -/
abbrev Byte := Fin 256

/-- A Go string: an immutable sequence of bytes. -/
abbrev GoString := List Byte

/-- Go conversion `byte(x)` of a non-negative integer: the low eight bits. -/
def byte (x : Nat) : Byte := ⟨x % 256, Nat.mod_lt x (by decide)⟩

/-- An ASCII string literal of the Go source as a byte string. -/
def lit (s : String) : GoString := s.toList.map (fun c => byte c.toNat)

/-- The single-quote byte, written `'\''` in the source. -/
def quote : Byte := 39

/-! ## Outcomes of a Go call -/

/-- The two ways `strconv.ParseInt` fails. -/
inductive NumErrKind where
  | ErrSyntax
  | ErrRange
  deriving DecidableEq, Repr

/-- A Go `error` value as far as this package builds or forwards one. -/
inductive GoError where
  /-- Value of `errors.New` or `errors.Errorf`, with its message. -/
  | text (msg : GoString)
  /-- Value `*strconv.NumError` with `Func`, `Num` and `Err`. -/
  | numError (fn : GoString) (num : GoString) (kind : NumErrKind)
  deriving DecidableEq, Repr

/-- Run-time panics the code can raise. -/
inductive Panic where
  /-- Indexing a slice outside `[0, len)`. -/
  | indexOutOfRange
  /-- Slicing a string with bounds outside `[0, len]`. -/
  | sliceBounds
  /-- A failed single-value type assertion `p.(T)`. -/
  | typeAssertion
  /-- A method call through a nil interface value. -/
  | nilDereference
  /-- A `reflect.Value` accessor applied to a value of another kind. -/
  | reflectKind
  deriving DecidableEq, Repr

/-- Result of calling a Go function of type `(string, error)`. -/
inductive Outcome where
  /-- Normal return of the pair `(s, err)`; `err = none` is Go `nil`. -/
  | returns (s : GoString) (err : Option GoError)
  /-- The call does not return: it panics. -/
  | panics (p : Panic)
  deriving DecidableEq, Repr

/-! ## `unicode/utf8` -/

/-- Constant `utf8.RuneError`, U+FFFD. -/
def RuneError : Nat := 0xFFFD

/-- Constant `utf8.RuneSelf`: bytes below it are single-byte runes. -/
def RuneSelf : Nat := 0x80

/-- Constant `utf8.MaxRune`. -/
def MaxRune : Nat := 0x10FFFF

/-- Modelled from the spec: table `first` of Go `unicode/utf8` (standard
library, not under src/): information about the first byte of an encoding.
Low three bits: length of the sequence; high four bits: index into
`acceptRanges`; `0xF0` marks ASCII and `0xF1` an invalid first byte. -/
def first (b : Nat) : Nat :=
  if b < 0x80 then 0xF0
  else if b < 0xC2 then 0xF1
  else if b < 0xE0 then 0x02
  else if b = 0xE0 then 0x13
  else if b < 0xED then 0x03
  else if b = 0xED then 0x23
  else if b < 0xF0 then 0x03
  else if b = 0xF0 then 0x34
  else if b < 0xF4 then 0x04
  else if b = 0xF4 then 0x44
  else 0xF1

/-- Modelled from the spec: table `acceptRanges` of Go `unicode/utf8`
(standard library, not under src/): the range `(lo, hi)` allowed for the
second byte of a sequence. -/
def acceptRanges (i : Nat) : Nat × Nat :=
  match i with
  | 0 => (0x80, 0xBF)
  | 1 => (0xA0, 0xBF)
  | 2 => (0x80, 0x9F)
  | 3 => (0x90, 0xBF)
  | 4 => (0x80, 0x8F)
  | _ => (0, 0)

/-- Modelled from the spec: `utf8.DecodeRuneInString` of the Go standard
library (not under src/). Returns the first rune of `s` and its width in
bytes; `(RuneError, 0)` for the empty string and `(RuneError, 1)` for an
invalid encoding. Only shortest-form encodings of code points outside the
surrogate range and up to `MaxRune` are valid. -/
def DecodeRuneInString (s : GoString) : Nat × Nat :=
  match s with
  | [] => (RuneError, 0)
  | s0 :: t =>
    let x := first s0.val
    if x ≥ 0xF0 then
      -- mask := rune(x) << 31 >> 31: all ones for the invalid marker 0xF1
      (if x % 2 = 1 then RuneError else s0.val, 1)
    else
      let sz := x &&& 7
      let accept := acceptRanges (x >>> 4)
      if s.length < sz then (RuneError, 1)
      else
        match t with
        | [] => (RuneError, 1)
        | s1 :: t1 =>
          if s1.val < accept.1 ∨ accept.2 < s1.val then (RuneError, 1)
          else if sz ≤ 2 then (((s0.val &&& 0x1F) <<< 6) ||| (s1.val &&& 0x3F), 2)
          else
            match t1 with
            | [] => (RuneError, 1)
            | s2 :: t2 =>
              if s2.val < 0x80 ∨ 0xBF < s2.val then (RuneError, 1)
              else if sz ≤ 3 then
                (((s0.val &&& 0x0F) <<< 12) ||| ((s1.val &&& 0x3F) <<< 6)
                  ||| (s2.val &&& 0x3F), 3)
              else
                match t2 with
                | [] => (RuneError, 1)
                | s3 :: _ =>
                  if s3.val < 0x80 ∨ 0xBF < s3.val then (RuneError, 1)
                  else
                    (((s0.val &&& 0x07) <<< 18) ||| ((s1.val &&& 0x3F) <<< 12)
                      ||| ((s2.val &&& 0x3F) <<< 6) ||| (s3.val &&& 0x3F), 4)

/-- Modelled from the spec: `utf8.EncodeRune` of the Go standard library
(not under src/), on a non-negative rune: the bytes written into the
buffer, whose number is the returned length. Surrogates and values above
`MaxRune` are encoded as `RuneError`. -/
def EncodeRune (r : Nat) : GoString :=
  if r ≤ 0x7F then [byte r]
  else if r ≤ 0x7FF then
    [byte (0xC0 ||| (r >>> 6) % 256), byte (0x80 ||| (r % 256 &&& 0x3F))]
  else
    let r3 := if r > MaxRune ∨ (0xD800 ≤ r ∧ r ≤ 0xDFFF) then RuneError else r
    if r > MaxRune ∨ (0xD800 ≤ r ∧ r ≤ 0xDFFF) ∨ r ≤ 0xFFFF then
      [byte (0xE0 ||| (r3 >>> 12) % 256),
       byte (0x80 ||| ((r3 >>> 6) % 256 &&& 0x3F)),
       byte (0x80 ||| (r3 % 256 &&& 0x3F))]
    else
      [byte (0xF0 ||| (r >>> 18) % 256),
       byte (0x80 ||| ((r >>> 12) % 256 &&& 0x3F)),
       byte (0x80 ||| ((r >>> 6) % 256 &&& 0x3F)),
       byte (0x80 ||| (r % 256 &&& 0x3F))]

/-! ## Standard-library parameters -/

/-- The table-driven parts of the Go standard library that the package
reaches and that are kept abstract. -/
structure Stdlib where
  /-- Result of `strconv.IsPrint(r)` for a rune `r > 0xFF` (binary search in
  the Unicode tables `isPrint16`, `isNotPrint16`, `isPrint32`, ...). -/
  isPrintWide : Nat → Bool
  /-- Result of `strconv.FormatFloat(x, 'f', -1, 64)` for the float64 whose
  IEEE-754 bit pattern is the argument. -/
  formatFloat : Nat → GoString

/-- Modelled from the spec: `strconv.IsPrint` of the Go standard library
(not under src/). The Latin-1 fast path is explicit; above it the answer is
read from the tables. -/
def IsPrint (lib : Stdlib) (r : Nat) : Bool :=
  if r ≤ 0xFF then
    if 0x20 ≤ r ∧ r ≤ 0x7E then true
    else if 0xA1 ≤ r ∧ r ≤ 0xFF then r != 0xAD
    else false
  else lib.isPrintWide r

/-! ## `strconv` integers and booleans -/

/-- Wrap an integer into the two's-complement range of the given width:
the Go conversion to `intN`. -/
def wrapSigned (bits : Nat) (x : Int) : Int :=
  let m := x % 2 ^ bits
  if m < 2 ^ (bits - 1) then m else m - 2 ^ bits

/-- ASCII byte of the decimal digit `d % 10`. -/
def digitByte (d : Nat) : Byte := byte (48 + d % 10)

/-- Decimal digits of `u`, most significant first, produced from the least
significant end as `formatBits` fills its buffer. The fuel bounds the
number of digits; a `uint64` has at most 20. -/
def decimalDigits : Nat → Nat → GoString
  | 0, _ => []
  | fuel + 1, u =>
    if u < 10 then [digitByte u]
    else decimalDigits fuel (u / 10) ++ [digitByte (u % 10)]

/-- Modelled from the spec: `strconv.formatBits` of the Go standard library
(not under src/) at base 10: the decimal ASCII representation of the
`uint64` value `u`, read as a negative number when `neg` is set (then `u` is
negated modulo `2^64` and a minus sign is put in front). -/
def formatBits (u : Nat) (neg : Bool) : GoString :=
  let m := if neg then (2 ^ 64 - u % 2 ^ 64) % 2 ^ 64 else u % 2 ^ 64
  (if neg then [(45 : Byte)] else []) ++ decimalDigits 20 m

/-- Modelled from the spec: `strconv.FormatInt(i, 10)` of the Go standard
library (not under src/): decimal ASCII representation of the `int64` value
`i`, with a leading minus sign for negative values. -/
def FormatInt (i : Int) : GoString :=
  formatBits (i % 2 ^ 64).toNat (decide (i < 0))

/-- Modelled from the spec: `strconv.FormatUint(u, 10)` of the Go standard
library (not under src/): decimal ASCII representation of the `uint64`
value `u`. -/
def FormatUint (u : Nat) : GoString := formatBits u false

/-- Modelled from the spec: `strconv.FormatBool` of the Go standard library
(not under src/): the text `true` or `false`. -/
def FormatBool (b : Bool) : GoString := if b then lit "true" else lit "false"

/-- The digit loop of `strconv.ParseUint` at base 10 and bit size 64: `n` is
the value read so far. `cutoff = maxUint64/10 + 1`; a product or sum that
leaves `uint64` is a range error, a byte that is no decimal digit a syntax
error. -/
def parseUintLoop : GoString → Nat → Except NumErrKind Nat
  | [], n => .ok n
  | c :: cs, n =>
    if 48 ≤ c.val ∧ c.val ≤ 57 then
      let d := c.val - 48
      if n ≥ (2 ^ 64 - 1) / 10 + 1 then .error .ErrRange
      else
        let n1 := n * 10 + d
        if n1 > 2 ^ 64 - 1 then .error .ErrRange
        else parseUintLoop cs n1
    else if (97 ≤ c.val ∧ c.val ≤ 122) ∨ (65 ≤ c.val ∧ c.val ≤ 90) then
      -- a letter: a digit value of at least 10, not below the base
      .error .ErrSyntax
    else .error .ErrSyntax

/-- Modelled from the spec: `strconv.ParseUint(s, 10, 64)` of the Go
standard library (not under src/). On a range error the returned value is
the maximum. -/
def ParseUint (s : GoString) : Nat × Option NumErrKind :=
  match s with
  | [] => (0, some .ErrSyntax)
  | _ =>
    match parseUintLoop s 0 with
    | .ok n => (n, none)
    | .error .ErrRange => (2 ^ 64 - 1, some .ErrRange)
    | .error .ErrSyntax => (0, some .ErrSyntax)

/-- Modelled from the spec: `strconv.ParseInt(s, 10, 64)` of the Go standard
library (not under src/): an optional sign followed by decimal digits. The
error, when there is one, is a `*NumError` for function `ParseInt` and the
whole input. -/
def ParseInt (s : GoString) : Int × Option GoError :=
  match s with
  | [] => (0, some (.numError (lit "ParseInt") s .ErrSyntax))
  | c :: cs =>
    let neg := decide (c.val = 45)
    let body := if c.val = 43 ∨ c.val = 45 then cs else s
    match ParseUint body with
    | (_, some .ErrSyntax) => (0, some (.numError (lit "ParseInt") s .ErrSyntax))
    | (un, _) =>
      if ¬ neg ∧ un ≥ 2 ^ 63 then
        (2 ^ 63 - 1, some (.numError (lit "ParseInt") s .ErrRange))
      else if neg ∧ un > 2 ^ 63 then
        (-(2 ^ 63), some (.numError (lit "ParseInt") s .ErrRange))
      else
        let n := wrapSigned 64 (un : Int)
        (if neg then wrapSigned 64 (-n) else n, none)

/-! ## Values passed as parameters -/

/-- Signed integer kinds of `reflect`. -/
inductive IntKind where
  | Int | Int8 | Int16 | Int32 | Int64
  deriving DecidableEq, Repr

/-- Unsigned integer kinds of `reflect` that the formatter accepts. -/
inductive UintKind where
  | Uint | Uint8 | Uint16 | Uint32 | Uint64
  deriving DecidableEq, Repr

/-- Floating-point kinds of `reflect`. -/
inductive FloatKind where
  | Float32 | Float64
  deriving DecidableEq, Repr

/-- The remaining kinds a non-nil interface value can have. -/
inductive OtherKind where
  | Uintptr | Complex64 | Complex128 | Array | Chan | Func | Map | Pointer
  | Slice | Struct | UnsafePointer
  deriving DecidableEq, Repr

/-- Type `reflect.Kind`. -/
inductive Kind where
  | Invalid
  | Bool
  | Int (k : IntKind)
  | Uint (k : UintKind)
  | Float (k : FloatKind)
  | String
  | Other (k : OtherKind)
  deriving DecidableEq, Repr

/-- Width in bits of a signed integer kind. -/
def IntKind.bits : IntKind → Nat
  | .Int => 64 | .Int8 => 8 | .Int16 => 16 | .Int32 => 32 | .Int64 => 64

/-- Width in bits of an unsigned integer kind. -/
def UintKind.bits : UintKind → Nat
  | .Uint => 64 | .Uint8 => 8 | .Uint16 => 16 | .Uint32 => 32 | .Uint64 => 64

/-- A value of type `interface{}`: nil, or a dynamic type with a value of
that type. For the kinds the formatter reads, `defined = none` says that the
dynamic type is the predeclared type of that kind (`string`, `int8`, ...),
and `defined = some n` that it is a defined type named `n` with that
underlying type (`type n string`). -/
inductive Value where
  /-- The nil interface value. -/
  | nil
  | bool (defined : Option GoString) (b : Bool)
  | int (k : IntKind) (defined : Option GoString) (v : Int)
  | uint (k : UintKind) (defined : Option GoString) (v : Nat)
  /-- A float, given by the IEEE-754 bits of its value as a `float64`. -/
  | float (k : FloatKind) (defined : Option GoString) (bits : Nat)
  | str (defined : Option GoString) (s : GoString)
  /-- A value of any other kind; `name` is `reflect.Type.Name()`, empty for
  an unnamed type. -/
  | other (k : OtherKind) (name : GoString)
  deriving DecidableEq, Repr

/-- Method `reflect.ValueOf(p).Kind()`. -/
def Value.kind : Value → Kind
  | .nil => .Invalid
  | .bool _ _ => .Bool
  | .int k _ _ => .Int k
  | .uint k _ _ => .Uint k
  | .float k _ _ => .Float k
  | .str _ _ => .String
  | .other k _ => .Other k

/-- Type assertion `p.(string)`: succeeds exactly when the dynamic type of
`p` is the predeclared type `string`. -/
def Value.assertString : Value → Option GoString
  | .str none s => some s
  | _ => none

/-- Method `reflect.ValueOf(p).Int()`: the stored value as `int64`; `none`
stands for the panic on a value of another kind. -/
def Value.Int : Value → Option Int
  | .int k _ v => some (wrapSigned k.bits v)
  | _ => none

/-- Method `reflect.ValueOf(p).Uint()`: the stored value as `uint64`. -/
def Value.Uint : Value → Option Nat
  | .uint k _ v => some (v % 2 ^ k.bits)
  | _ => none

/-- Method `reflect.ValueOf(p).Float()`: the bits of the value as `float64`. -/
def Value.Float : Value → Option Nat
  | .float _ _ bits => some bits
  | _ => none

/-- Method `reflect.ValueOf(p).Bool()`. -/
def Value.Bool : Value → Option Bool
  | .bool _ b => some b
  | _ => none

/-- Expression `reflect.TypeOf(p).Name()`: `none` stands for the panic on
the nil interface value, whose `reflect.Type` is nil. -/
def Value.typeName : Value → Option GoString
  | .nil => none
  | .bool d _ => some (d.getD (lit "bool"))
  | .int k d _ =>
    some (d.getD (match k with
      | .Int => lit "int" | .Int8 => lit "int8" | .Int16 => lit "int16"
      | .Int32 => lit "int32" | .Int64 => lit "int64"))
  | .uint k d _ =>
    some (d.getD (match k with
      | .Uint => lit "uint" | .Uint8 => lit "uint8" | .Uint16 => lit "uint16"
      | .Uint32 => lit "uint32" | .Uint64 => lit "uint64"))
  | .float k d _ =>
    some (d.getD (match k with
      | .Float32 => lit "float32" | .Float64 => lit "float64"))
  | .str d _ => some (d.getD (lit "string"))
  | .other _ name => some name

/-! ## The literal formatter -/

/-- The loop of `escapeString`: `s` is the input still to read, `buf` the
output buffer. Each iteration reads one rune of `width` bytes from the
front of `s` and continues with `s[width:]`. One unit of fuel is spent per
iteration; `escapeString` starts with `len(s)` units. -/
def escapeLoop (lib : Stdlib) (delim escape : Byte) : Nat → GoString → GoString → GoString
  | 0, _, buf => buf
  | fuel + 1, s, buf =>
    match s with
    | [] => buf
    | s0 :: _ =>
      let rw := if s0.val ≥ RuneSelf then DecodeRuneInString s else (s0.val, 1)
      if rw.2 = 1 ∧ rw.1 = RuneError then
        escapeLoop lib delim escape fuel (s.drop rw.2) buf
      else if rw.1 = delim.val then
        escapeLoop lib delim escape fuel (s.drop rw.2) (buf ++ [escape, byte rw.1])
      else if IsPrint lib rw.1 then
        escapeLoop lib delim escape fuel (s.drop rw.2) (buf ++ EncodeRune rw.1)
      else
        escapeLoop lib delim escape fuel (s.drop rw.2) buf

/-- Function `escapeString(s, delim, escape)`. -/
def escapeString (lib : Stdlib) (s : GoString) (delim escape : Byte) : GoString :=
  escapeLoop lib delim escape s.length s []

/-- Function `formatParameter(p)`: the SQL literal of one value, chosen by
the kind of the value. -/
def formatParameter (lib : Stdlib) (p : Value) : Outcome :=
  match p.kind with
  | .String =>
    match p.assertString with
    | some s => .returns ([quote] ++ escapeString lib s quote quote ++ [quote]) none
    | none => .panics .typeAssertion
  | .Int _ =>
    match p.Int with
    | some i => .returns (FormatInt i) none
    | none => .panics .reflectKind
  | .Uint _ =>
    match p.Uint with
    | some u => .returns (FormatUint u) none
    | none => .panics .reflectKind
  | .Float _ =>
    match p.Float with
    | some x => .returns (lib.formatFloat x) none
    | none => .panics .reflectKind
  | .Bool =>
    match p.Bool with
    | some b => .returns (FormatBool b) none
    | none => .panics .reflectKind
  | _ =>
    match p.typeName with
    | some name => .returns [] (some (.text (lit "Unsupported data type: " ++ name)))
    | none => .panics .nilDereference

/-! ## The external grammar -/

/-- A token of the lexer: its type and its text, the exact substring of the
input. -/
structure Token where
  tokenType : Int
  text : GoString
  deriving DecidableEq, Repr

/-- Constant `antlr.TokenEOF`. -/
def TokenEOF : Int := -1

/-- One call of the parser to `SyntaxError` of its error listener.
`offendingSymbol` is `some t` when the symbol is a `*antlr.CommonToken`.
`line` and `column` are the numbers the ANTLR runtime passes: the line
counted from 1 and the position in the line counted from 0. -/
structure Notification where
  offendingSymbol : Option Token
  line : Int
  column : Int
  msg : GoString
  deriving DecidableEq, Repr

/-- The generated lexer and parser of `presto/internal`, which are not
under src/, as far as the package observes them. -/
structure Grammar where
  /-- Constant `internal.SqlBaseLexerPARAMETER`. -/
  PARAMETER : Int
  /-- The tokens that successive calls of `lexer.NextToken()` return on the
  input; once they are used up the lexer returns end-of-input. -/
  NextTokens : GoString → List Token
  /-- The calls to the error listener that `p.SingleStatement()` makes on
  the input, in order. -/
  SingleStatement : GoString → List Notification

/-! ## The syntax validator -/

/-- Type `errorListener`: the retained error. -/
structure errorListener where
  err : Option GoError
  deriving DecidableEq, Repr

/-- Method `errorListener.SyntaxError`: records the error unless one is
already recorded. -/
def errorListener.SyntaxError (e : errorListener) (n : Notification) : errorListener :=
  match e.err with
  | none =>
    let text := match n.offendingSymbol with
      | some token => token.text
      | none => []
    { err := some (.text (lit "Syntax error at " ++ FormatInt n.line ++ lit ":"
        ++ FormatInt n.column ++ lit ": '" ++ text ++ lit "' (" ++ n.msg ++ lit ")")) }
  | some _ => e

/-- Function `checkSyntax(sql)`: parse one statement with a fresh listener
and return what the listener retained. -/
def checkSyntax (g : Grammar) (sql : GoString) : Option GoError :=
  ((g.SingleStatement sql).foldl errorListener.SyntaxError { err := none }).err

/-! ## The statement rewriter -/

/-- Go conversion `int(x)` of an `int64`, with `int` 64 bits wide. -/
def toInt (x : Int) : Int := wrapSigned 64 x

/-- The token loop of `ValidateAndFormatSql`: `newSql` is the builder's
content so far. -/
def rewriteTokens (lib : Stdlib) (PARAMETER : Int) (params : List Value) :
    List Token → GoString → Outcome
  | [], newSql => .returns newSql none
  | t :: ts, newSql =>
    if t.tokenType = TokenEOF then .returns newSql none
    else if t.tokenType = PARAMETER then
      match t.text with
      | [] => .panics .sliceBounds
      | _ :: indexString =>
        if indexString.length = 0 then
          .returns [] (some (.text (lit "Missing parameter index")))
        else
          match ParseInt indexString with
          | (_, some err) => .returns [] (some err)
          | (index, none) =>
            if index < 0 ∨ toInt index > (params.length : Int) then
              .returns [] (some (.text (lit "Parameter index " ++ FormatInt index
                ++ lit " out of range (" ++ FormatInt params.length ++ lit ")")))
            else if index - 1 < 0 then .panics .indexOutOfRange
            else
              match params[(index - 1).toNat]? with
              | none => .panics .indexOutOfRange
              | some p =>
                match formatParameter lib p with
                | .returns s none => rewriteTokens lib PARAMETER params ts (newSql ++ s)
                | .returns _ (some err) => .returns [] (some err)
                | .panics e => .panics e
    else rewriteTokens lib PARAMETER params ts (newSql ++ t.text)

/-- Function `ValidateAndFormatSql(sql, params...)`. -/
def ValidateAndFormatSql (lib : Stdlib) (g : Grammar) (sql : GoString)
    (params : List Value) : Outcome :=
  match checkSyntax g sql with
  | some err => .returns [] (some err)
  | none => rewriteTokens lib g.PARAMETER params (g.NextTokens sql) []

/-! ## Sample inputs -/

/-- A library instance whose tables call no rune above Latin-1 printable
and whose float formatter is left empty; used to evaluate examples. -/
def sampleLib : Stdlib := { isPrintWide := fun _ => false, formatFloat := fun _ => [] }

/-- A grammar that lexes every template into the given tokens and reports
no syntax error; used to evaluate the rewriter on a given token stream. -/
def sampleGrammar (PARAMETER : Int) (ts : List Token) : Grammar :=
  { PARAMETER := PARAMETER, NextTokens := fun _ => ts, SingleStatement := fun _ => [] }

/-- Whether a byte is an ASCII decimal digit. -/
def isDigit (b : Byte) : Bool := decide (48 ≤ b.val ∧ b.val ≤ 57)

/-- Value of a string of decimal digits read from the left, starting from
the value `acc`. -/
def digitsValueFrom (acc : Nat) (ds : GoString) : Nat :=
  ds.foldl (fun a d => a * 10 + (d.val - 48)) acc

/-- Value of a string of decimal digits. -/
def digitsValue (ds : GoString) : Nat := digitsValueFrom 0 ds

/-- Reading of a byte string as a base-10 integer literal: an optional
minus sign followed by at least one decimal digit, with the value the
digits denote (no bound on the size). -/
def parseIntegerLiteral (s : GoString) : Option Int :=
  match s with
  | [] => none
  | c :: cs =>
    if c.val = 45 then
      if cs ≠ [] ∧ cs.all isDigit = true then some (-(digitsValue cs : Int)) else none
    else if s.all isDigit = true then some (digitsValue s : Int)
    else none

/-- The values a signed integer kind holds. -/
def IntKind.inRange (k : IntKind) (v : ℤ) : Prop :=
  -(2 ^ (k.bits - 1) : ℤ) ≤ v ∧ v < 2 ^ (k.bits - 1)

instance (k : IntKind) (v : ℤ) : Decidable (k.inRange v) := by
  unfold IntKind.inRange; infer_instance

/-- The values an unsigned integer kind holds. -/
def UintKind.inRange (k : UintKind) (v : Nat) : Prop := v < 2 ^ k.bits

instance (k : UintKind) (v : Nat) : Decidable (k.inRange v) := by
  unfold UintKind.inRange; infer_instance

/-! ## Reference notions for string literals -/

/-- The three possible results of reading a rune at the front of a
non-empty string: an invalid byte, an ASCII byte, or a valid sequence of
two to four bytes, all of them at least `0x80`, that `EncodeRune` gives
back from the rune. -/
def ReadsRune (s : GoString) (p : Nat × Nat) : Prop :=
  p = (RuneError, 1) ∨
  (∃ s0 t, s = s0 :: t ∧ s0.val < 0x80 ∧ p = (s0.val, 1)) ∨
  (2 ≤ p.2 ∧ p.2 ≤ s.length ∧ 0x80 ≤ p.1 ∧ EncodeRune p.1 = s.take p.2 ∧
    ∀ b ∈ s.take p.2, 0x80 ≤ b.val)

/-- A rune read from a string: its value, its width and the bytes it was
read from. -/
structure DecodedRune where
  r : Nat
  width : Nat
  bytes : GoString
  deriving DecidableEq, Repr

/-- The runes of a string read one after the other from the front with
`utf8.DecodeRuneInString`, as a `range` loop over the string reads them;
an undecodable byte gives `RuneError` of width 1. One unit of fuel is spent
per rune. -/
def decodeRunes : Nat → GoString → List DecodedRune
  | 0, _ => []
  | fuel + 1, s =>
    match s with
    | [] => []
    | _ :: _ =>
      let p := DecodeRuneInString s
      { r := p.1, width := p.2, bytes := s.take p.2 } :: decodeRunes fuel (s.drop p.2)

/-- The runes of a string. -/
def runesOf (s : GoString) : List DecodedRune := decodeRunes s.length s

/-- What the reference escaping writes for one rune: nothing for an
undecodable byte, two quotes for a quote, the bytes of the rune itself for
any other printable rune, nothing for any other rune. -/
def emitRune (lib : Stdlib) (d : DecodedRune) : GoString :=
  if d.width = 1 ∧ d.r = RuneError then []
  else if d.r = quote.val then [quote, quote]
  else if IsPrint lib d.r then d.bytes
  else []

/-- Reference escaping of a string: the runes in order, each written by
`emitRune`. -/
def escapeReference (lib : Stdlib) (s : GoString) : GoString :=
  (runesOf s).flatMap (emitRune lib)

/-- Whether the string is valid UTF-8: no byte of it is undecodable. -/
def validUTF8 (s : GoString) : Bool :=
  (runesOf s).all (fun d => !decide (d.width = 1 ∧ d.r = RuneError))

/-- Whether every rune of the string is printable (`strconv.IsPrint`). -/
def allPrintable (lib : Stdlib) (s : GoString) : Bool :=
  (runesOf s).all (fun d => IsPrint lib d.r)

/-- The string with every quote byte replaced by two quote bytes. -/
def doubleQuotes (s : GoString) : GoString :=
  s.flatMap (fun b => if b = quote then [quote, quote] else [b])

/-- The string with every pair of quote bytes, read from the left, replaced
by one quote byte. -/
def undouble : GoString → GoString
  | [] => []
  | [b] => [b]
  | b :: c :: t => if b = quote ∧ c = quote then quote :: undouble t else b :: undouble (c :: t)

/-- The string without its first and its last byte. -/
def stripQuotes (l : GoString) : GoString := (l.drop 1).dropLast

/-- Whether every maximal run of quote bytes has even length; `odd` says
that the run that ends just before the string has odd length so far. -/
def quoteRunsEvenFrom (odd : Bool) : GoString → Bool
  | [] => !odd
  | b :: t =>
    if b = quote then quoteRunsEvenFrom (!odd) t
    else !odd && quoteRunsEvenFrom false t

/-- Whether every maximal run of quote bytes in the string has even
length. -/
def quoteRunsEven (s : GoString) : Bool := quoteRunsEvenFrom false s

/-- The body of a SQL string literal read from the input just after the
opening quote: two quotes stand for one quote character, and the first
quote that is not followed by a quote closes the literal. Returns the
content of the literal and the input after the closing quote; `none` when
the literal is never closed. -/
def scanLiteralBody : GoString → Option (GoString × GoString)
  | [] => none
  | [b] => if b = quote then some ([], []) else none
  | b :: c :: t =>
    if b = quote then
      if c = quote then (scanLiteralBody t).map (fun p => (quote :: p.1, p.2))
      else some ([], c :: t)
    else (scanLiteralBody (c :: t)).map (fun p => (b :: p.1, p.2))

/-- A SQL string literal read at the front of the input. -/
def scanLiteral : GoString → Option (GoString × GoString)
  | [] => none
  | b :: t => if b = quote then scanLiteralBody t else none

/-! ## Reference notions for the rewriter -/

/-- The tokens the loop of the rewriter processes: those before the first
end-of-input token. -/
def beforeEOF (ts : List Token) : List Token :=
  ts.takeWhile (fun t => decide (t.tokenType ≠ TokenEOF))

/-- The decimal index written in a placeholder token after its
one-character marker. -/
def placeholderIndex (t : Token) : Nat := digitsValue (t.text.drop 1)

/-- Whether a placeholder token is a marker followed by at least one
decimal digit, with an index between 1 and `n`. -/
def wellIndexed (n : Nat) (t : Token) : Bool :=
  decide (t.text ≠ []) && decide (t.text.drop 1 ≠ []) && (t.text.drop 1).all isDigit
    && decide (1 ≤ placeholderIndex t) && decide (placeholderIndex t ≤ n)

/-- Whether the value has a supported kind (string, signed or unsigned
integer, float, bool). -/
def supportedKind (p : Value) : Bool :=
  match p.kind with
  | .String | .Int _ | .Uint _ | .Float _ | .Bool => true
  | _ => false

/-- Whether the value has a supported kind and, when the kind is string,
its type is the predeclared type `string` itself. -/
def plainSupported : Value → Bool
  | .str none _ => true
  | .str (some _) _ => false
  | .int _ _ _ => true
  | .uint _ _ _ => true
  | .float _ _ _ => true
  | .bool _ _ => true
  | _ => false

/-- The literal that `formatParameter` returns for the value; empty when it
returns none. -/
def literalOf (lib : Stdlib) (p : Value) : GoString :=
  match formatParameter lib p with
  | .returns s _ => s
  | .panics _ => []

/-- The text that stands for a token in the rewritten statement: the
literal of the value the index selects for a placeholder, the token's own
text otherwise. -/
def substitute (lib : Stdlib) (PARAMETER : Int) (params : List Value) (t : Token) :
    GoString :=
  if t.tokenType = PARAMETER then
    match params[placeholderIndex t - 1]? with
    | some p => literalOf lib p
    | none => []
  else t.text

/-- A grammar whose parser reports the given notifications on every
template and whose lexer returns the given tokens; used to evaluate the
validator on given notifications. -/
def reportingGrammar (PARAMETER : Int) (ts : List Token) (ns : List Notification) :
    Grammar :=
  { PARAMETER := PARAMETER, NextTokens := fun _ => ts, SingleStatement := fun _ => ns }

/-- The token stream of the template
`SELECT * FROM t WHERE name = $1 AND id = $2`: keywords, identifiers and
operators as ordinary tokens, each run of blanks as a token of its own, and
the two placeholders with the given token type. -/
def scenarioTokens (PARAMETER : Int) : List Token :=
  [⟨10, lit "SELECT"⟩, ⟨1, lit " "⟩, ⟨11, lit "*"⟩, ⟨1, lit " "⟩, ⟨12, lit "FROM"⟩,
   ⟨1, lit " "⟩, ⟨13, lit "t"⟩, ⟨1, lit " "⟩, ⟨14, lit "WHERE"⟩, ⟨1, lit " "⟩,
   ⟨13, lit "name"⟩, ⟨1, lit " "⟩, ⟨15, lit "="⟩, ⟨1, lit " "⟩, ⟨PARAMETER, lit "$1"⟩,
   ⟨1, lit " "⟩, ⟨16, lit "AND"⟩, ⟨1, lit " "⟩, ⟨13, lit "id"⟩, ⟨1, lit " "⟩,
   ⟨15, lit "="⟩, ⟨1, lit " "⟩, ⟨PARAMETER, lit "$2"⟩, ⟨TokenEOF, lit "<EOF>"⟩]

/-- Whether `formatParameter` returns a literal without error for the
value. -/
def formats (lib : Stdlib) (p : Value) : Bool :=
  match formatParameter lib p with
  | .returns _ none => true
  | _ => false

/-- Whether a placeholder token is well-indexed for the value list and
selects a value for which `formatParameter` returns a literal. -/
def placeholderOK (lib : Stdlib) (params : List Value) (t : Token) : Bool :=
  wellIndexed params.length t &&
    (match params[placeholderIndex t - 1]? with
     | some p => formats lib p
     | none => false)

/-- Reading of a byte string as a base-10 integer: an optional sign `+` or
`-` followed by at least one decimal digit, with the value denoted (no
bound on the size); `none` when the string is not of this form. -/
def signedDecimal (s : GoString) : Option Int :=
  match s with
  | [] => none
  | c :: cs =>
    if c.val = 45 then
      if cs ≠ [] ∧ cs.all isDigit = true then some (-(digitsValue cs : Int)) else none
    else if c.val = 43 then
      if cs ≠ [] ∧ cs.all isDigit = true then some (digitsValue cs : Int) else none
    else if s.all isDigit = true then some (digitsValue s : Int)
    else none

/-! ## The case-folding character source -/

/-- Interface `antlr.CharStream` as far as the package and the lexer's text
extraction use it, at the current state of the stream: the look-ahead
`LA(offset)`, negative at end-of-input, and the text `GetText(start, stop)`
of an interval of the input. -/
structure CharStream where
  LA : Int → Int
  GetText : Int → Int → GoString

/-- The case tables of Go `unicode` that the package reaches. -/
structure CaseTables where
  /-- The upper-case mapping that `unicode.CaseRanges` gives for a rune above
  ASCII, `none` when the tables have no mapping for it. -/
  upperCase : Int → Option Int

/-- Modelled from the spec: `unicode.ToUpper` of the Go standard library (not
under src/). On ASCII the letters `a` to `z` are moved to `A` to `Z` and
every other rune is returned as it is; above ASCII the rune is mapped by
the case tables and returned as it is when they have no mapping. -/
def ToUpper (tbl : CaseTables) (r : Int) : Int :=
  if r ≤ 0x7F then
    if 97 ≤ r ∧ r ≤ 122 then r - 32 else r
  else (tbl.upperCase r).getD r

/-- Type `upcaseCharStream`: a struct that embeds the underlying
`antlr.CharStream`. -/
structure upcaseCharStream where
  CharStream : CharStream

/-- Function `newUpcaseCharStream`. -/
def newUpcaseCharStream (s : CharStream) : upcaseCharStream := { CharStream := s }

/-- Method `upcaseCharStream.LA`: the look-ahead of the underlying stream,
folded to upper case unless it is negative. The conversion `rune(c)` keeps
the low 32 bits; the conversion back to `int` keeps the value. -/
def upcaseCharStream.LA (tbl : CaseTables) (is : upcaseCharStream) (offset : Int) : Int :=
  let c := is.CharStream.LA offset
  if c < 0 then c
  else ToUpper tbl (wrapSigned 32 c)

/-- Method `GetText` of `upcaseCharStream`, promoted from the embedded
stream. -/
def upcaseCharStream.GetText (is : upcaseCharStream) (start stop : Int) : GoString :=
  is.CharStream.GetText start stop

/-- Case tables that map the Latin-1 letter `U+00E9` to `U+00C9` and
nothing else; used to evaluate examples. -/
def sampleTables : CaseTables :=
  { upperCase := fun r => if r = 0xE9 then some 0xC9 else none }

/-- A character source at the start of a text of single-byte characters:
`LA(k)` is the `k`-th character for `k` from 1 to the length and the
end-of-input marker `-1` elsewhere; `GetText(a, b)` is the text from
position `a` to position `b`, both included. -/
def sampleStream (text : GoString) : CharStream :=
  { LA := fun k =>
      if 1 ≤ k then
        match text[(k - 1).toNat]? with
        | some b => (b.val : Int)
        | none => -1
      else -1
    GetText := fun a b => (text.drop a.toNat).take (b.toNat + 1 - a.toNat) }

/-- A rune that is decoded from its own bytes whatever follows them: its
width is the number of its bytes, at least one, and
`utf8.DecodeRuneInString` reads the rune at the front of any string that
starts with these bytes. -/
def SoundRune (d : DecodedRune) : Prop :=
  1 ≤ d.width ∧ d.bytes.length = d.width ∧
    ∀ rest : GoString, DecodeRuneInString (d.bytes ++ rest) = (d.r, d.width)

/-- The runes that the reference escaping writes for one rune read: none
for an undecodable byte, two quotes for a quote, the rune itself when it is
printable, none otherwise. -/
def emittedRunes (lib : Stdlib) (d : DecodedRune) : List DecodedRune :=
  if d.width = 1 ∧ d.r = RuneError then []
  else if d.r = quote.val then
    [{ r := quote.val, width := 1, bytes := [quote] },
     { r := quote.val, width := 1, bytes := [quote] }]
  else if IsPrint lib d.r then [d]
  else []

/-- Whether some placeholder among the tokens has the index `j + 1`, that
is, selects the value `params[j]`; the index is the one `ParseInt` reads
after the marker. -/
def references (PARAMETER : Int) (ts : List Token) (j : Nat) : Bool :=
  ts.any (fun t => decide (t.tokenType = PARAMETER ∧
    (ParseInt (t.text.drop 1)).1 = (j : Int) + 1))

/-- The loop of `escapeString` run for at most `fuel` iterations, with a
record of the iterations. The result is `none` when the iterations are used
up while the loop condition `len(s) > 0` still holds; otherwise it is the
final buffer together with, for each iteration in order, the input `s` the
iteration started from and the `width` it removed from the front of it
(the loop continues with `s[width:]`). -/
def escapeRun (lib : Stdlib) (delim escape : Byte) :
    Nat → GoString → GoString → Option (GoString × List (GoString × Nat))
  | 0, s, buf => if s.length > 0 then none else some (buf, [])
  | fuel + 1, s, buf =>
    match s with
    | [] => some (buf, [])
    | s0 :: _ =>
      let rw := if s0.val ≥ RuneSelf then DecodeRuneInString s else (s0.val, 1)
      if rw.2 = 1 ∧ rw.1 = RuneError then
        (escapeRun lib delim escape fuel (s.drop rw.2) buf).map
          (fun r => (r.1, (s, rw.2) :: r.2))
      else if rw.1 = delim.val then
        (escapeRun lib delim escape fuel (s.drop rw.2) (buf ++ [escape, byte rw.1])).map
          (fun r => (r.1, (s, rw.2) :: r.2))
      else if IsPrint lib rw.1 then
        (escapeRun lib delim escape fuel (s.drop rw.2) (buf ++ EncodeRune rw.1)).map
          (fun r => (r.1, (s, rw.2) :: r.2))
      else
        (escapeRun lib delim escape fuel (s.drop rw.2) buf).map
          (fun r => (r.1, (s, rw.2) :: r.2))

/-! # Theorems -/

theorem digitByte_val (d : Nat) : (digitByte d).val = 48 + d % 10 := by
  simp only [digitByte, byte]
  omega

theorem digitsValueFrom_append (acc : Nat) (xs ys : GoString) :
    digitsValueFrom acc (xs ++ ys) = digitsValueFrom (digitsValueFrom acc xs) ys := by
  simp [digitsValueFrom, List.foldl_append]

/-- The digit string of `u` is non-empty, made of digits, without a leading
zero unless it is `0`, and denotes `u`. -/
theorem decimalDigits_spec (fuel : Nat) : ∀ u : Nat, u < 10 ^ (fuel + 1) →
    decimalDigits (fuel + 1) u ≠ [] ∧
    (∀ b ∈ decimalDigits (fuel + 1) u, 48 ≤ b.val ∧ b.val ≤ 57) ∧
    ((decimalDigits (fuel + 1) u).head? = some 48 → decimalDigits (fuel + 1) u = [48]) ∧
    (0 < u → (decimalDigits (fuel + 1) u).head? ≠ some 48) ∧
    digitsValue (decimalDigits (fuel + 1) u) = u := by
  have h48 : ((48 : Byte)).val = 48 := rfl
  have small : ∀ f u : Nat, u < 10 →
      decimalDigits (f + 1) u ≠ [] ∧
      (∀ b ∈ decimalDigits (f + 1) u, 48 ≤ b.val ∧ b.val ≤ 57) ∧
      ((decimalDigits (f + 1) u).head? = some 48 → decimalDigits (f + 1) u = [48]) ∧
      (0 < u → (decimalDigits (f + 1) u).head? ≠ some 48) ∧
      digitsValue (decimalDigits (f + 1) u) = u := by
    intro f u h10
    have hd : decimalDigits (f + 1) u = [digitByte u] := by simp [decimalDigits, h10]
    rw [hd]
    have hv := digitByte_val u
    refine ⟨by simp, ?_, ?_, ?_, ?_⟩
    · intro b hb
      simp only [List.mem_singleton] at hb
      subst hb; omega
    · intro h; simp only [List.head?_cons, Option.some.injEq] at h; rw [h]
    · intro hpos h
      simp only [List.head?_cons, Option.some.injEq] at h
      rw [h, h48] at hv
      omega
    · simp only [digitsValue, digitsValueFrom, List.foldl_cons, List.foldl_nil, hv]
      omega
  induction fuel with
  | zero => intro u h; exact small 0 u (by simpa using h)
  | succ fuel ih =>
    intro u hu
    by_cases h10 : u < 10
    · exact small (fuel + 1) u h10
    · have hd : decimalDigits (fuel + 1 + 1) u
          = decimalDigits (fuel + 1) (u / 10) ++ [digitByte (u % 10)] := by
        simp [decimalDigits, h10]
      have hlt : u / 10 < 10 ^ (fuel + 1) := by
        rw [Nat.div_lt_iff_lt_mul (by decide)]
        rw [Nat.pow_succ] at hu; exact hu
      obtain ⟨hne, hdig, _, hnz, hval⟩ := ih (u / 10) hlt
      have hpos : 0 < u / 10 := by omega
      have hv := digitByte_val (u % 10)
      rw [hd]
      have hhead : (decimalDigits (fuel + 1) (u / 10) ++ [digitByte (u % 10)]).head?
          = (decimalDigits (fuel + 1) (u / 10)).head? := by
        cases hds : decimalDigits (fuel + 1) (u / 10) with
        | nil => exact absurd hds hne
        | cons a t => simp
      refine ⟨by simp, ?_, ?_, ?_, ?_⟩
      · intro b hb
        rcases List.mem_append.mp hb with hb | hb
        · exact hdig b hb
        · simp only [List.mem_singleton] at hb
          subst hb; omega
      · intro h; rw [hhead] at h; exact absurd h (hnz hpos)
      · intro _ h; rw [hhead] at h; exact absurd h (hnz hpos)
      · simp only [digitsValue] at hval ⊢
        rw [digitsValueFrom_append, hval]
        simp only [digitsValueFrom, List.foldl_cons, List.foldl_nil, hv]
        omega

theorem wrapSigned_of_inRange (k : IntKind) (v : ℤ) (h : k.inRange v) :
    wrapSigned k.bits v = v := by
  unfold IntKind.inRange at h
  cases k <;> simp only [IntKind.bits, wrapSigned] at h ⊢ <;> norm_num at h ⊢ <;> omega

theorem IntKind.inRange_int64 (k : IntKind) (v : ℤ) (h : k.inRange v) :
    -(2 ^ 63 : ℤ) ≤ v ∧ v < 2 ^ 63 := by
  unfold IntKind.inRange at h
  cases k <;> simp only [IntKind.bits] at h <;> norm_num at h ⊢ <;> omega

theorem UintKind.inRange_uint64 (k : UintKind) (n : Nat) (h : k.inRange n) :
    n % 2 ^ k.bits = n ∧ n < 2 ^ 64 := by
  unfold UintKind.inRange at h
  cases k <;> simp only [UintKind.bits] at h ⊢ <;> norm_num at h ⊢ <;> omega

/-- On an `int64` value `FormatInt` is a minus sign for a negative value
followed by the digits of the absolute value. -/
theorem FormatInt_eq (v : ℤ) (h : -(2 ^ 63 : ℤ) ≤ v ∧ v < 2 ^ 63) :
    FormatInt v = (if v < 0 then [(45 : Byte)] else []) ++ decimalDigits 20 v.natAbs := by
  unfold FormatInt formatBits
  by_cases hneg : v < 0
  · have e : (2 ^ 64 - (v % 2 ^ 64).toNat % 2 ^ 64) % 2 ^ 64 = v.natAbs := by
      norm_num at h ⊢
      omega
    simp only [hneg, decide_True, if_true, e]
  · have e : (v % 2 ^ 64).toNat % 2 ^ 64 = v.natAbs := by
      norm_num at h ⊢
      omega
    simp only [hneg, decide_False, if_false, e, Bool.false_eq_true]

theorem FormatUint_eq (n : Nat) (h : n < 2 ^ 64) : FormatUint n = decimalDigits 20 n := by
  unfold FormatUint formatBits
  rw [Nat.mod_eq_of_lt h]
  simp

theorem formatParameter_int (lib : Stdlib) (k : IntKind) (d : Option GoString) (v : ℤ)
    (h : k.inRange v) : formatParameter lib (.int k d v) = .returns (FormatInt v) none := by
  simp [formatParameter, Value.kind, Value.Int, wrapSigned_of_inRange k v h]

theorem formatParameter_uint (lib : Stdlib) (k : UintKind) (d : Option GoString) (n : Nat)
    (h : k.inRange n) : formatParameter lib (.uint k d n) = .returns (FormatUint n) none := by
  simp [formatParameter, Value.kind, Value.Uint, (UintKind.inRange_uint64 k n h).1]

theorem all_isDigit_of (ds : GoString) (h : ∀ b ∈ ds, 48 ≤ b.val ∧ b.val ≤ 57) :
    ds.all isDigit = true := by
  simp only [List.all_eq_true, isDigit, decide_eq_true_eq]
  exact h

theorem parseIntegerLiteral_digits (ds : GoString) (hne : ds ≠ [])
    (h : ∀ b ∈ ds, 48 ≤ b.val ∧ b.val ≤ 57) :
    parseIntegerLiteral ds = some (digitsValue ds : ℤ) ∧
    parseIntegerLiteral ((45 : Byte) :: ds) = some (-(digitsValue ds : ℤ)) := by
  have hall := all_isDigit_of ds h
  constructor
  · cases ds with
    | nil => exact absurd rfl hne
    | cons c cs =>
      have hc := h c (by simp)
      have : ¬ c.val = 45 := by omega
      simp only [parseIntegerLiteral, this, if_false, hall, if_true]
  · have h45 : ((45 : Byte)).val = 45 := rfl
    simp only [parseIntegerLiteral, h45, if_true, hall, hne, ne_eq, not_false_eq_true, and_self]

theorem natAbs_lt_pow20 (v : ℤ) (h : -(2 ^ 63 : ℤ) ≤ v ∧ v < 2 ^ 63) : v.natAbs < 10 ^ (19 + 1) := by
  norm_num at h ⊢
  omega

/-- C10: for every boolean `b` (of the predeclared type or of a defined
type of kind bool), `formatParameter(b)` returns without error exactly the
text `true` when `b` is true and exactly `false` when `b` is false. -/
theorem formatParameter_bool (lib : Stdlib) (d : Option GoString) (b : Bool) :
    formatParameter lib (.bool d b)
      = .returns (if b then lit "true" else lit "false") none := by
  cases b <;> rfl

/-- C7: for every signed integer `v` of any width and every unsigned
integer `n` of any width, `formatParameter` returns a literal without error
and reading that literal as a base-10 integer literal gives the value
back. -/
theorem formatParameter_integer_roundtrip (lib : Stdlib) :
    (∀ (k : IntKind) (d : Option GoString) (v : ℤ), k.inRange v →
      ∃ s, formatParameter lib (.int k d v) = .returns s none ∧
        parseIntegerLiteral s = some v) ∧
    (∀ (k : UintKind) (d : Option GoString) (n : Nat), k.inRange n →
      ∃ s, formatParameter lib (.uint k d n) = .returns s none ∧
        parseIntegerLiteral s = some (n : ℤ)) := by
  constructor
  · intro k d v h
    have h64 := IntKind.inRange_int64 k v h
    obtain ⟨hne, hdig, _, _, hval⟩ := decimalDigits_spec 19 v.natAbs (natAbs_lt_pow20 v h64)
    have hp := parseIntegerLiteral_digits _ hne hdig
    refine ⟨FormatInt v, formatParameter_int lib k d v h, ?_⟩
    rw [FormatInt_eq v h64]
    by_cases hneg : v < 0
    · simp only [hneg, if_true, List.singleton_append, hp.2, hval, Option.some.injEq]
      omega
    · simp only [hneg, if_false, List.nil_append, hp.1, hval, Option.some.injEq]
      omega
  · intro k d n h
    have h64 := (UintKind.inRange_uint64 k n h).2
    have hlt : n < 10 ^ (19 + 1) := by norm_num at h64 ⊢; omega
    obtain ⟨hne, hdig, _, _, hval⟩ := decimalDigits_spec 19 n hlt
    refine ⟨FormatUint n, formatParameter_uint lib k d n h, ?_⟩
    rw [FormatUint_eq n h64, (parseIntegerLiteral_digits _ hne hdig).1, hval]

theorem formatParameter_integer_roundtrip_witness :
    IntKind.Int8.inRange (-128) ∧
    ∃ s, formatParameter sampleLib (.int .Int8 none (-128)) = .returns s none ∧
      parseIntegerLiteral s = some (-128) :=
  ⟨by decide, (formatParameter_integer_roundtrip sampleLib).1 .Int8 none (-128) (by decide)⟩

/-- C8: for every signed integer `v` of any width, `formatParameter(v)` is a
minus sign exactly when `v < 0`, followed by a non-empty string of ASCII
decimal digits that has no leading zero unless it is the single digit
`0`. -/
theorem formatParameter_int_shape (lib : Stdlib) (k : IntKind) (d : Option GoString)
    (v : ℤ) (h : k.inRange v) :
    ∃ ds : GoString,
      formatParameter lib (.int k d v)
        = .returns ((if v < 0 then [(45 : Byte)] else []) ++ ds) none ∧
      ds ≠ [] ∧ (∀ b ∈ ds, 48 ≤ b.val ∧ b.val ≤ 57) ∧
      (ds.head? = some 48 → ds = [48]) := by
  have h64 := IntKind.inRange_int64 k v h
  obtain ⟨hne, hdig, hz, _, _⟩ := decimalDigits_spec 19 v.natAbs (natAbs_lt_pow20 v h64)
  exact ⟨decimalDigits 20 v.natAbs,
    by rw [formatParameter_int lib k d v h, FormatInt_eq v h64], hne, hdig, hz⟩

theorem formatParameter_int_shape_witness :
    IntKind.Int64.inRange (-(2 ^ 63)) ∧
    ∃ ds : GoString,
      formatParameter sampleLib (.int .Int64 none (-(2 ^ 63)))
        = .returns ((if (-(2 ^ 63) : ℤ) < 0 then [(45 : Byte)] else []) ++ ds) none ∧
      ds ≠ [] ∧ (∀ b ∈ ds, 48 ≤ b.val ∧ b.val ≤ 57) ∧
      (ds.head? = some 48 → ds = [48]) :=
  ⟨by decide, formatParameter_int_shape sampleLib .Int64 none (-(2 ^ 63)) (by decide)⟩

/-- C9: for every unsigned integer `n` of kind uint, uint8, uint16, uint32
or uint64, `formatParameter(n)` is the non-empty string of ASCII decimal
digits that denotes `n` in base 10, with no sign and no leading zero unless
it is the single digit `0`. -/
theorem formatParameter_uint_digits (lib : Stdlib) (k : UintKind) (d : Option GoString)
    (n : Nat) (h : k.inRange n) :
    ∃ ds : GoString,
      formatParameter lib (.uint k d n) = .returns ds none ∧
      ds ≠ [] ∧ (∀ b ∈ ds, 48 ≤ b.val ∧ b.val ≤ 57) ∧
      (ds.head? = some 48 → ds = [48]) ∧ digitsValue ds = n := by
  have h64 := (UintKind.inRange_uint64 k n h).2
  have hlt : n < 10 ^ (19 + 1) := by norm_num at h64 ⊢; omega
  obtain ⟨hne, hdig, hz, _, hval⟩ := decimalDigits_spec 19 n hlt
  exact ⟨decimalDigits 20 n,
    by rw [formatParameter_uint lib k d n h, FormatUint_eq n h64], hne, hdig, hz, hval⟩

theorem formatParameter_uint_digits_witness :
    UintKind.Uint64.inRange (2 ^ 64 - 1) ∧
    ∃ ds : GoString,
      formatParameter sampleLib (.uint .Uint64 none (2 ^ 64 - 1)) = .returns ds none ∧
      ds ≠ [] ∧ (∀ b ∈ ds, 48 ≤ b.val ∧ b.val ≤ 57) ∧
      (ds.head? = some 48 → ds = [48]) ∧ digitsValue ds = 2 ^ 64 - 1 :=
  ⟨by decide, formatParameter_uint_digits sampleLib .Uint64 none (2 ^ 64 - 1) (by decide)⟩


/-! ## Bit operations as arithmetic -/

theorem or_mul_pow (i k m : Nat) (h : m < 2 ^ i) : k * 2 ^ i ||| m = k * 2 ^ i + m := by
  rw [Nat.mul_comm k, ← Nat.mul_add_lt_is_or h]

theorem and_mask (x i : Nat) : x &&& (2 ^ i - 1) = x % 2 ^ i :=
  Nat.and_pow_two_sub_one_eq_mod x i

theorem and_0x3F (x : Nat) : x &&& 0x3F = x % 64 := and_mask x 6

theorem and_0x1F (x : Nat) : x &&& 0x1F = x % 32 := and_mask x 5

theorem and_0x0F (x : Nat) : x &&& 0x0F = x % 16 := and_mask x 4

theorem and_0x07 (x : Nat) : x &&& 0x07 = x % 8 := and_mask x 3

theorem or_0x80 (m : Nat) (h : m < 64) : 0x80 ||| m = 0x80 + m := or_mul_pow 6 2 m h

theorem byte_val (x : Nat) : (byte x).val = x % 256 := rfl

theorem byte_eq_of_val (b : Byte) (x : Nat) (h : x = b.val) : byte x = b := by
  apply Fin.ext
  rw [byte_val, h]
  exact Nat.mod_eq_of_lt b.isLt

/-- Two-byte sequences: encoding the decoded rune gives the bytes back. -/
theorem EncodeRune_decode2 (s0 s1 : Byte) (h0 : 0xC2 ≤ s0.val ∧ s0.val ≤ 0xDF)
    (h1 : 0x80 ≤ s1.val ∧ s1.val ≤ 0xBF) :
    0x80 ≤ (((s0.val &&& 0x1F) <<< 6) ||| (s1.val &&& 0x3F)) ∧
    EncodeRune (((s0.val &&& 0x1F) <<< 6) ||| (s1.val &&& 0x3F)) = [s0, s1] := by
  have hr : ((s0.val &&& 0x1F) <<< 6) ||| (s1.val &&& 0x3F)
      = (s0.val % 32) * 64 + s1.val % 64 := by
    rw [and_0x1F, and_0x3F, Nat.shiftLeft_eq]
    exact or_mul_pow 6 _ _ (Nat.mod_lt _ (by decide))
  rw [hr]
  generalize hrv : (s0.val % 32) * 64 + s1.val % 64 = r
  have b0 : (r >>> 6) % 256 = s0.val % 32 := by
    rw [Nat.shiftRight_eq_div_pow]; omega
  have b1 : r % 256 &&& 0x3F = s1.val % 64 := by
    rw [and_0x3F]; omega
  have o0 : 0xC0 ||| s0.val % 32 = 0xC0 + s0.val % 32 :=
    or_mul_pow 5 6 _ (Nat.mod_lt _ (by decide))
  have o1 := or_0x80 (s1.val % 64) (Nat.mod_lt _ (by decide))
  refine ⟨by omega, ?_⟩
  unfold EncodeRune
  rw [if_neg (by omega), if_pos (by omega), b0, b1, o0, o1]
  rw [byte_eq_of_val s0 _ (by omega), byte_eq_of_val s1 _ (by omega)]

/-- Three-byte sequences: encoding the decoded rune gives the bytes back. -/
theorem EncodeRune_decode3 (s0 s1 s2 : Byte) (h0 : 0xE0 ≤ s0.val ∧ s0.val ≤ 0xEF)
    (h1 : 0x80 ≤ s1.val ∧ s1.val ≤ 0xBF) (h2 : 0x80 ≤ s2.val ∧ s2.val ≤ 0xBF)
    (hlo : s0.val = 0xE0 → 0xA0 ≤ s1.val) (hhi : s0.val = 0xED → s1.val ≤ 0x9F) :
    0x80 ≤ (((s0.val &&& 0x0F) <<< 12) ||| ((s1.val &&& 0x3F) <<< 6) ||| (s2.val &&& 0x3F)) ∧
    EncodeRune (((s0.val &&& 0x0F) <<< 12) ||| ((s1.val &&& 0x3F) <<< 6)
      ||| (s2.val &&& 0x3F)) = [s0, s1, s2] := by
  have hr : ((s0.val &&& 0x0F) <<< 12) ||| ((s1.val &&& 0x3F) <<< 6) ||| (s2.val &&& 0x3F)
      = (s0.val % 16) * 4096 + (s1.val % 64) * 64 + s2.val % 64 := by
    rw [and_0x0F, and_0x3F, and_0x3F, Nat.shiftLeft_eq, Nat.shiftLeft_eq]
    have hAB := or_mul_pow 12 (s0.val % 16) ((s1.val % 64) * 2 ^ 6) (by norm_num; omega)
    rw [hAB]
    have hk : (s0.val % 16) * 2 ^ 12 + (s1.val % 64) * 2 ^ 6
        = ((s0.val % 16) * 64 + s1.val % 64) * 2 ^ 6 := by norm_num; omega
    rw [hk, or_mul_pow 6 _ (s2.val % 64) (by norm_num; omega)]
    norm_num; omega
  rw [hr]
  generalize hrv : (s0.val % 16) * 4096 + (s1.val % 64) * 64 + s2.val % 64 = r
  have b0 : (r >>> 12) % 256 = s0.val % 16 := by
    rw [Nat.shiftRight_eq_div_pow]; omega
  have b1 : (r >>> 6) % 256 &&& 0x3F = s1.val % 64 := by
    rw [and_0x3F, Nat.shiftRight_eq_div_pow]; omega
  have b2 : r % 256 &&& 0x3F = s2.val % 64 := by
    rw [and_0x3F]; omega
  have o0 : 0xE0 ||| s0.val % 16 = 0xE0 + s0.val % 16 :=
    or_mul_pow 4 14 _ (Nat.mod_lt _ (by decide))
  have o1 := or_0x80 (s1.val % 64) (Nat.mod_lt _ (by decide))
  have o2 := or_0x80 (s2.val % 64) (Nat.mod_lt _ (by decide))
  refine ⟨by omega, ?_⟩
  have c1 : ¬ (r > MaxRune ∨ (0xD800 ≤ r ∧ r ≤ 0xDFFF)) := by
    simp only [MaxRune]; omega
  have c2 : r > MaxRune ∨ (0xD800 ≤ r ∧ r ≤ 0xDFFF) ∨ r ≤ 0xFFFF := by
    right; right; omega
  unfold EncodeRune
  rw [if_neg (by omega), if_neg (by omega)]
  simp only [if_neg c1, if_pos c2, b0, b1, b2, o0, o1, o2]
  rw [byte_eq_of_val s0 _ (by omega), byte_eq_of_val s1 _ (by omega),
    byte_eq_of_val s2 _ (by omega)]

/-- Four-byte sequences: encoding the decoded rune gives the bytes back. -/
theorem EncodeRune_decode4 (s0 s1 s2 s3 : Byte) (h0 : 0xF0 ≤ s0.val ∧ s0.val ≤ 0xF4)
    (h1 : 0x80 ≤ s1.val ∧ s1.val ≤ 0xBF) (h2 : 0x80 ≤ s2.val ∧ s2.val ≤ 0xBF)
    (h3 : 0x80 ≤ s3.val ∧ s3.val ≤ 0xBF)
    (hlo : s0.val = 0xF0 → 0x90 ≤ s1.val) (hhi : s0.val = 0xF4 → s1.val ≤ 0x8F) :
    0x80 ≤ (((s0.val &&& 0x07) <<< 18) ||| ((s1.val &&& 0x3F) <<< 12)
      ||| ((s2.val &&& 0x3F) <<< 6) ||| (s3.val &&& 0x3F)) ∧
    EncodeRune (((s0.val &&& 0x07) <<< 18) ||| ((s1.val &&& 0x3F) <<< 12)
      ||| ((s2.val &&& 0x3F) <<< 6) ||| (s3.val &&& 0x3F)) = [s0, s1, s2, s3] := by
  have hr : ((s0.val &&& 0x07) <<< 18) ||| ((s1.val &&& 0x3F) <<< 12)
      ||| ((s2.val &&& 0x3F) <<< 6) ||| (s3.val &&& 0x3F)
      = (s0.val % 8) * 262144 + (s1.val % 64) * 4096 + (s2.val % 64) * 64 + s3.val % 64 := by
    rw [and_0x07, and_0x3F, and_0x3F, and_0x3F, Nat.shiftLeft_eq, Nat.shiftLeft_eq,
      Nat.shiftLeft_eq]
    have hAB := or_mul_pow 18 (s0.val % 8) ((s1.val % 64) * 2 ^ 12) (by norm_num; omega)
    rw [hAB]
    have hk : (s0.val % 8) * 2 ^ 18 + (s1.val % 64) * 2 ^ 12
        = ((s0.val % 8) * 64 + s1.val % 64) * 2 ^ 12 := by norm_num; omega
    rw [hk, or_mul_pow 12 _ ((s2.val % 64) * 2 ^ 6) (by norm_num; omega)]
    have hk2 : ((s0.val % 8) * 64 + s1.val % 64) * 2 ^ 12 + (s2.val % 64) * 2 ^ 6
        = (((s0.val % 8) * 64 + s1.val % 64) * 64 + s2.val % 64) * 2 ^ 6 := by
      norm_num; omega
    rw [hk2, or_mul_pow 6 _ (s3.val % 64) (by norm_num; omega)]
    norm_num; omega
  rw [hr]
  generalize hrv : (s0.val % 8) * 262144 + (s1.val % 64) * 4096 + (s2.val % 64) * 64
    + s3.val % 64 = r
  have b0 : (r >>> 18) % 256 = s0.val % 8 := by
    rw [Nat.shiftRight_eq_div_pow]; omega
  have b1 : (r >>> 12) % 256 &&& 0x3F = s1.val % 64 := by
    rw [and_0x3F, Nat.shiftRight_eq_div_pow]; omega
  have b2 : (r >>> 6) % 256 &&& 0x3F = s2.val % 64 := by
    rw [and_0x3F, Nat.shiftRight_eq_div_pow]; omega
  have b3 : r % 256 &&& 0x3F = s3.val % 64 := by
    rw [and_0x3F]; omega
  have o0 : 0xF0 ||| s0.val % 8 = 0xF0 + s0.val % 8 :=
    or_mul_pow 3 30 _ (Nat.mod_lt _ (by decide))
  have o1 := or_0x80 (s1.val % 64) (Nat.mod_lt _ (by decide))
  have o2 := or_0x80 (s2.val % 64) (Nat.mod_lt _ (by decide))
  have o3 := or_0x80 (s3.val % 64) (Nat.mod_lt _ (by decide))
  refine ⟨by omega, ?_⟩
  have c2 : ¬ (r > MaxRune ∨ (0xD800 ≤ r ∧ r ≤ 0xDFFF) ∨ r ≤ 0xFFFF) := by
    simp only [MaxRune]; omega
  unfold EncodeRune
  rw [if_neg (by omega), if_neg (by omega)]
  simp only [if_neg c2, b0, b1, b2, b3, o0, o1, o2, o3]
  rw [byte_eq_of_val s0 _ (by omega), byte_eq_of_val s1 _ (by omega),
    byte_eq_of_val s2 _ (by omega), byte_eq_of_val s3 _ (by omega)]

/-- Classes of first bytes with their entry in the table `first`. -/
theorem first_class (b : Byte) :
    (b.val < 0x80 ∧ first b.val = 0xF0) ∨
    (0xC2 ≤ b.val ∧ b.val ≤ 0xDF ∧ first b.val = 0x02) ∨
    (b.val = 0xE0 ∧ first b.val = 0x13) ∨
    (0xE1 ≤ b.val ∧ b.val ≤ 0xEF ∧ b.val ≠ 0xED ∧ first b.val = 0x03) ∨
    (b.val = 0xED ∧ first b.val = 0x23) ∨
    (b.val = 0xF0 ∧ first b.val = 0x34) ∨
    (0xF1 ≤ b.val ∧ b.val ≤ 0xF3 ∧ first b.val = 0x04) ∨
    (b.val = 0xF4 ∧ first b.val = 0x44) ∨
    (0x80 ≤ b.val ∧ first b.val = 0xF1) := by
  unfold first
  by_cases c1 : b.val < 0x80
  · exact Or.inl ⟨c1, by rw [if_pos c1]⟩
  by_cases c2 : b.val < 0xC2
  · exact Or.inr (Or.inr (Or.inr (Or.inr (Or.inr (Or.inr (Or.inr (Or.inr
      ⟨by omega, by rw [if_neg c1, if_pos c2]⟩)))))))
  by_cases c3 : b.val < 0xE0
  · exact Or.inr (Or.inl ⟨by omega, by omega, by rw [if_neg c1, if_neg c2, if_pos c3]⟩)
  by_cases c4 : b.val = 0xE0
  · exact Or.inr (Or.inr (Or.inl ⟨c4, by rw [if_neg c1, if_neg c2, if_neg c3, if_pos c4]⟩))
  by_cases c5 : b.val < 0xED
  · exact Or.inr (Or.inr (Or.inr (Or.inl ⟨by omega, by omega, by omega,
      by rw [if_neg c1, if_neg c2, if_neg c3, if_neg c4, if_pos c5]⟩)))
  by_cases c6 : b.val = 0xED
  · exact Or.inr (Or.inr (Or.inr (Or.inr (Or.inl ⟨c6,
      by rw [if_neg c1, if_neg c2, if_neg c3, if_neg c4, if_neg c5, if_pos c6]⟩))))
  by_cases c7 : b.val < 0xF0
  · exact Or.inr (Or.inr (Or.inr (Or.inl ⟨by omega, by omega, c6,
      by rw [if_neg c1, if_neg c2, if_neg c3, if_neg c4, if_neg c5, if_neg c6, if_pos c7]⟩)))
  by_cases c8 : b.val = 0xF0
  · exact Or.inr (Or.inr (Or.inr (Or.inr (Or.inr (Or.inl ⟨c8,
      by rw [if_neg c1, if_neg c2, if_neg c3, if_neg c4, if_neg c5, if_neg c6, if_neg c7,
        if_pos c8]⟩)))))
  by_cases c9 : b.val < 0xF4
  · exact Or.inr (Or.inr (Or.inr (Or.inr (Or.inr (Or.inr (Or.inl ⟨by omega, by omega,
      by rw [if_neg c1, if_neg c2, if_neg c3, if_neg c4, if_neg c5, if_neg c6, if_neg c7,
        if_neg c8, if_pos c9]⟩))))))
  by_cases c10 : b.val = 0xF4
  · exact Or.inr (Or.inr (Or.inr (Or.inr (Or.inr (Or.inr (Or.inr (Or.inl ⟨c10,
      by rw [if_neg c1, if_neg c2, if_neg c3, if_neg c4, if_neg c5, if_neg c6, if_neg c7,
        if_neg c8, if_neg c9, if_pos c10]⟩)))))))
  · exact Or.inr (Or.inr (Or.inr (Or.inr (Or.inr (Or.inr (Or.inr (Or.inr
      ⟨by omega, by rw [if_neg c1, if_neg c2, if_neg c3, if_neg c4, if_neg c5, if_neg c6,
        if_neg c7, if_neg c8, if_neg c9, if_neg c10]⟩)))))))

/-- Decoding at a first byte that starts a two-byte sequence. -/
theorem decode_two (s0 : Byte) (t : GoString) (x lo hi : Nat) (hf : first s0.val = x)
    (hx : x < 0xF0) (hsz : x &&& 7 = 2) (hacc : acceptRanges (x >>> 4) = (lo, hi)) :
    DecodeRuneInString (s0 :: t) =
      match t with
      | [] => (RuneError, 1)
      | s1 :: _ =>
        if s1.val < lo ∨ hi < s1.val then (RuneError, 1)
        else (((s0.val &&& 0x1F) <<< 6) ||| (s1.val &&& 0x3F), 2) := by
  cases t with
  | nil => simp [DecodeRuneInString, hf, hsz, hacc, Nat.not_le.mpr hx]
  | cons s1 t1 => simp [DecodeRuneInString, hf, hsz, hacc, Nat.not_le.mpr hx]

/-- Decoding at a first byte that starts a three-byte sequence. -/
theorem decode_three (s0 : Byte) (t : GoString) (x lo hi : Nat) (hf : first s0.val = x)
    (hx : x < 0xF0) (hsz : x &&& 7 = 3) (hacc : acceptRanges (x >>> 4) = (lo, hi)) :
    DecodeRuneInString (s0 :: t) =
      match t with
      | [] => (RuneError, 1)
      | [_] => (RuneError, 1)
      | s1 :: s2 :: _ =>
        if s1.val < lo ∨ hi < s1.val then (RuneError, 1)
        else if s2.val < 0x80 ∨ 0xBF < s2.val then (RuneError, 1)
        else (((s0.val &&& 0x0F) <<< 12) ||| ((s1.val &&& 0x3F) <<< 6)
          ||| (s2.val &&& 0x3F), 3) := by
  match t with
  | [] => simp [DecodeRuneInString, hf, hsz, hacc, Nat.not_le.mpr hx]
  | [s1] => simp [DecodeRuneInString, hf, hsz, hacc, Nat.not_le.mpr hx]
  | s1 :: s2 :: t2 => simp [DecodeRuneInString, hf, hsz, hacc, Nat.not_le.mpr hx]

/-- Decoding at a first byte that starts a four-byte sequence. -/
theorem decode_four (s0 : Byte) (t : GoString) (x lo hi : Nat) (hf : first s0.val = x)
    (hx : x < 0xF0) (hsz : x &&& 7 = 4) (hacc : acceptRanges (x >>> 4) = (lo, hi)) :
    DecodeRuneInString (s0 :: t) =
      match t with
      | [] => (RuneError, 1)
      | [_] => (RuneError, 1)
      | [_, _] => (RuneError, 1)
      | s1 :: s2 :: s3 :: _ =>
        if s1.val < lo ∨ hi < s1.val then (RuneError, 1)
        else if s2.val < 0x80 ∨ 0xBF < s2.val then (RuneError, 1)
        else if s3.val < 0x80 ∨ 0xBF < s3.val then (RuneError, 1)
        else (((s0.val &&& 0x07) <<< 18) ||| ((s1.val &&& 0x3F) <<< 12)
          ||| ((s2.val &&& 0x3F) <<< 6) ||| (s3.val &&& 0x3F), 4) := by
  match t with
  | [] => simp [DecodeRuneInString, hf, hsz, hacc, Nat.not_le.mpr hx]
  | [s1] => simp [DecodeRuneInString, hf, hsz, hacc, Nat.not_le.mpr hx]
  | [s1, s2] => simp [DecodeRuneInString, hf, hsz, hacc, Nat.not_le.mpr hx]
  | s1 :: s2 :: s3 :: t3 => simp [DecodeRuneInString, hf, hsz, hacc, Nat.not_le.mpr hx]

theorem ReadsRune_two (s0 : Byte) (t : GoString) (x : Nat) (hf : first s0.val = x)
    (hx : x < 0xF0) (hsz : x &&& 7 = 2) (hacc : acceptRanges (x >>> 4) = (0x80, 0xBF))
    (h0 : 0xC2 ≤ s0.val ∧ s0.val ≤ 0xDF) :
    ReadsRune (s0 :: t) (DecodeRuneInString (s0 :: t)) := by
  rw [decode_two s0 t x _ _ hf hx hsz hacc]
  cases t with
  | nil => exact Or.inl rfl
  | cons s1 t1 =>
    by_cases hc : s1.val < 0x80 ∨ 0xBF < s1.val
    · simp only [if_pos hc]; exact Or.inl rfl
    · simp only [if_neg hc]
      have h1 : 0x80 ≤ s1.val ∧ s1.val ≤ 0xBF := by omega
      obtain ⟨hge, henc⟩ := EncodeRune_decode2 s0 s1 h0 h1
      refine Or.inr (Or.inr ⟨le_refl _, by simp, hge, by simpa using henc, ?_⟩)
      intro b hb
      simp only [List.take_succ_cons, List.take_zero, List.mem_cons, List.mem_singleton,
        List.not_mem_nil, or_false] at hb
      rcases hb with rfl | rfl <;> omega

theorem ReadsRune_three (s0 : Byte) (t : GoString) (x lo hi : Nat) (hf : first s0.val = x)
    (hx : x < 0xF0) (hsz : x &&& 7 = 3) (hacc : acceptRanges (x >>> 4) = (lo, hi))
    (h0 : 0xE0 ≤ s0.val ∧ s0.val ≤ 0xEF) (hlo : 0x80 ≤ lo) (hhi : hi ≤ 0xBF)
    (hE0 : s0.val = 0xE0 → 0xA0 ≤ lo) (hED : s0.val = 0xED → hi ≤ 0x9F) :
    ReadsRune (s0 :: t) (DecodeRuneInString (s0 :: t)) := by
  rw [decode_three s0 t x lo hi hf hx hsz hacc]
  match t with
  | [] => exact Or.inl rfl
  | [_] => exact Or.inl rfl
  | s1 :: s2 :: t2 =>
    by_cases hc : s1.val < lo ∨ hi < s1.val
    · simp only [if_pos hc]; exact Or.inl rfl
    by_cases hc2 : s2.val < 0x80 ∨ 0xBF < s2.val
    · simp only [if_neg hc, if_pos hc2]; exact Or.inl rfl
    simp only [if_neg hc, if_neg hc2]
    have h1 : 0x80 ≤ s1.val ∧ s1.val ≤ 0xBF := by omega
    have h2 : 0x80 ≤ s2.val ∧ s2.val ≤ 0xBF := by omega
    obtain ⟨hge, henc⟩ := EncodeRune_decode3 s0 s1 s2 h0 h1 h2
      (fun h => by have := hE0 h; omega) (fun h => by have := hED h; omega)
    refine Or.inr (Or.inr ⟨by simp, by simp, hge, by simpa using henc, ?_⟩)
    intro b hb
    simp only [List.take_succ_cons, List.take_zero, List.mem_cons, List.mem_singleton,
      List.not_mem_nil, or_false] at hb
    rcases hb with rfl | rfl | rfl <;> omega

theorem ReadsRune_four (s0 : Byte) (t : GoString) (x lo hi : Nat) (hf : first s0.val = x)
    (hx : x < 0xF0) (hsz : x &&& 7 = 4) (hacc : acceptRanges (x >>> 4) = (lo, hi))
    (h0 : 0xF0 ≤ s0.val ∧ s0.val ≤ 0xF4) (hlo : 0x80 ≤ lo) (hhi : hi ≤ 0xBF)
    (hF0 : s0.val = 0xF0 → 0x90 ≤ lo) (hF4 : s0.val = 0xF4 → hi ≤ 0x8F) :
    ReadsRune (s0 :: t) (DecodeRuneInString (s0 :: t)) := by
  rw [decode_four s0 t x lo hi hf hx hsz hacc]
  match t with
  | [] => exact Or.inl rfl
  | [_] => exact Or.inl rfl
  | [_, _] => exact Or.inl rfl
  | s1 :: s2 :: s3 :: t3 =>
    by_cases hc : s1.val < lo ∨ hi < s1.val
    · simp only [if_pos hc]; exact Or.inl rfl
    by_cases hc2 : s2.val < 0x80 ∨ 0xBF < s2.val
    · simp only [if_neg hc, if_pos hc2]; exact Or.inl rfl
    by_cases hc3 : s3.val < 0x80 ∨ 0xBF < s3.val
    · simp only [if_neg hc, if_neg hc2, if_pos hc3]; exact Or.inl rfl
    simp only [if_neg hc, if_neg hc2, if_neg hc3]
    have h1 : 0x80 ≤ s1.val ∧ s1.val ≤ 0xBF := by omega
    have h2 : 0x80 ≤ s2.val ∧ s2.val ≤ 0xBF := by omega
    have h3 : 0x80 ≤ s3.val ∧ s3.val ≤ 0xBF := by omega
    obtain ⟨hge, henc⟩ := EncodeRune_decode4 s0 s1 s2 s3 h0 h1 h2 h3
      (fun h => by have := hF0 h; omega) (fun h => by have := hF4 h; omega)
    refine Or.inr (Or.inr ⟨by simp, by simp, hge, by simpa using henc, ?_⟩)
    intro b hb
    simp only [List.take_succ_cons, List.take_zero, List.mem_cons, List.mem_singleton,
      List.not_mem_nil, or_false] at hb
    rcases hb with rfl | rfl | rfl | rfl <;> omega

/-- Reading a rune at the front of a non-empty string gives one of the
three results of `ReadsRune`. -/
theorem DecodeRuneInString_reads (s0 : Byte) (t : GoString) :
    ReadsRune (s0 :: t) (DecodeRuneInString (s0 :: t)) := by
  rcases first_class s0 with ⟨h, hf⟩ | ⟨h, h', hf⟩ | ⟨h, hf⟩ | ⟨h, h', h'', hf⟩ | ⟨h, hf⟩
    | ⟨h, hf⟩ | ⟨h, h', hf⟩ | ⟨h, hf⟩ | ⟨h, hf⟩
  · exact Or.inr (Or.inl ⟨s0, t, rfl, h, by simp [DecodeRuneInString, hf]⟩)
  · exact ReadsRune_two s0 t _ hf (by decide) rfl rfl ⟨h, h'⟩
  · exact ReadsRune_three s0 t _ 0xA0 0xBF hf (by decide) rfl rfl (by omega) (by decide)
      (by decide) (fun _ => by decide) (fun h2 => by omega)
  · exact ReadsRune_three s0 t _ 0x80 0xBF hf (by decide) rfl rfl (by omega) (by decide)
      (by decide) (fun h2 => by omega) (fun h2 => by omega)
  · exact ReadsRune_three s0 t _ 0x80 0x9F hf (by decide) rfl rfl (by omega) (by decide)
      (by decide) (fun h2 => by omega) (fun _ => by decide)
  · exact ReadsRune_four s0 t _ 0x90 0xBF hf (by decide) rfl rfl (by omega) (by decide)
      (by decide) (fun _ => by decide) (fun h2 => by omega)
  · exact ReadsRune_four s0 t _ 0x80 0xBF hf (by decide) rfl rfl (by omega) (by decide)
      (by decide) (fun h2 => by omega) (fun h2 => by omega)
  · exact ReadsRune_four s0 t _ 0x80 0x8F hf (by decide) rfl rfl (by omega) (by decide)
      (by decide) (fun h2 => by omega) (fun _ => by decide)
  · exact Or.inl (by simp [DecodeRuneInString, hf, RuneError])


/-! ## The escaping loop -/

theorem decode_ascii (s0 : Byte) (t : GoString) (h : s0.val < 0x80) :
    DecodeRuneInString (s0 :: t) = (s0.val, 1) := by
  have hf : first s0.val = 0xF0 := by unfold first; rw [if_pos h]
  simp [DecodeRuneInString, hf]

theorem byte_quote : byte quote.val = quote := rfl

theorem EncodeRune_ascii (s0 : Byte) (h : s0.val < 0x80) : EncodeRune s0.val = [s0] := by
  unfold EncodeRune
  rw [if_pos (by omega), byte_eq_of_val s0 _ rfl]

/-- One iteration of the loop of `escapeString`: the rune at the front is
read with `DecodeRuneInString` and what `emitRune` writes for it is
appended to the buffer. -/
theorem escapeLoop_step (lib : Stdlib) (fuel : Nat) (s0 : Byte) (t buf : GoString) :
    escapeLoop lib quote quote (fuel + 1) (s0 :: t) buf =
      escapeLoop lib quote quote fuel ((s0 :: t).drop (DecodeRuneInString (s0 :: t)).2)
        (buf ++ emitRune lib
          { r := (DecodeRuneInString (s0 :: t)).1,
            width := (DecodeRuneInString (s0 :: t)).2,
            bytes := (s0 :: t).take (DecodeRuneInString (s0 :: t)).2 }) := by
  have hfast : (if s0.val ≥ RuneSelf then DecodeRuneInString (s0 :: t) else (s0.val, 1))
      = DecodeRuneInString (s0 :: t) := by
    by_cases h : s0.val ≥ RuneSelf
    · rw [if_pos h]
    · rw [if_neg h, decode_ascii s0 t (by simpa [RuneSelf] using h)]
  rw [escapeLoop]
  simp only [hfast]
  rcases DecodeRuneInString_reads s0 t with h | ⟨a, u, hs, ha, h⟩ | ⟨hw, _, hr, henc, _⟩
  · simp [h, emitRune]
  · obtain ⟨rfl, rfl⟩ := List.cons.inj hs
    rw [h]
    have hne : ¬ (s0.val = RuneError) := by simp only [RuneError]; omega
    by_cases hq : s0.val = quote.val
    · have hqe : ¬ (quote.val = RuneError) := by rw [← hq]; exact hne
      simp [emitRune, hq, hqe, byte_quote]
    · by_cases hp : IsPrint lib s0.val = true
      · simp [emitRune, hne, hq, hp, EncodeRune_ascii s0 ha]
      · simp [emitRune, hne, hq, hp]
  · have hw1 : ¬ ((DecodeRuneInString (s0 :: t)).2 = 1) := by omega
    have hq : ¬ ((DecodeRuneInString (s0 :: t)).1 = quote.val) := by
      have : quote.val = 39 := rfl
      omega
    by_cases hp : IsPrint lib (DecodeRuneInString (s0 :: t)).1 = true
    · simp only [emitRune, hw1, false_and, if_false, hq, hp, if_true, henc]
    · simp only [emitRune, hw1, false_and, if_false, hq, hp]
      simp

theorem escapeLoop_eq_decodeRunes (lib : Stdlib) (fuel : Nat) : ∀ s buf : GoString,
    escapeLoop lib quote quote fuel s buf
      = buf ++ (decodeRunes fuel s).flatMap (emitRune lib) := by
  induction fuel with
  | zero => intro s buf; simp [escapeLoop, decodeRunes]
  | succ fuel ih =>
    intro s buf
    cases s with
    | nil => simp [escapeLoop, decodeRunes]
    | cons s0 t =>
      rw [escapeLoop_step, ih]
      simp [decodeRunes, List.append_assoc]

theorem escapeString_eq_reference (lib : Stdlib) (s : GoString) :
    escapeString lib s quote quote = escapeReference lib s := by
  simp [escapeString, escapeReference, runesOf, escapeLoop_eq_decodeRunes]

/-- The width of the rune read at the front of a non-empty string is at
least one and at most the length of the string. -/
theorem decode_width (s0 : Byte) (t : GoString) :
    1 ≤ (DecodeRuneInString (s0 :: t)).2 ∧
    (DecodeRuneInString (s0 :: t)).2 ≤ (s0 :: t).length := by
  rcases DecodeRuneInString_reads s0 t with h | ⟨a, u, _, _, h⟩ | ⟨hw, hl, _⟩
  · rw [h]; simp
  · rw [h]; simp
  · omega

/-- With fuel for every byte, the runes read cover the whole string: their
bytes, in order, are the string. -/
theorem decodeRunes_bytes (fuel : Nat) : ∀ s : GoString, s.length ≤ fuel →
    (decodeRunes fuel s).flatMap (fun d => d.bytes) = s := by
  induction fuel with
  | zero =>
    intro s h
    have : s = [] := List.length_eq_zero.mp (Nat.le_zero.mp h)
    subst this; simp [decodeRunes]
  | succ fuel ih =>
    intro s h
    cases s with
    | nil => simp [decodeRunes]
    | cons s0 t =>
      obtain ⟨h1, h2⟩ := decode_width s0 t
      have hlen : ((s0 :: t).drop (DecodeRuneInString (s0 :: t)).2).length ≤ fuel := by
        rw [List.length_drop]; simp only [List.length_cons] at h h2 ⊢; omega
      simp only [decodeRunes, List.flatMap_cons, ih _ hlen, List.take_append_drop]

/-- Every rune read from a string is an undecodable byte, an ASCII byte
standing for itself, or a multi-byte rune whose bytes are all at least
`0x80`. -/
theorem decodeRunes_class (fuel : Nat) : ∀ (s : GoString) (d : DecodedRune),
    d ∈ decodeRunes fuel s →
      (d.width = 1 ∧ d.r = RuneError) ∨
      (∃ b : Byte, d.bytes = [b] ∧ b.val = d.r ∧ d.r < 0x80) ∨
      (2 ≤ d.width ∧ 0x80 ≤ d.r ∧ ∀ b ∈ d.bytes, 0x80 ≤ b.val) := by
  induction fuel with
  | zero => intro s d h; simp [decodeRunes] at h
  | succ fuel ih =>
    intro s d h
    cases s with
    | nil => simp [decodeRunes] at h
    | cons s0 t =>
      simp only [decodeRunes, List.mem_cons] at h
      rcases h with rfl | h
      · rcases DecodeRuneInString_reads s0 t with h | ⟨a, u, hs, ha, h⟩ | ⟨hw, _, hr, _, hb⟩
        · exact Or.inl (by simp [h])
        · obtain ⟨rfl, rfl⟩ := List.cons.inj hs
          exact Or.inr (Or.inl ⟨s0, by simp [h], by simp [h], by simpa [h] using ha⟩)
        · exact Or.inr (Or.inr ⟨hw, hr, hb⟩)
      · exact ih _ d h

theorem quote_val : quote.val = 39 := rfl

theorem ne_quote_of_val (b : Byte) (h : b.val ≠ 39) : b ≠ quote := by
  intro hb; rw [hb] at h; exact h rfl

/-- What is written for one rune is either two quotes or free of quotes. -/
theorem emitRune_piece (lib : Stdlib) (d : DecodedRune)
    (hc : (d.width = 1 ∧ d.r = RuneError) ∨
      (∃ b : Byte, d.bytes = [b] ∧ b.val = d.r ∧ d.r < 0x80) ∨
      (2 ≤ d.width ∧ 0x80 ≤ d.r ∧ ∀ b ∈ d.bytes, 0x80 ≤ b.val)) :
    emitRune lib d = [quote, quote] ∨ quote ∉ emitRune lib d := by
  unfold emitRune
  rcases hc with h | ⟨b, hb, hv, hlt⟩ | ⟨hw, hr, hb⟩
  · rw [if_pos h]; exact Or.inr (by simp)
  · have h1 : ¬ (d.width = 1 ∧ d.r = RuneError) := by
      intro h; have := h.2; simp only [RuneError] at this; omega
    rw [if_neg h1]
    by_cases hq : d.r = quote.val
    · rw [if_pos hq]; exact Or.inl rfl
    · rw [if_neg hq]
      right
      split
      · rw [hb]
        simp only [List.mem_singleton]
        intro h
        exact hq (by rw [← hv, ← h])
      · simp
  · have h1 : ¬ (d.width = 1 ∧ d.r = RuneError) := by omega
    have hq : ¬ (d.r = quote.val) := by rw [quote_val]; omega
    rw [if_neg h1, if_neg hq]
    right
    split
    · intro h
      have := hb _ h
      rw [quote_val] at this
      omega
    · simp

/-- The output of `escapeString` is a concatenation of pieces, each of
which is two quotes or free of quotes. -/
theorem escapeString_pieces (lib : Stdlib) (s : GoString) :
    ∃ pieces : List GoString,
      escapeString lib s quote quote = pieces.flatten ∧
      ∀ p ∈ pieces, p = [quote, quote] ∨ quote ∉ p := by
  refine ⟨(runesOf s).map (emitRune lib), ?_, ?_⟩
  · rw [escapeString_eq_reference, escapeReference, List.flatMap_def]
  · intro p hp
    obtain ⟨d, hd, rfl⟩ := List.mem_map.mp hp
    exact emitRune_piece lib d (decodeRunes_class _ _ d hd)

/-! ## Runs of quotes -/

theorem quoteRunsEvenFrom_free (p rest : GoString) (h : quote ∉ p) :
    quoteRunsEvenFrom false (p ++ rest) = quoteRunsEvenFrom false rest := by
  induction p with
  | nil => rfl
  | cons b t ih =>
    have hb : b ≠ quote := fun e => h (by simp [e])
    have ht : quote ∉ t := fun e => h (by simp [e])
    simp [quoteRunsEvenFrom, hb, ih ht]

theorem quoteRunsEvenFrom_pieces (pieces : List GoString)
    (h : ∀ p ∈ pieces, p = [quote, quote] ∨ quote ∉ p) (rest : GoString) :
    quoteRunsEvenFrom false (pieces.flatten ++ rest) = quoteRunsEvenFrom false rest := by
  induction pieces with
  | nil => rfl
  | cons p ps ih =>
    have ihp := ih (fun q hq => h q (by simp [hq]))
    rw [List.flatten_cons, List.append_assoc]
    rcases h p (by simp) with rfl | hp
    · simp [quoteRunsEvenFrom, ihp]
    · rw [quoteRunsEvenFrom_free _ _ hp, ihp]

theorem scanLiteralBody_close (rest : GoString) (h : rest.head? ≠ some quote) :
    scanLiteralBody (quote :: rest) = some ([], rest) := by
  cases rest with
  | nil => simp [scanLiteralBody]
  | cons c t =>
    have hc : c ≠ quote := fun e => h (by simp [e])
    simp [scanLiteralBody, hc]

theorem scanLiteralBody_free (p x : GoString) (h : quote ∉ p) (hx : x ≠ []) :
    scanLiteralBody (p ++ x) = (scanLiteralBody x).map (fun r => (p ++ r.1, r.2)) := by
  induction p with
  | nil => simp
  | cons b t ih =>
    have hb : b ≠ quote := fun e => h (by simp [e])
    have ht : quote ∉ t := fun e => h (by simp [e])
    have hne : t ++ x ≠ [] := by simp [hx]
    obtain ⟨c, u, hcu⟩ := List.exists_cons_of_ne_nil hne
    rw [List.cons_append, hcu, scanLiteralBody]
    rw [if_neg hb, ← hcu, ih ht]
    simp [Option.map_map, Function.comp_def]

theorem scanLiteralBody_pieces (pieces : List GoString)
    (h : ∀ p ∈ pieces, p = [quote, quote] ∨ quote ∉ p) (rest : GoString)
    (hrest : rest.head? ≠ some quote) :
    ∃ c, scanLiteralBody (pieces.flatten ++ quote :: rest) = some (c, rest) := by
  induction pieces with
  | nil => exact ⟨[], by simpa using scanLiteralBody_close rest hrest⟩
  | cons p ps ih =>
    obtain ⟨c, hc⟩ := ih (fun q hq => h q (by simp [hq]))
    rw [List.flatten_cons, List.append_assoc]
    rcases h p (by simp) with rfl | hp
    · refine ⟨quote :: c, ?_⟩
      show scanLiteralBody (quote :: quote :: (ps.flatten ++ quote :: rest)) = _
      rw [scanLiteralBody, if_pos rfl, if_pos rfl, hc]
      rfl
    · refine ⟨p ++ c, ?_⟩
      rw [scanLiteralBody_free _ _ hp (by simp), hc]
      rfl

theorem formatParameter_str (lib : Stdlib) (s : GoString) :
    formatParameter lib (.str none s)
      = .returns ([quote] ++ escapeString lib s quote quote ++ [quote]) none := rfl

/-- C3: for every string `s`, every maximal run of quotes in
`escapeString(s, quote, quote)` has even length; the literal
`formatParameter(s)` is a quote, the escaped string and a quote; and a
reader of SQL string literals, whatever text follows that does not start
with a quote, finds the end of the literal at that last quote and not
before it. -/
theorem escapeString_quote_runs_even (lib : Stdlib) (s : GoString) :
    quoteRunsEven (escapeString lib s quote quote) = true ∧
    formatParameter lib (.str none s)
      = .returns ([quote] ++ escapeString lib s quote quote ++ [quote]) none ∧
    ∀ rest : GoString, rest.head? ≠ some quote →
      ∃ c, scanLiteral ([quote] ++ escapeString lib s quote quote ++ [quote] ++ rest)
        = some (c, rest) := by
  obtain ⟨pieces, he, hp⟩ := escapeString_pieces lib s
  refine ⟨?_, formatParameter_str lib s, ?_⟩
  · have := quoteRunsEvenFrom_pieces pieces hp []
    rw [List.append_nil] at this
    rw [quoteRunsEven, he, this]
    rfl
  · intro rest hrest
    obtain ⟨c, hc⟩ := scanLiteralBody_pieces pieces hp rest hrest
    refine ⟨c, ?_⟩
    rw [he]
    simpa [scanLiteral] using hc

theorem escapeString_quote_runs_even_witness :
    ([] : GoString).head? ≠ some quote ∧
    ∃ c, scanLiteral ([quote] ++ escapeString sampleLib (lit "O'Brien") quote quote
        ++ [quote] ++ []) = some (c, []) :=
  ⟨by decide, (escapeString_quote_runs_even sampleLib (lit "O'Brien")).2.2 [] (by decide)⟩

/-! ## Valid, printable strings -/

theorem doubleQuotes_free (p : GoString) (h : quote ∉ p) : doubleQuotes p = p := by
  induction p with
  | nil => rfl
  | cons b t ih =>
    have hb : b ≠ quote := fun e => h (by simp [e])
    have ht : quote ∉ t := fun e => h (by simp [e])
    have := ih ht
    simp only [doubleQuotes] at this ⊢
    simp [hb, this]

/-- For a decodable, printable rune the reference writes the bytes of the
rune with each quote doubled. -/
theorem emitRune_valid_printable (lib : Stdlib) (d : DecodedRune)
    (hc : (d.width = 1 ∧ d.r = RuneError) ∨
      (∃ b : Byte, d.bytes = [b] ∧ b.val = d.r ∧ d.r < 0x80) ∨
      (2 ≤ d.width ∧ 0x80 ≤ d.r ∧ ∀ b ∈ d.bytes, 0x80 ≤ b.val))
    (hv : ¬ (d.width = 1 ∧ d.r = RuneError)) (hp : IsPrint lib d.r = true) :
    emitRune lib d = doubleQuotes d.bytes := by
  unfold emitRune
  rw [if_neg hv]
  rcases hc with h | ⟨b, hb, hbv, hlt⟩ | ⟨hw, hr, hb⟩
  · exact absurd h hv
  · by_cases hq : d.r = quote.val
    · have hbq : b = quote := Fin.ext (by rw [hbv, hq])
      rw [if_pos hq, hb, hbq]
      rfl
    · have hbq : b ≠ quote := fun e => hq (by rw [← hbv, e])
      rw [if_neg hq, if_pos hp, hb]
      simp [doubleQuotes, hbq]
  · have hq : ¬ (d.r = quote.val) := by rw [quote_val]; omega
    have hfree : quote ∉ d.bytes := by
      intro h
      have := hb _ h
      rw [quote_val] at this
      omega
    rw [if_neg hq, if_pos hp, doubleQuotes_free _ hfree]

/-- On a valid UTF-8 string of printable runes `escapeString` doubles each
quote and changes nothing else. -/
theorem escapeString_valid_printable (lib : Stdlib) (s : GoString)
    (hv : validUTF8 s = true) (hp : allPrintable lib s = true) :
    escapeString lib s quote quote = doubleQuotes s := by
  rw [escapeString_eq_reference, escapeReference]
  have hcongr : (runesOf s).flatMap (emitRune lib)
      = (runesOf s).flatMap (fun d => doubleQuotes d.bytes) := by
    apply List.flatMap_congr
    intro d hd
    have hvd : ¬ (d.width = 1 ∧ d.r = RuneError) := by
      have h0 := (List.all_eq_true.mp hv) d hd
      intro hcontra
      simp [hcontra] at h0
    have hpd : IsPrint lib d.r = true := (List.all_eq_true.mp hp) d hd
    exact emitRune_valid_printable lib d (decodeRunes_class _ _ d hd) hvd hpd
  rw [hcongr]
  have hb := decodeRunes_bytes s.length s (le_refl _)
  conv_rhs => rw [← hb]
  simp only [doubleQuotes, runesOf, List.flatMap_assoc]

theorem undouble_doubleQuotes (s : GoString) : undouble (doubleQuotes s) = s := by
  induction s with
  | nil => rfl
  | cons b t ih =>
    by_cases hb : b = quote
    · have : doubleQuotes (b :: t) = quote :: quote :: doubleQuotes t := by
        simp [doubleQuotes, hb]
      rw [this, undouble, if_pos ⟨rfl, rfl⟩, ih, hb]
    · have hd : doubleQuotes (b :: t) = b :: doubleQuotes t := by
        simp [doubleQuotes, hb]
      rw [hd]
      cases hdt : doubleQuotes t with
      | nil =>
        rw [hdt] at ih
        rw [undouble, ← ih]
        rfl
      | cons c u =>
        rw [undouble, if_neg (fun h => hb h.1), ← hdt, ih]

theorem stripQuotes_literal (e : GoString) : stripQuotes ([quote] ++ e ++ [quote]) = e := by
  simp [stripQuotes]

/-- C5: for every string `s` that is valid UTF-8 and consists only of
printable runes, `formatParameter(s)` returns without error a quote,
followed by `s` with every quote replaced by two quotes and every other
byte unchanged, followed by a quote. -/
theorem formatParameter_valid_printable (lib : Stdlib) (s : GoString)
    (hv : validUTF8 s = true) (hp : allPrintable lib s = true) :
    formatParameter lib (.str none s)
      = .returns ([quote] ++ doubleQuotes s ++ [quote]) none := by
  rw [formatParameter_str, escapeString_valid_printable lib s hv hp]

theorem formatParameter_valid_printable_witness :
    validUTF8 (lit "O'Brien") = true ∧ allPrintable sampleLib (lit "O'Brien") = true ∧
    formatParameter sampleLib (.str none (lit "O'Brien"))
      = .returns ([quote] ++ doubleQuotes (lit "O'Brien") ++ [quote]) none :=
  ⟨by decide, by decide,
    formatParameter_valid_printable sampleLib (lit "O'Brien") (by decide) (by decide)⟩

/-- C4, as stated, fails: the literal of the one-byte string holding a
newline is two quotes, and stripping the quotes and undoing the doubling
gives the empty string, not the newline. -/
theorem newline_literal_roundtrip_counterexample :
    formatParameter sampleLib (.str none [10]) = .returns [quote, quote] none ∧
    undouble (stripQuotes [quote, quote]) ≠ [10] := by
  decide

/-- C4, amended: for every string `s` that is valid UTF-8 and consists only
of printable runes, taking `formatParameter(s)`, removing the first and the
last quote and replacing every doubled quote by one quote yields exactly
`s`. -/
theorem formatParameter_roundtrip (lib : Stdlib) (s : GoString)
    (hv : validUTF8 s = true) (hp : allPrintable lib s = true) :
    ∃ l, formatParameter lib (.str none s) = .returns l none ∧
      undouble (stripQuotes l) = s := by
  refine ⟨[quote] ++ doubleQuotes s ++ [quote], ?_, ?_⟩
  · rw [formatParameter_str, escapeString_valid_printable lib s hv hp]
  · rw [stripQuotes_literal, undouble_doubleQuotes]

theorem formatParameter_roundtrip_witness :
    validUTF8 (lit "it's") = true ∧ allPrintable sampleLib (lit "it's") = true ∧
    ∃ l, formatParameter sampleLib (.str none (lit "it's")) = .returns l none ∧
      undouble (stripQuotes l) = lit "it's" :=
  ⟨by decide, by decide, formatParameter_roundtrip sampleLib (lit "it's") (by decide) (by decide)⟩

/-- Every rune read is at least one byte wide and was read from as many
bytes as its width. -/
theorem decodeRunes_width (fuel : Nat) : ∀ (s : GoString) (d : DecodedRune),
    d ∈ decodeRunes fuel s → 1 ≤ d.width ∧ d.bytes.length = d.width := by
  induction fuel with
  | zero => intro s d h; simp [decodeRunes] at h
  | succ fuel ih =>
    intro s d h
    cases s with
    | nil => simp [decodeRunes] at h
    | cons s0 t =>
      simp only [decodeRunes, List.mem_cons] at h
      rcases h with rfl | h
      · obtain ⟨h1, h2⟩ := decode_width s0 t
        exact ⟨h1, by simp only [List.length_take]; omega⟩
      · exact ih _ d h

/-- C6: for every byte string `s`, `escapeString(s, quote, quote)` is total
and equals the reference: `s` is read rune by rune, the runes read cover
`s` exactly, and for each rune in order an undecodable byte is dropped, a
quote gives two quotes, any other printable rune gives its own bytes and
any other rune is dropped. -/
theorem escapeString_refines_reference (lib : Stdlib) (s : GoString) :
    escapeString lib s quote quote = escapeReference lib s ∧
    (runesOf s).flatMap (fun d => d.bytes) = s ∧
    ∀ d ∈ runesOf s, 1 ≤ d.width ∧ d.bytes.length = d.width := by
  exact ⟨escapeString_eq_reference lib s, decodeRunes_bytes s.length s (le_refl _),
    fun d hd => decodeRunes_width _ _ d hd⟩


/-! ## The statement rewriter -/

theorem digitsValueFrom_ge (ds : GoString) : ∀ acc : Nat, acc ≤ digitsValueFrom acc ds := by
  induction ds with
  | nil => intro acc; exact le_refl _
  | cons d t ih =>
    intro acc
    have := ih (acc * 10 + (d.val - 48))
    simp only [digitsValueFrom, List.foldl_cons] at this ⊢
    omega

/-- On a string of decimal digits whose value fits `uint64` the digit loop
of `ParseUint` returns that value. -/
theorem parseUintLoop_digits (ds : GoString) : ∀ n : Nat,
    ds.all isDigit = true → digitsValueFrom n ds < 2 ^ 64 →
    parseUintLoop ds n = .ok (digitsValueFrom n ds) := by
  induction ds with
  | nil => intro n _ _; rfl
  | cons c cs ih =>
    intro n hd hlt
    simp only [List.all_cons, Bool.and_eq_true] at hd
    have hc : 48 ≤ c.val ∧ c.val ≤ 57 := by simpa [isDigit] using hd.1
    have hstep : digitsValueFrom n (c :: cs) = digitsValueFrom (n * 10 + (c.val - 48)) cs := rfl
    rw [hstep] at hlt ⊢
    have hge := digitsValueFrom_ge cs (n * 10 + (c.val - 48))
    have h1 : ¬ (n ≥ (2 ^ 64 - 1) / 10 + 1) := by norm_num at hlt ⊢; omega
    have h2 : ¬ (n * 10 + (c.val - 48) > 2 ^ 64 - 1) := by norm_num at hlt ⊢; omega
    rw [parseUintLoop, if_pos hc]
    simp only [if_neg h1, if_neg h2]
    exact ih _ hd.2 hlt

/-- On a non-empty string of decimal digits whose value fits `int64`,
`ParseInt` returns that value and no error. -/
theorem ParseInt_digits (ds : GoString) (hne : ds ≠ []) (hd : ds.all isDigit = true)
    (hlt : digitsValue ds < 2 ^ 63) : ParseInt ds = ((digitsValue ds : ℤ), none) := by
  cases ds with
  | nil => exact absurd rfl hne
  | cons c cs =>
    have hc : 48 ≤ c.val ∧ c.val ≤ 57 := by
      simp only [List.all_cons, Bool.and_eq_true] at hd
      simpa [isDigit] using hd.1
    have h43 : ¬ (c.val = 43 ∨ c.val = 45) := by omega
    have h45 : ¬ (c.val = 45) := by omega
    have hloop := parseUintLoop_digits (c :: cs) 0 hd
      (by have : digitsValueFrom 0 (c :: cs) = digitsValue (c :: cs) := rfl
          rw [this]; norm_num at hlt ⊢; omega)
    have hpu : ParseUint (c :: cs) = (digitsValue (c :: cs), none) := by
      simp only [ParseUint, hloop]; rfl
    have hr1 : ¬ (digitsValue (c :: cs) ≥ 2 ^ 63) := by omega
    have hw : wrapSigned 64 (digitsValue (c :: cs) : ℤ) = (digitsValue (c :: cs) : ℤ) := by
      simp only [wrapSigned]
      norm_num at hlt ⊢
      omega
    have hbody : (if c.val = 43 ∨ c.val = 45 then cs else c :: cs) = c :: cs := if_neg h43
    have hneg : decide (c.val = 45) = false := decide_eq_false h45
    simp only [ParseInt, hbody, hneg, hpu]
    simp [hw]
    norm_num at hlt
    exact hlt

/-- A value of a supported kind whose type, for kind string, is the
predeclared `string` is formatted without error. -/
theorem formatParameter_plainSupported (lib : Stdlib) (p : Value)
    (h : plainSupported p = true) :
    formatParameter lib p = .returns (literalOf lib p) none := by
  cases p with
  | nil => simp [plainSupported] at h
  | other k n => simp [plainSupported] at h
  | str d s =>
    cases d with
    | none => rfl
    | some n => simp [plainSupported] at h
  | bool d b => rfl
  | int k d v => rfl
  | uint k d v => rfl
  | float k d x => rfl

/-- One iteration of the rewriting loop at a well-indexed placeholder whose
value is formatted without error: the literal is appended. -/
theorem rewriteTokens_placeholder (lib : Stdlib) (PARAMETER : Int) (params : List Value)
    (t : Token) (ts : List Token) (buf : GoString) (p : Value) (s : GoString)
    (hP : t.tokenType = PARAMETER) (hE : t.tokenType ≠ TokenEOF)
    (hw : wellIndexed params.length t = true) (hlen : params.length < 2 ^ 63)
    (hp : params[placeholderIndex t - 1]? = some p)
    (hf : formatParameter lib p = .returns s none) :
    rewriteTokens lib PARAMETER params (t :: ts) buf
      = rewriteTokens lib PARAMETER params ts (buf ++ s) := by
  simp only [wellIndexed, Bool.and_eq_true, decide_eq_true_eq] at hw
  obtain ⟨⟨⟨⟨htext, hds⟩, hdig⟩, h1⟩, h2⟩ := hw
  obtain ⟨marker, ds, htx⟩ := List.exists_cons_of_ne_nil htext
  have hdrop : t.text.drop 1 = ds := by rw [htx]; rfl
  rw [hdrop] at hds hdig
  have hidx : placeholderIndex t = digitsValue ds := by rw [placeholderIndex, hdrop]
  rw [hidx] at h1 h2 hp
  have hparse := ParseInt_digits ds hds hdig (by omega)
  have hlen0 : ¬ (ds.length = 0) := fun h => hds (List.length_eq_zero.mp h)
  have hti : toInt (digitsValue ds : ℤ) = (digitsValue ds : ℤ) := by
    simp only [toInt, wrapSigned]
    norm_num at hlen ⊢
    omega
  have hrange : ¬ ((digitsValue ds : ℤ) < 0 ∨ toInt (digitsValue ds : ℤ) > (params.length : ℤ)) := by
    rw [hti]; omega
  have hneg : ¬ ((digitsValue ds : ℤ) - 1 < 0) := by omega
  have hnat : ((digitsValue ds : ℤ) - 1).toNat = digitsValue ds - 1 := by omega
  rw [rewriteTokens, if_neg hE, if_pos hP, htx]
  simp only [if_neg hlen0, hparse, if_neg hrange, if_neg hneg, hnat, hp, hf]

/-- The rewriting loop on a token stream whose placeholders are all
well-indexed and select values that are formatted without error: the
result is the concatenation, in token order up to end-of-input, of the text
of each ordinary token and of the literal of the selected value for each
placeholder. -/
theorem rewriteTokens_concat (lib : Stdlib) (PARAMETER : Int) (params : List Value)
    (hlen : params.length < 2 ^ 63) : ∀ (ts : List Token) (buf : GoString),
    (∀ t ∈ beforeEOF ts, t.tokenType = PARAMETER →
      wellIndexed params.length t = true ∧
      ∀ p, params[placeholderIndex t - 1]? = some p → plainSupported p = true) →
    rewriteTokens lib PARAMETER params ts buf
      = .returns (buf ++ (beforeEOF ts).flatMap (substitute lib PARAMETER params)) none := by
  intro ts
  induction ts with
  | nil => intro buf _; simp [rewriteTokens, beforeEOF]
  | cons t ts ih =>
    intro buf h
    by_cases hE : t.tokenType = TokenEOF
    · simp [rewriteTokens, beforeEOF, hE]
    · have hbe : beforeEOF (t :: ts) = t :: beforeEOF ts := by
        simp [beforeEOF, List.takeWhile_cons, hE]
      rw [hbe] at h ⊢
      have ih' := fun b => ih b (fun u hu => h u (List.mem_cons_of_mem _ hu))
      by_cases hP : t.tokenType = PARAMETER
      · obtain ⟨hw, hsup⟩ := h t (List.mem_cons_self _ _) hP
        have hw' := hw
        simp only [wellIndexed, Bool.and_eq_true, decide_eq_true_eq] at hw'
        have hlt : placeholderIndex t - 1 < params.length := by omega
        obtain ⟨p, hp⟩ : ∃ p, params[placeholderIndex t - 1]? = some p :=
          ⟨params[placeholderIndex t - 1], List.getElem?_eq_getElem hlt⟩
        have hf := formatParameter_plainSupported lib p (hsup p hp)
        rw [rewriteTokens_placeholder lib PARAMETER params t ts buf p _ hP hE hw hlen hp hf,
          ih']
        simp [substitute, hP, hp, List.append_assoc]
      · rw [rewriteTokens, if_neg hE, if_neg hP, ih']
        simp [substitute, hP, List.append_assoc]

/-- C1 at a failing input: the placeholder `$1` with the single value
`Name("a")` of the defined type `type Name string`. The value has the
supported kind string, yet the call panics in the type assertion
`p.(string)` of `formatParameter` instead of returning the statement. -/
theorem ValidateAndFormatSql_defined_string_panics :
    supportedKind (.str (some (lit "Name")) (lit "a")) = true ∧
    wellIndexed 1 ⟨7, lit "$1"⟩ = true ∧
    checkSyntax (sampleGrammar 7 [⟨3, lit "SELECT"⟩, ⟨4, lit " "⟩, ⟨7, lit "$1"⟩])
      (lit "SELECT $1") = none ∧
    ValidateAndFormatSql sampleLib
      (sampleGrammar 7 [⟨3, lit "SELECT"⟩, ⟨4, lit " "⟩, ⟨7, lit "$1"⟩])
      (lit "SELECT $1") [.str (some (lit "Name")) (lit "a")]
      = .panics .typeAssertion := by
  decide

/-- C2 at a failing input: the placeholder `$0` with one value. The index 0
is outside `[1, len(params)]`, yet the range check `index < 0` lets it
through and the call panics on `params[index-1]` instead of returning an
error. -/
theorem ValidateAndFormatSql_index_zero_panics :
    checkSyntax (sampleGrammar 7 [⟨3, lit "SELECT"⟩, ⟨4, lit " "⟩, ⟨7, lit "$0"⟩])
      (lit "SELECT $0") = none ∧
    ValidateAndFormatSql sampleLib
      (sampleGrammar 7 [⟨3, lit "SELECT"⟩, ⟨4, lit " "⟩, ⟨7, lit "$0"⟩])
      (lit "SELECT $0") [.str none (lit "a")]
      = .panics .indexOutOfRange := by
  decide

/-- A validated template whose placeholders are all well-indexed and select
values that are formatted without error is rewritten into the
concatenation of the token texts and literals. -/
theorem ValidateAndFormatSql_concat (lib : Stdlib) (g : Grammar) (sql : GoString)
    (params : List Value) (hsyn : checkSyntax g sql = none)
    (hlen : params.length < 2 ^ 63)
    (h : ∀ t ∈ beforeEOF (g.NextTokens sql), t.tokenType = g.PARAMETER →
      wellIndexed params.length t = true ∧
      ∀ p, params[placeholderIndex t - 1]? = some p → plainSupported p = true) :
    ValidateAndFormatSql lib g sql params
      = .returns ((beforeEOF (g.NextTokens sql)).flatMap
          (substitute lib g.PARAMETER params)) none := by
  simp only [ValidateAndFormatSql, hsyn]
  rw [rewriteTokens_concat lib g.PARAMETER params hlen _ [] h]
  rfl

/-- One iteration of the rewriting loop at a placeholder whose decimal
index is larger than the number of values: the range error is returned
with an empty string. -/
theorem rewriteTokens_index_above (lib : Stdlib) (PARAMETER : Int) (params : List Value)
    (marker : Byte) (ds : GoString) (ts : List Token) (buf : GoString)
    (hE : PARAMETER ≠ TokenEOF) (hds : ds ≠ []) (hdig : ds.all isDigit = true)
    (hlt : digitsValue ds < 2 ^ 63) (hlen : params.length < 2 ^ 63)
    (habove : params.length < digitsValue ds) :
    rewriteTokens lib PARAMETER params (⟨PARAMETER, marker :: ds⟩ :: ts) buf
      = .returns [] (some (.text (lit "Parameter index " ++ FormatInt (digitsValue ds)
          ++ lit " out of range (" ++ FormatInt params.length ++ lit ")"))) := by
  have hparse := ParseInt_digits ds hds hdig hlt
  have hlen0 : ¬ (ds.length = 0) := fun h => hds (List.length_eq_zero.mp h)
  have hti : toInt (digitsValue ds : ℤ) = (digitsValue ds : ℤ) := by
    simp only [toInt, wrapSigned]
    norm_num at hlt ⊢
    omega
  have hrange : (digitsValue ds : ℤ) < 0 ∨ toInt (digitsValue ds : ℤ) > (params.length : ℤ) := by
    rw [hti]; omega
  rw [rewriteTokens, if_neg hE, if_pos rfl]
  simp only [if_neg hlen0, hparse, if_pos hrange]


/-! ## Unsupported values -/

/-- A non-nil value of a kind outside the supported ones is rejected with
an error that carries the name of its type, and with an empty string. -/
theorem formatParameter_other (lib : Stdlib) (k : OtherKind) (name : GoString) :
    formatParameter lib (.other k name)
      = .returns [] (some (.text (lit "Unsupported data type: " ++ name))) := rfl

/-- C11 at a failing input: the nil value. Its kind is `Invalid`, none of
the supported kinds, yet `formatParameter(nil)` does not return an error:
`reflect.TypeOf(nil)` is nil and the call of `Name()` on it panics. -/
theorem formatParameter_nil_panics :
    Value.nil.kind = .Invalid ∧ supportedKind .nil = false ∧
    formatParameter sampleLib .nil = .panics .nilDereference := by
  decide

/-! ## Failing closed -/

/-- C12: for every template for which `checkSyntax` returns an error `e`,
`ValidateAndFormatSql` returns the empty string together with exactly `e`,
whatever the values, whatever the lexer would return for the template and
whatever the library tables: two calls that agree only on the parser's
notifications give this same result. -/
theorem ValidateAndFormatSql_syntax_error (lib lib' : Stdlib) (g g' : Grammar)
    (sql : GoString) (params params' : List Value) (e : GoError)
    (h : checkSyntax g sql = some e) (hsame : g'.SingleStatement = g.SingleStatement) :
    ValidateAndFormatSql lib g sql params = .returns [] (some e) ∧
    ValidateAndFormatSql lib' g' sql params' = .returns [] (some e) := by
  have h' : checkSyntax g' sql = some e := by
    rw [← h]; simp only [checkSyntax, hsame]
  constructor
  · simp only [ValidateAndFormatSql, h]
  · simp only [ValidateAndFormatSql, h']

/-- The rewriting loop never returns an error together with a non-empty
string. -/
theorem rewriteTokens_error_empty (lib : Stdlib) (PARAMETER : Int) (params : List Value) :
    ∀ (ts : List Token) (buf s : GoString) (e : GoError),
      rewriteTokens lib PARAMETER params ts buf = .returns s (some e) → s = [] := by
  intro ts
  induction ts with
  | nil => intro buf s e h; simp [rewriteTokens] at h
  | cons t ts ih =>
    intro buf s e h
    rw [rewriteTokens] at h
    repeat' split at h
    all_goals first
      | exact ih _ _ _ h
      | (injection h with h1 h2; first | exact h1.symm | (exact absurd h2 (by simp)))
      | exact absurd h (by simp)

/-- C13: whenever `ValidateAndFormatSql` returns a non-nil error, the
returned string is empty. -/
theorem ValidateAndFormatSql_error_empty (lib : Stdlib) (g : Grammar) (sql : GoString)
    (params : List Value) (s : GoString) (e : GoError)
    (h : ValidateAndFormatSql lib g sql params = .returns s (some e)) : s = [] := by
  unfold ValidateAndFormatSql at h
  split at h
  · injection h with h1 _; exact h1.symm
  · exact rewriteTokens_error_empty lib g.PARAMETER params _ _ s e h

theorem ValidateAndFormatSql_syntax_error_witness :
    checkSyntax (reportingGrammar 7 [⟨3, lit "SELECT"⟩, ⟨4, lit " "⟩, ⟨7, lit "$1"⟩, ⟨5, lit "("⟩]
        [⟨none, 1, 10, lit "no viable alternative"⟩]) (lit "SELECT $1(")
      = some (.text (lit "Syntax error at 1:10: '' (no viable alternative)")) ∧
    (reportingGrammar 9 [] [⟨none, 1, 10, lit "no viable alternative"⟩]).SingleStatement
      = (reportingGrammar 7 [⟨3, lit "SELECT"⟩, ⟨4, lit " "⟩, ⟨7, lit "$1"⟩, ⟨5, lit "("⟩]
        [⟨none, 1, 10, lit "no viable alternative"⟩]).SingleStatement ∧
    ValidateAndFormatSql sampleLib
        (reportingGrammar 7 [⟨3, lit "SELECT"⟩, ⟨4, lit " "⟩, ⟨7, lit "$1"⟩, ⟨5, lit "("⟩]
          [⟨none, 1, 10, lit "no viable alternative"⟩]) (lit "SELECT $1(") []
      = .returns [] (some (.text (lit "Syntax error at 1:10: '' (no viable alternative)"))) ∧
    ValidateAndFormatSql sampleLib
        (reportingGrammar 9 [] [⟨none, 1, 10, lit "no viable alternative"⟩]) (lit "SELECT $1(")
        [.nil, .str none (lit "a")]
      = .returns [] (some (.text (lit "Syntax error at 1:10: '' (no viable alternative)"))) :=
  ⟨by decide, rfl,
    ValidateAndFormatSql_syntax_error sampleLib sampleLib
      (reportingGrammar 7 [⟨3, lit "SELECT"⟩, ⟨4, lit " "⟩, ⟨7, lit "$1"⟩, ⟨5, lit "("⟩]
        [⟨none, 1, 10, lit "no viable alternative"⟩])
      (reportingGrammar 9 [] [⟨none, 1, 10, lit "no viable alternative"⟩])
      (lit "SELECT $1(") [] [.nil, .str none (lit "a")]
      (.text (lit "Syntax error at 1:10: '' (no viable alternative)")) (by decide) rfl⟩

theorem ValidateAndFormatSql_error_empty_witness :
    ValidateAndFormatSql sampleLib
        (sampleGrammar 7 [⟨3, lit "SELECT"⟩, ⟨4, lit " "⟩, ⟨7, lit "$1"⟩, ⟨4, lit " "⟩,
          ⟨7, lit "$2"⟩])
        (lit "SELECT $1 $2") [.str none (lit "a")]
      = .returns [] (some (.text (lit "Parameter index 2 out of range (1)"))) ∧
    ([] : GoString) = [] :=
  ⟨by decide,
    ValidateAndFormatSql_error_empty sampleLib
      (sampleGrammar 7 [⟨3, lit "SELECT"⟩, ⟨4, lit " "⟩, ⟨7, lit "$1"⟩, ⟨4, lit " "⟩,
        ⟨7, lit "$2"⟩])
      (lit "SELECT $1 $2") [.str none (lit "a")] []
      (.text (lit "Parameter index 2 out of range (1)")) (by decide)⟩

/-! ## The error listener -/

/-- A listener that has recorded an error ignores every later
notification. -/
theorem SyntaxError_recorded (e : errorListener) (m : Notification) (h : e.err ≠ none) :
    e.SyntaxError m = e := by
  cases he : e.err with
  | none => exact absurd he h
  | some x => simp [errorListener.SyntaxError, he]

theorem SyntaxError_first_ne_none (n : Notification) :
    (errorListener.SyntaxError { err := none } n).err ≠ none := by
  simp [errorListener.SyntaxError]

theorem foldl_SyntaxError_recorded (ns : List Notification) :
    ∀ e : errorListener, e.err ≠ none → ns.foldl errorListener.SyntaxError e = e := by
  induction ns with
  | nil => intro e _; rfl
  | cons m ms ih =>
    intro e h
    rw [List.foldl_cons, SyntaxError_recorded e m h]
    exact ih e h

/-- C19: for every non-empty sequence of notifications delivered to a
listener that starts with no error recorded, the listener's state after
the whole sequence is its state after the first notification, which holds
an error; a listener that holds an error is left unchanged by every
notification; `checkSyntax` returns the error built from the first
notification, and nil when there is no notification. -/
theorem errorListener_first_error_wins (n : Notification) (ns : List Notification) :
    (n :: ns).foldl errorListener.SyntaxError { err := none }
      = errorListener.SyntaxError { err := none } n ∧
    (errorListener.SyntaxError { err := none } n).err ≠ none ∧
    (∀ (e : errorListener) (m : Notification), e.err ≠ none → e.SyntaxError m = e) ∧
    (∀ (g : Grammar) (sql : GoString), g.SingleStatement sql = n :: ns →
      checkSyntax g sql = (errorListener.SyntaxError { err := none } n).err) ∧
    (∀ (g : Grammar) (sql : GoString), g.SingleStatement sql = [] →
      checkSyntax g sql = none) := by
  have hfold := foldl_SyntaxError_recorded ns _ (SyntaxError_first_ne_none n)
  refine ⟨hfold, SyntaxError_first_ne_none n, SyntaxError_recorded, ?_, ?_⟩
  · intro g sql h
    rw [checkSyntax, h, List.foldl_cons, hfold]
  · intro g sql h
    rw [checkSyntax, h]
    rfl

theorem errorListener_first_error_wins_witness :
    (reportingGrammar 7 [] [⟨some ⟨5, lit "("⟩, 1, 14, lit "mismatched input"⟩,
        ⟨none, 2, 0, lit "extraneous input"⟩]).SingleStatement (lit "SELECT * FROM (")
      = [⟨some ⟨5, lit "("⟩, 1, 14, lit "mismatched input"⟩,
        ⟨none, 2, 0, lit "extraneous input"⟩] ∧
    checkSyntax (reportingGrammar 7 [] [⟨some ⟨5, lit "("⟩, 1, 14, lit "mismatched input"⟩,
        ⟨none, 2, 0, lit "extraneous input"⟩]) (lit "SELECT * FROM (")
      = (errorListener.SyntaxError { err := none }
          ⟨some ⟨5, lit "("⟩, 1, 14, lit "mismatched input"⟩).err :=
  ⟨rfl, (errorListener_first_error_wins ⟨some ⟨5, lit "("⟩, 1, 14, lit "mismatched input"⟩
      [⟨none, 2, 0, lit "extraneous input"⟩]).2.2.2.1
    (reportingGrammar 7 [] [⟨some ⟨5, lit "("⟩, 1, 14, lit "mismatched input"⟩,
        ⟨none, 2, 0, lit "extraneous input"⟩]) (lit "SELECT * FROM (") rfl⟩

/-- C20, amended: for every first notification with line `l`, column `c`,
message `m` and offending symbol `o`, the recorded error has the message
`Syntax error at l:c: 'text' (m)`, where `l` and `c` are written in decimal
exactly as the parser passed them (the line counted from 1, the position in
the line counted from 0), and `text` is the text of the offending token
when `o` is a token and empty otherwise. -/
theorem errorListener_message (l c : Int) (m : GoString) :
    (∀ t : Token, (errorListener.SyntaxError { err := none } ⟨some t, l, c, m⟩).err
      = some (.text (lit "Syntax error at " ++ FormatInt l ++ lit ":" ++ FormatInt c
          ++ lit ": '" ++ t.text ++ lit "' (" ++ m ++ lit ")"))) ∧
    (errorListener.SyntaxError { err := none } ⟨none, l, c, m⟩).err
      = some (.text (lit "Syntax error at " ++ FormatInt l ++ lit ":" ++ FormatInt c
          ++ lit ": '' (" ++ m ++ lit ")")) ∧
    (errorListener.SyntaxError { err := none }
        ⟨some ⟨5, lit "fRoM"⟩, 3, 27, lit "mismatched input"⟩).err
      = some (.text (lit "Syntax error at 3:27: 'fRoM' (mismatched input)")) := by
  refine ⟨fun t => rfl, ?_, by decide⟩
  simp [errorListener.SyntaxError, lit, List.append_assoc]

/-! ## Rewriting a stream token by token -/

/-- Tokens that the loop processes without failing are left behind: the
loop continues on the rest of the stream with the buffer it has built. -/
theorem rewriteTokens_append (lib : Stdlib) (PARAMETER : Int) (params : List Value)
    (rest : List Token) : ∀ (pre : List Token) (buf out : GoString),
    (∀ u ∈ pre, u.tokenType ≠ TokenEOF) →
    rewriteTokens lib PARAMETER params pre buf = .returns out none →
    rewriteTokens lib PARAMETER params (pre ++ rest) buf
      = rewriteTokens lib PARAMETER params rest out := by
  intro pre
  induction pre with
  | nil =>
    intro buf out _ h
    simp only [rewriteTokens, Outcome.returns.injEq, and_true] at h
    rw [List.nil_append, h]
  | cons t ts ih =>
    intro buf out hE h
    have hEt : t.tokenType ≠ TokenEOF := hE t (List.mem_cons_self _ _)
    have hEts : ∀ u ∈ ts, u.tokenType ≠ TokenEOF :=
      fun u hu => hE u (List.mem_cons_of_mem _ hu)
    rw [List.cons_append, rewriteTokens]
    rw [rewriteTokens] at h
    rw [if_neg hEt] at h ⊢
    repeat' split at h
    all_goals first
      | exact absurd h (by simp)
      | skip
    all_goals simp only [*, if_true, if_false, not_true_eq_false, not_false_eq_true]
    all_goals exact ih _ _ hEts h

/-- The rewriting loop on a stream without placeholders before
end-of-input: the texts of the tokens are appended in order. -/
theorem rewriteTokens_ordinary (lib : Stdlib) (PARAMETER : Int) (params : List Value) :
    ∀ (ts : List Token) (buf : GoString),
    (∀ t ∈ beforeEOF ts, t.tokenType ≠ PARAMETER) →
    rewriteTokens lib PARAMETER params ts buf
      = .returns (buf ++ (beforeEOF ts).flatMap (fun t => t.text)) none := by
  intro ts
  induction ts with
  | nil => intro buf _; simp [rewriteTokens, beforeEOF]
  | cons t ts ih =>
    intro buf h
    by_cases hE : t.tokenType = TokenEOF
    · simp [rewriteTokens, beforeEOF, hE]
    · have hbe : beforeEOF (t :: ts) = t :: beforeEOF ts := by
        simp [beforeEOF, List.takeWhile_cons, hE]
      rw [hbe] at h ⊢
      have hP : t.tokenType ≠ PARAMETER := h t (List.mem_cons_self _ _)
      rw [rewriteTokens, if_neg hE, if_neg hP,
        ih _ (fun u hu => h u (List.mem_cons_of_mem _ hu))]
      simp [List.append_assoc]

/-- The rewriting loop on a stream whose placeholders are all well-indexed
and select values for which `formatParameter` returns a literal: each
token is replaced on its own, by `substitute`. -/
theorem rewriteTokens_concat_formats (lib : Stdlib) (PARAMETER : Int) (params : List Value)
    (hlen : params.length < 2 ^ 63) : ∀ (ts : List Token) (buf : GoString),
    (∀ t ∈ beforeEOF ts, t.tokenType = PARAMETER →
      wellIndexed params.length t = true ∧
      ∀ p, params[placeholderIndex t - 1]? = some p →
        ∃ s, formatParameter lib p = .returns s none) →
    rewriteTokens lib PARAMETER params ts buf
      = .returns (buf ++ (beforeEOF ts).flatMap (substitute lib PARAMETER params)) none := by
  intro ts
  induction ts with
  | nil => intro buf _; simp [rewriteTokens, beforeEOF]
  | cons t ts ih =>
    intro buf h
    by_cases hE : t.tokenType = TokenEOF
    · simp [rewriteTokens, beforeEOF, hE]
    · have hbe : beforeEOF (t :: ts) = t :: beforeEOF ts := by
        simp [beforeEOF, List.takeWhile_cons, hE]
      rw [hbe] at h ⊢
      have ih' := fun b => ih b (fun u hu => h u (List.mem_cons_of_mem _ hu))
      by_cases hP : t.tokenType = PARAMETER
      · obtain ⟨hw, hsup⟩ := h t (List.mem_cons_self _ _) hP
        have hw' := hw
        simp only [wellIndexed, Bool.and_eq_true, decide_eq_true_eq] at hw'
        have hlt : placeholderIndex t - 1 < params.length := by omega
        obtain ⟨p, hp⟩ : ∃ p, params[placeholderIndex t - 1]? = some p :=
          ⟨params[placeholderIndex t - 1], List.getElem?_eq_getElem hlt⟩
        obtain ⟨s, hf⟩ := hsup p hp
        have hl : literalOf lib p = s := by simp [literalOf, hf]
        rw [rewriteTokens_placeholder lib PARAMETER params t ts buf p _ hP hE hw hlen hp hf,
          ih']
        simp [substitute, hP, hp, hl, List.append_assoc]
      · rw [rewriteTokens, if_neg hE, if_neg hP, ih']
        simp [substitute, hP, List.append_assoc]

/-- C14: for every template that passes `checkSyntax` and whose token
stream has no placeholder before end-of-input, and for every value list,
`ValidateAndFormatSql` returns without error the concatenation of the
token texts in order, each as the lexer extracted it; when these texts
cover the whole input the result is the input text itself. -/
theorem ValidateAndFormatSql_no_placeholder (lib : Stdlib) (g : Grammar) (sql : GoString)
    (params : List Value) (hsyn : checkSyntax g sql = none)
    (hno : ∀ t ∈ beforeEOF (g.NextTokens sql), t.tokenType ≠ g.PARAMETER) :
    ValidateAndFormatSql lib g sql params
      = .returns ((beforeEOF (g.NextTokens sql)).flatMap (fun t => t.text)) none ∧
    ((beforeEOF (g.NextTokens sql)).flatMap (fun t => t.text) = sql →
      ValidateAndFormatSql lib g sql params = .returns sql none) := by
  have h : ValidateAndFormatSql lib g sql params
      = .returns ((beforeEOF (g.NextTokens sql)).flatMap (fun t => t.text)) none := by
    simp only [ValidateAndFormatSql, hsyn]
    rw [rewriteTokens_ordinary lib g.PARAMETER params _ [] hno]
    rfl
  exact ⟨h, fun hcover => by rw [h, hcover]⟩

theorem ValidateAndFormatSql_no_placeholder_witness :
    checkSyntax (sampleGrammar 7 [⟨3, lit "select"⟩, ⟨4, lit "  "⟩, ⟨5, lit "Name"⟩,
        ⟨-1, lit "<EOF>"⟩]) (lit "select  Name") = none ∧
    (∀ t ∈ beforeEOF ((sampleGrammar 7 [⟨3, lit "select"⟩, ⟨4, lit "  "⟩, ⟨5, lit "Name"⟩,
        ⟨-1, lit "<EOF>"⟩]).NextTokens (lit "select  Name")),
      t.tokenType ≠ (sampleGrammar 7 [⟨3, lit "select"⟩, ⟨4, lit "  "⟩, ⟨5, lit "Name"⟩,
        ⟨-1, lit "<EOF>"⟩]).PARAMETER) ∧
    (beforeEOF ((sampleGrammar 7 [⟨3, lit "select"⟩, ⟨4, lit "  "⟩, ⟨5, lit "Name"⟩,
        ⟨-1, lit "<EOF>"⟩]).NextTokens (lit "select  Name"))).flatMap (fun t => t.text)
      = lit "select  Name" ∧
    ValidateAndFormatSql sampleLib (sampleGrammar 7 [⟨3, lit "select"⟩, ⟨4, lit "  "⟩,
        ⟨5, lit "Name"⟩, ⟨-1, lit "<EOF>"⟩]) (lit "select  Name") [.nil]
      = .returns (lit "select  Name") none :=
  ⟨by decide, by decide, by decide,
    (ValidateAndFormatSql_no_placeholder sampleLib (sampleGrammar 7 [⟨3, lit "select"⟩,
        ⟨4, lit "  "⟩, ⟨5, lit "Name"⟩, ⟨-1, lit "<EOF>"⟩]) (lit "select  Name") [.nil]
      (by decide) (by decide)).2 (by decide)⟩

/-- A placeholder accepted by `placeholderOK` is well-indexed and the value
it selects is formatted without error. -/
theorem placeholderOK_spec (lib : Stdlib) (params : List Value) (t : Token)
    (h : placeholderOK lib params t = true) :
    wellIndexed params.length t = true ∧
    ∀ p, params[placeholderIndex t - 1]? = some p →
      ∃ s, formatParameter lib p = .returns s none := by
  simp only [placeholderOK, Bool.and_eq_true] at h
  refine ⟨h.1, ?_⟩
  intro p hp
  have h2 := h.2
  rw [hp] at h2
  simp only [formats] at h2
  split at h2
  · exact ⟨_, by assumption⟩
  · exact absurd h2 (by simp)

/-- C15: for every validated template and value list whose placeholders
before end-of-input are well-indexed and select values that
`formatParameter` formats, the result is the concatenation over the tokens
of `substitute`, a function of the single token and the value list: a
placeholder is replaced by the literal of the value its index selects,
wherever it stands, and two placeholders with the same index are replaced
by the same literal. -/
theorem ValidateAndFormatSql_placeholders_independent (lib : Stdlib) (g : Grammar)
    (sql : GoString) (params : List Value) (hsyn : checkSyntax g sql = none)
    (hlen : params.length < 2 ^ 63)
    (h : ∀ t ∈ beforeEOF (g.NextTokens sql), t.tokenType = g.PARAMETER →
      placeholderOK lib params t = true) :
    ValidateAndFormatSql lib g sql params
      = .returns ((beforeEOF (g.NextTokens sql)).flatMap
          (substitute lib g.PARAMETER params)) none ∧
    (∀ (t : Token) (p : Value) (s : GoString), t.tokenType = g.PARAMETER →
      params[placeholderIndex t - 1]? = some p → formatParameter lib p = .returns s none →
      substitute lib g.PARAMETER params t = s) ∧
    (∀ t t' : Token, t.tokenType = g.PARAMETER → t'.tokenType = g.PARAMETER →
      placeholderIndex t = placeholderIndex t' →
      substitute lib g.PARAMETER params t = substitute lib g.PARAMETER params t') := by
  refine ⟨?_, ?_, ?_⟩
  · simp only [ValidateAndFormatSql, hsyn]
    rw [rewriteTokens_concat_formats lib g.PARAMETER params hlen _ []
      (fun t ht hP => placeholderOK_spec lib params t (h t ht hP))]
    rfl
  · intro t p s hP hp hf
    simp [substitute, hP, hp, literalOf, hf]
  · intro t t' hP hP' hidx
    simp [substitute, hP, hP', hidx]

theorem ValidateAndFormatSql_placeholders_independent_witness :
    checkSyntax (sampleGrammar 7 [⟨7, lit "$2"⟩, ⟨1, lit ","⟩, ⟨7, lit "$1"⟩, ⟨1, lit ","⟩,
        ⟨7, lit "$2"⟩]) (lit "$2,$1,$2") = none ∧
    ([Value.str none (lit "a"), Value.uint .Uint8 none 7].length < 2 ^ 63) ∧
    (∀ t ∈ beforeEOF ((sampleGrammar 7 [⟨7, lit "$2"⟩, ⟨1, lit ","⟩, ⟨7, lit "$1"⟩,
        ⟨1, lit ","⟩, ⟨7, lit "$2"⟩]).NextTokens (lit "$2,$1,$2")),
      t.tokenType = 7 →
      placeholderOK sampleLib [.str none (lit "a"), .uint .Uint8 none 7] t = true) ∧
    ValidateAndFormatSql sampleLib (sampleGrammar 7 [⟨7, lit "$2"⟩, ⟨1, lit ","⟩,
        ⟨7, lit "$1"⟩, ⟨1, lit ","⟩, ⟨7, lit "$2"⟩]) (lit "$2,$1,$2")
        [.str none (lit "a"), .uint .Uint8 none 7]
      = .returns ((beforeEOF ((sampleGrammar 7 [⟨7, lit "$2"⟩, ⟨1, lit ","⟩, ⟨7, lit "$1"⟩,
          ⟨1, lit ","⟩, ⟨7, lit "$2"⟩]).NextTokens (lit "$2,$1,$2"))).flatMap
          (substitute sampleLib 7 [.str none (lit "a"), .uint .Uint8 none 7])) none ∧
    (beforeEOF ((sampleGrammar 7 [⟨7, lit "$2"⟩, ⟨1, lit ","⟩, ⟨7, lit "$1"⟩,
          ⟨1, lit ","⟩, ⟨7, lit "$2"⟩]).NextTokens (lit "$2,$1,$2"))).flatMap
          (substitute sampleLib 7 [.str none (lit "a"), .uint .Uint8 none 7])
      = lit "7,'a',7" :=
  ⟨by decide, by decide, by decide,
    (ValidateAndFormatSql_placeholders_independent sampleLib (sampleGrammar 7 [⟨7, lit "$2"⟩,
        ⟨1, lit ","⟩, ⟨7, lit "$1"⟩, ⟨1, lit ","⟩, ⟨7, lit "$2"⟩]) (lit "$2,$1,$2")
      [.str none (lit "a"), .uint .Uint8 none 7] (by decide) (by decide)
      (by decide)).1,
    by decide⟩

/-- C16: rewriting the token stream of the template
`SELECT * FROM t WHERE name = $1 AND id = $2` with the values
`["O'Brien", 42]` returns without error exactly
`SELECT * FROM t WHERE name = 'O''Brien' AND id = 42`. -/
theorem ValidateAndFormatSql_scenario :
    (beforeEOF (scenarioTokens 7)).flatMap (fun t => t.text)
      = lit "SELECT * FROM t WHERE name = $1 AND id = $2" ∧
    ValidateAndFormatSql sampleLib (sampleGrammar 7 (scenarioTokens 7))
        (lit "SELECT * FROM t WHERE name = $1 AND id = $2")
        [.str none (lit "O'Brien"), .int .Int none 42]
      = .returns (lit "SELECT * FROM t WHERE name = 'O''Brien' AND id = 42") none := by
  decide

/-! ## Placeholder indices that are rejected -/

/-- When the digit loop of `ParseUint` succeeds, the string consists of
decimal digits and the result is the value they denote. -/
theorem parseUintLoop_ok (ds : GoString) : ∀ n m : Nat, n < 2 ^ 64 →
    parseUintLoop ds n = .ok m →
    ds.all isDigit = true ∧ m = digitsValueFrom n ds ∧ m < 2 ^ 64 := by
  induction ds with
  | nil =>
    intro n m hn h
    simp only [parseUintLoop, Except.ok.injEq] at h
    subst h
    exact ⟨rfl, rfl, hn⟩
  | cons c cs ih =>
    intro n m hn h
    rw [parseUintLoop] at h
    by_cases hc : 48 ≤ c.val ∧ c.val ≤ 57
    · rw [if_pos hc] at h
      simp only at h
      by_cases h1 : n ≥ (2 ^ 64 - 1) / 10 + 1
      · rw [if_pos h1] at h
        exact absurd h (by simp)
      · by_cases h2 : n * 10 + (c.val - 48) > 2 ^ 64 - 1
        · rw [if_neg h1, if_pos h2] at h
          exact absurd h (by simp)
        · rw [if_neg h1, if_neg h2] at h
          obtain ⟨hd, hm, hlt⟩ := ih _ m (by omega) h
          refine ⟨?_, hm, hlt⟩
          simp only [List.all_cons, Bool.and_eq_true]
          exact ⟨by simpa [isDigit] using hc, hd⟩
    · rw [if_neg hc] at h
      split at h <;> simp at h

/-- The three possible results of `ParseUint`. -/
theorem ParseUint_cases (s : GoString) :
    (∃ n, s ≠ [] ∧ parseUintLoop s 0 = .ok n ∧ ParseUint s = (n, none)) ∨
    ParseUint s = (2 ^ 64 - 1, some .ErrRange) ∨
    ParseUint s = (0, some .ErrSyntax) := by
  cases s with
  | nil => exact Or.inr (Or.inr rfl)
  | cons c cs =>
    cases h : parseUintLoop (c :: cs) 0 with
    | ok n => exact Or.inl ⟨n, by simp, rfl, by simp only [ParseUint, h]⟩
    | error k =>
      cases k with
      | ErrSyntax => exact Or.inr (Or.inr (by simp only [ParseUint, h]))
      | ErrRange => exact Or.inr (Or.inl (by simp only [ParseUint, h]))

/-- When `ParseInt` returns no error, its argument is an optionally signed
string of decimal digits, the result is the integer it denotes, and that
integer fits `int64`. -/
theorem ParseInt_ok (s : GoString) (v : ℤ) (h : ParseInt s = (v, none)) :
    signedDecimal s = some v ∧ -(2 ^ 63 : ℤ) ≤ v ∧ v < 2 ^ 63 := by
  cases s with
  | nil => simp [ParseInt] at h
  | cons c cs =>
    rw [ParseInt] at h
    simp only at h
    rcases ParseUint_cases (if c.val = 43 ∨ c.val = 45 then cs else c :: cs) with
      ⟨n, hne, hloop, hpu⟩ | hpu | hpu
    · rw [hpu] at h
      simp only at h
      obtain ⟨hd, hm, hlt⟩ := parseUintLoop_ok _ 0 n (by norm_num) hloop
      have hmv : n = digitsValue (if c.val = 43 ∨ c.val = 45 then cs else c :: cs) := hm
      by_cases h45 : c.val = 45
      · have hb : (if c.val = 43 ∨ c.val = 45 then cs else c :: cs) = cs :=
          if_pos (Or.inr h45)
        rw [hb] at hne hd hmv
        have hneg : decide (c.val = 45) = true := decide_eq_true h45
        have hr1 : ¬ (¬ (decide (c.val = 45) = true) ∧ n ≥ 2 ^ 63) := by
          rw [hneg]; simp
        rw [if_neg hr1] at h
        by_cases hr : decide (c.val = 45) = true ∧ n > 2 ^ 63
        · rw [if_pos hr] at h
          exact absurd (congrArg Prod.snd h) (by simp)
        · rw [if_neg hr, hneg] at h
          have hn63 : n ≤ 2 ^ 63 := by
            by_contra hcon
            exact hr ⟨hneg, by omega⟩
          have hv : v = -(n : ℤ) := by
            rw [if_pos rfl] at h
            obtain ⟨hfst, _⟩ := Prod.mk.inj h
            rw [← hfst]
            simp only [wrapSigned]
            norm_num at hn63 ⊢
            split_ifs <;> omega
          refine ⟨?_, ?_, ?_⟩
          · rw [hv, hmv]
            simp [signedDecimal, h45, hne, hd]
          · rw [hv]; norm_num at hn63 ⊢; omega
          · rw [hv]; norm_num at hn63 ⊢; omega
      · have hneg : decide (c.val = 45) = false := decide_eq_false h45
        by_cases hr1 : ¬ (decide (c.val = 45) = true) ∧ n ≥ 2 ^ 63
        · rw [if_pos hr1] at h
          exact absurd (congrArg Prod.snd h) (by simp)
        · have hr2 : ¬ (decide (c.val = 45) = true ∧ n > 2 ^ 63) := by
            rw [hneg]; simp
          rw [if_neg hr1, if_neg hr2, hneg] at h
          have hn63 : n < 2 ^ 63 := by
            by_contra hcon
            exact hr1 ⟨by rw [hneg]; simp, by omega⟩
          have hv : v = (n : ℤ) := by
            rw [if_neg (by simp)] at h
            obtain ⟨hfst, _⟩ := Prod.mk.inj h
            rw [← hfst]
            simp only [wrapSigned]
            norm_num at hn63 ⊢
            omega
          refine ⟨?_, by rw [hv]; omega, by rw [hv]; norm_num at hn63 ⊢; omega⟩
          rw [hv, hmv]
          by_cases h43 : c.val = 43
          · have hb : (if c.val = 43 ∨ c.val = 45 then cs else c :: cs) = cs :=
              if_pos (Or.inl h43)
            rw [hb] at hne hd ⊢
            rw [signedDecimal, if_neg h45, if_pos h43, if_pos ⟨hne, hd⟩]
          · have hb : (if c.val = 43 ∨ c.val = 45 then cs else c :: cs) = c :: cs :=
              if_neg (by tauto)
            rw [hb] at hd ⊢
            rw [signedDecimal, if_neg h45, if_neg h43, if_pos hd]
    · rw [hpu] at h
      simp only at h
      by_cases h45 : c.val = 45
      · have hneg : decide (c.val = 45) = true := decide_eq_true h45
        have hr1 : ¬ (¬ (decide (c.val = 45) = true) ∧ 2 ^ 64 - 1 ≥ 2 ^ 63) := by
          rw [hneg]; simp
        have hr2 : decide (c.val = 45) = true ∧ 2 ^ 64 - 1 > 2 ^ 63 := ⟨hneg, by norm_num⟩
        rw [if_neg hr1, if_pos hr2] at h
        exact absurd (congrArg Prod.snd h) (by simp)
      · have hneg : decide (c.val = 45) = false := decide_eq_false h45
        have hr1 : ¬ (decide (c.val = 45) = true) ∧ 2 ^ 64 - 1 ≥ 2 ^ 63 :=
          ⟨by rw [hneg]; simp, by norm_num⟩
        rw [if_pos hr1] at h
        exact absurd (congrArg Prod.snd h) (by simp)
    · rw [hpu] at h
      exact absurd (congrArg Prod.snd h) (by simp)

/-- One iteration of the rewriting loop at a placeholder whose text after
the marker is `rest`: a missing index, an index that `ParseInt` rejects and
an index above the number of values each end the call with an error and an
empty string. -/
theorem rewriteTokens_rejects (lib : Stdlib) (PARAMETER : Int) (params : List Value)
    (t : Token) (ts : List Token) (buf : GoString) (marker : Byte) (rest : GoString)
    (hP : t.tokenType = PARAMETER) (hE : t.tokenType ≠ TokenEOF)
    (htx : t.text = marker :: rest) :
    (rest = [] → rewriteTokens lib PARAMETER params (t :: ts) buf
      = .returns [] (some (.text (lit "Missing parameter index")))) ∧
    (∀ (x : ℤ) (err : GoError), rest ≠ [] → ParseInt rest = (x, some err) →
      rewriteTokens lib PARAMETER params (t :: ts) buf = .returns [] (some err)) ∧
    (∀ i : ℤ, ParseInt rest = (i, none) → (params.length : ℤ) < i →
      rewriteTokens lib PARAMETER params (t :: ts) buf
        = .returns [] (some (.text (lit "Parameter index " ++ FormatInt i
            ++ lit " out of range (" ++ FormatInt params.length ++ lit ")")))) := by
  refine ⟨?_, ?_, ?_⟩
  · intro hr
    rw [rewriteTokens, if_neg hE, if_pos hP, htx, hr]
    rfl
  · intro x err hne hparse
    have hlen0 : ¬ (rest.length = 0) := fun h => hne (List.length_eq_zero.mp h)
    rw [rewriteTokens, if_neg hE, if_pos hP, htx]
    simp only [if_neg hlen0, hparse]
  · intro i hparse hi
    have hne : rest ≠ [] := by
      intro h
      rw [h] at hparse
      simp [ParseInt] at hparse
    have hlen0 : ¬ (rest.length = 0) := fun h => hne (List.length_eq_zero.mp h)
    obtain ⟨_, hlo, hhi⟩ := ParseInt_ok rest i hparse
    have hti : toInt i = i := by
      simp only [toInt, wrapSigned]
      norm_num at hlo hhi ⊢
      omega
    have hrange : i < 0 ∨ toInt i > (params.length : ℤ) := by
      rw [hti]; omega
    rw [rewriteTokens, if_neg hE, if_pos hP, htx]
    simp only [if_neg hlen0, hparse, if_pos hrange]

/-- A placeholder that the loop reaches and from whose text `ParseInt` reads
an index above the number of values ends the call with the range error of
the rewriter. -/
theorem ValidateAndFormatSql_index_above_parsed (lib : Stdlib) (g : Grammar) (sql : GoString)
    (params : List Value) (pre post : List Token) (t : Token) (out : GoString)
    (marker : Byte) (rest : GoString) (i : ℤ)
    (hsyn : checkSyntax g sql = none) (hts : g.NextTokens sql = pre ++ t :: post)
    (hpreE : ∀ u ∈ pre, u.tokenType ≠ TokenEOF)
    (hpre : rewriteTokens lib g.PARAMETER params pre [] = .returns out none)
    (hP : t.tokenType = g.PARAMETER) (hE : t.tokenType ≠ TokenEOF)
    (htx : t.text = marker :: rest) (hparse : ParseInt rest = (i, none))
    (hi : (params.length : ℤ) < i) :
    ValidateAndFormatSql lib g sql params
      = .returns [] (some (.text (lit "Parameter index " ++ FormatInt i
          ++ lit " out of range (" ++ FormatInt params.length ++ lit ")"))) := by
  simp only [ValidateAndFormatSql, hsyn, hts]
  rw [rewriteTokens_append lib g.PARAMETER params _ pre [] out hpreE hpre]
  exact (rewriteTokens_rejects lib g.PARAMETER params t post out marker rest hP hE htx).2.2
    i hparse hi

/-- C18: for every placeholder token that the loop reaches in a validated
template and whose text after the one-character marker is empty, or is not
an optionally signed string of decimal digits, or denotes an integer that
does not fit a signed 64-bit integer, `ValidateAndFormatSql` returns an
error and an empty string, whatever the value list; the error is
`Missing parameter index` when the text after the marker is empty. -/
theorem ValidateAndFormatSql_bad_index (lib : Stdlib) (g : Grammar) (sql : GoString)
    (params : List Value) (pre post : List Token) (t : Token) (out : GoString)
    (marker : Byte) (rest : GoString)
    (hsyn : checkSyntax g sql = none) (hts : g.NextTokens sql = pre ++ t :: post)
    (hpreE : ∀ u ∈ pre, u.tokenType ≠ TokenEOF)
    (hpre : rewriteTokens lib g.PARAMETER params pre [] = .returns out none)
    (hP : t.tokenType = g.PARAMETER) (hE : t.tokenType ≠ TokenEOF)
    (htx : t.text = marker :: rest)
    (hbad : rest = [] ∨ signedDecimal rest = none ∨
      ∃ v, signedDecimal rest = some v ∧ (v < -(2 ^ 63 : ℤ) ∨ (2 ^ 63 : ℤ) ≤ v)) :
    ∃ err, ValidateAndFormatSql lib g sql params = .returns [] (some err) ∧
      (rest = [] → err = .text (lit "Missing parameter index")) := by
  simp only [ValidateAndFormatSql, hsyn, hts]
  rw [rewriteTokens_append lib g.PARAMETER params _ pre [] out hpreE hpre]
  obtain ⟨hmiss, herr, _⟩ :=
    rewriteTokens_rejects lib g.PARAMETER params t post out marker rest hP hE htx
  by_cases hr : rest = []
  · exact ⟨_, hmiss hr, fun _ => rfl⟩
  · cases hp : ParseInt rest with
    | mk x e =>
      cases e with
      | some err => exact ⟨err, herr x err hr hp, fun h => absurd h hr⟩
      | none =>
        exfalso
        obtain ⟨hsd, hlo, hhi⟩ := ParseInt_ok rest x hp
        rcases hbad with h | h | ⟨v, hv, hout⟩
        · exact hr h
        · rw [hsd] at h; exact absurd h (by simp)
        · rw [hsd] at hv
          have : x = v := Option.some.inj hv
          subst this
          omega

theorem ValidateAndFormatSql_bad_index_witness :
    checkSyntax (sampleGrammar 7 [⟨3, lit "SELECT"⟩, ⟨4, lit " "⟩,
        ⟨7, lit "$9223372036854775808"⟩]) (lit "SELECT $9223372036854775808") = none ∧
    rewriteTokens sampleLib 7 [.str none (lit "a")] [⟨3, lit "SELECT"⟩, ⟨4, lit " "⟩] []
      = .returns (lit "SELECT ") none ∧
    signedDecimal (lit "9223372036854775808") = some (2 ^ 63) ∧
    ∃ err, ValidateAndFormatSql sampleLib (sampleGrammar 7 [⟨3, lit "SELECT"⟩, ⟨4, lit " "⟩,
        ⟨7, lit "$9223372036854775808"⟩]) (lit "SELECT $9223372036854775808")
        [.str none (lit "a")] = .returns [] (some err) ∧
      (lit "9223372036854775808" = [] → err = .text (lit "Missing parameter index")) :=
  ⟨by decide, by decide, by decide,
    ValidateAndFormatSql_bad_index sampleLib (sampleGrammar 7 [⟨3, lit "SELECT"⟩,
        ⟨4, lit " "⟩, ⟨7, lit "$9223372036854775808"⟩]) (lit "SELECT $9223372036854775808")
      [.str none (lit "a")] [⟨3, lit "SELECT"⟩, ⟨4, lit " "⟩] [] ⟨7, lit "$9223372036854775808"⟩
      (lit "SELECT ") 36 (lit "9223372036854775808")
      (by decide) rfl (by decide) (by decide) rfl (by decide) rfl
      (Or.inr (Or.inr ⟨2 ^ 63, by decide, Or.inr (le_refl _)⟩))⟩


/-! ## The case-folding character source -/

/-- C21: for every underlying character source and every look-ahead offset
at which the source yields a code point `c >= 0`, `upcaseCharStream.LA`
returns the upper-case mapping of `c`: an ASCII letter `a` to `z` comes
back as the letter `A` to `Z`, every other ASCII character and every code
point for which the tables have no mapping comes back unchanged; text
extraction is that of the underlying source. -/
theorem upcaseCharStream_LA_upper (tbl : CaseTables) (s : CharStream) (offset c : Int)
    (hc : s.LA offset = c) (h0 : 0 ≤ c) (hmax : c ≤ (MaxRune : Int)) :
    (newUpcaseCharStream s).LA tbl offset = ToUpper tbl c ∧
    (97 ≤ c ∧ c ≤ 122 → (newUpcaseCharStream s).LA tbl offset = c - 32) ∧
    (c ≤ 0x7F → ¬ (97 ≤ c ∧ c ≤ 122) → (newUpcaseCharStream s).LA tbl offset = c) ∧
    (0x7F < c → tbl.upperCase c = none → (newUpcaseCharStream s).LA tbl offset = c) ∧
    (∀ a b : Int, (newUpcaseCharStream s).GetText a b = s.GetText a b) := by
  have hw : wrapSigned 32 c = c := by
    simp only [wrapSigned, MaxRune] at hmax ⊢
    norm_num at hmax ⊢
    omega
  have hLA : (newUpcaseCharStream s).LA tbl offset = ToUpper tbl c := by
    simp only [upcaseCharStream.LA, newUpcaseCharStream, hc, hw]
    rw [if_neg (by omega)]
  refine ⟨hLA, ?_, ?_, ?_, fun a b => rfl⟩
  · intro h
    rw [hLA, ToUpper, if_pos (by omega), if_pos h]
  · intro h1 h2
    rw [hLA, ToUpper, if_pos h1, if_neg h2]
  · intro h1 h2
    rw [hLA, ToUpper, if_neg (by omega), h2]
    rfl

theorem upcaseCharStream_LA_upper_witness :
    (sampleStream (lit "select")).LA 3 = 108 ∧ (0 : Int) ≤ 108 ∧ (108 : Int) ≤ (MaxRune : Int) ∧
    (newUpcaseCharStream (sampleStream (lit "select"))).LA sampleTables 3 = 108 - 32 :=
  ⟨by decide, by decide, by decide,
    (upcaseCharStream_LA_upper sampleTables (sampleStream (lit "select")) 3 108
      (by decide) (by decide) (by decide)).2.1 (by decide)⟩

/-- C30: for every underlying character source and every look-ahead offset
at which the source yields a negative value, `upcaseCharStream.LA` returns
that same value. -/
theorem upcaseCharStream_LA_negative (tbl : CaseTables) (s : CharStream) (offset : Int)
    (h : s.LA offset < 0) :
    (newUpcaseCharStream s).LA tbl offset = s.LA offset := by
  simp only [upcaseCharStream.LA, newUpcaseCharStream]
  rw [if_pos h]

theorem upcaseCharStream_LA_negative_witness :
    (sampleStream (lit "select")).LA 7 < 0 ∧
    (newUpcaseCharStream (sampleStream (lit "select"))).LA sampleTables 7
      = (sampleStream (lit "select")).LA 7 :=
  ⟨by decide,
    upcaseCharStream_LA_negative sampleTables (sampleStream (lit "select")) 7 (by decide)⟩

/-! ## Types the formatter does not read -/

/-- C23 at a failing input: a slice of an unnamed slice type such as
`[]int`. `reflect.Type.Name()` is empty for an unnamed type, so the message
is `Unsupported data type: ` with nothing after it. -/
theorem formatParameter_unnamed_type_message :
    (Value.other .Slice []).typeName = some [] ∧
    formatParameter sampleLib (.other .Slice [])
      = .returns [] (some (.text (lit "Unsupported data type: "))) := by
  decide

/-- C25 at a failing input: the value `Name("a")` of the defined type
`type Name string`. Its kind is string, yet `formatParameter` panics in the
type assertion `p.(string)` instead of returning the literal `'a'`. -/
theorem formatParameter_defined_string_panics :
    (Value.str (some (lit "Name")) (lit "a")).kind = .String ∧
    formatParameter sampleLib (.str (some (lit "Name")) (lit "a"))
      = .panics .typeAssertion := by
  decide

/-! ## The width read by the escaping loop -/

/-- The width the loop of `escapeString` reads at the front of a non-empty
string is at least one and at most the length of the string. -/
theorem read_width (s0 : Byte) (t : GoString) :
    1 ≤ (if s0.val ≥ RuneSelf then DecodeRuneInString (s0 :: t) else (s0.val, 1)).2 ∧
    (if s0.val ≥ RuneSelf then DecodeRuneInString (s0 :: t) else (s0.val, 1)).2
      ≤ (s0 :: t).length := by
  by_cases h : s0.val ≥ RuneSelf
  · rw [if_pos h]; exact decode_width s0 t
  · rw [if_neg h]; simp

/-! ## Decoding does not look past the rune -/

theorem stable_two (s0 : Byte) (t : GoString) (x lo hi : Nat) (hf : first s0.val = x)
    (hx : x < 0xF0) (hsz : x &&& 7 = 2) (hacc : acceptRanges (x >>> 4) = (lo, hi))
    (hw : 2 ≤ (DecodeRuneInString (s0 :: t)).2) (rest : GoString) :
    DecodeRuneInString ((s0 :: t).take (DecodeRuneInString (s0 :: t)).2 ++ rest)
      = DecodeRuneInString (s0 :: t) := by
  have e := decode_two s0 t x lo hi hf hx hsz hacc
  cases t with
  | nil => rw [e] at hw; simp at hw
  | cons s1 t1 =>
    simp only at e
    by_cases hc : s1.val < lo ∨ hi < s1.val
    · rw [e, if_pos hc] at hw; simp at hw
    · rw [if_neg hc] at e
      rw [e]
      show DecodeRuneInString (s0 :: s1 :: rest) = _
      rw [decode_two s0 (s1 :: rest) x lo hi hf hx hsz hacc]
      simp only [if_neg hc]

theorem stable_three (s0 : Byte) (t : GoString) (x lo hi : Nat) (hf : first s0.val = x)
    (hx : x < 0xF0) (hsz : x &&& 7 = 3) (hacc : acceptRanges (x >>> 4) = (lo, hi))
    (hw : 2 ≤ (DecodeRuneInString (s0 :: t)).2) (rest : GoString) :
    DecodeRuneInString ((s0 :: t).take (DecodeRuneInString (s0 :: t)).2 ++ rest)
      = DecodeRuneInString (s0 :: t) := by
  have e := decode_three s0 t x lo hi hf hx hsz hacc
  match t with
  | [] => rw [e] at hw; simp at hw
  | [_] => rw [e] at hw; simp at hw
  | s1 :: s2 :: t2 =>
    simp only at e
    by_cases hc : s1.val < lo ∨ hi < s1.val
    · rw [e, if_pos hc] at hw; simp at hw
    by_cases hc2 : s2.val < 0x80 ∨ 0xBF < s2.val
    · rw [e, if_neg hc, if_pos hc2] at hw; simp at hw
    rw [if_neg hc, if_neg hc2] at e
    rw [e]
    show DecodeRuneInString (s0 :: s1 :: s2 :: rest) = _
    rw [decode_three s0 (s1 :: s2 :: rest) x lo hi hf hx hsz hacc]
    simp only [if_neg hc, if_neg hc2]

theorem stable_four (s0 : Byte) (t : GoString) (x lo hi : Nat) (hf : first s0.val = x)
    (hx : x < 0xF0) (hsz : x &&& 7 = 4) (hacc : acceptRanges (x >>> 4) = (lo, hi))
    (hw : 2 ≤ (DecodeRuneInString (s0 :: t)).2) (rest : GoString) :
    DecodeRuneInString ((s0 :: t).take (DecodeRuneInString (s0 :: t)).2 ++ rest)
      = DecodeRuneInString (s0 :: t) := by
  have e := decode_four s0 t x lo hi hf hx hsz hacc
  match t with
  | [] => rw [e] at hw; simp at hw
  | [_] => rw [e] at hw; simp at hw
  | [_, _] => rw [e] at hw; simp at hw
  | s1 :: s2 :: s3 :: t3 =>
    simp only at e
    by_cases hc : s1.val < lo ∨ hi < s1.val
    · rw [e, if_pos hc] at hw; simp at hw
    by_cases hc2 : s2.val < 0x80 ∨ 0xBF < s2.val
    · rw [e, if_neg hc, if_pos hc2] at hw; simp at hw
    by_cases hc3 : s3.val < 0x80 ∨ 0xBF < s3.val
    · rw [e, if_neg hc, if_neg hc2, if_pos hc3] at hw; simp at hw
    rw [if_neg hc, if_neg hc2, if_neg hc3] at e
    rw [e]
    show DecodeRuneInString (s0 :: s1 :: s2 :: s3 :: rest) = _
    rw [decode_four s0 (s1 :: s2 :: s3 :: rest) x lo hi hf hx hsz hacc]
    simp only [if_neg hc, if_neg hc2, if_neg hc3]

/-- A rune of two or more bytes is decoded from its own bytes alone: what
follows them does not change the result. -/
theorem DecodeRuneInString_stable (s0 : Byte) (t : GoString)
    (hw : 2 ≤ (DecodeRuneInString (s0 :: t)).2) (rest : GoString) :
    DecodeRuneInString ((s0 :: t).take (DecodeRuneInString (s0 :: t)).2 ++ rest)
      = DecodeRuneInString (s0 :: t) := by
  rcases first_class s0 with ⟨h, hf⟩ | ⟨h, h', hf⟩ | ⟨h, hf⟩ | ⟨h, h', h'', hf⟩ | ⟨h, hf⟩
    | ⟨h, hf⟩ | ⟨h, h', hf⟩ | ⟨h, hf⟩ | ⟨h, hf⟩
  · rw [decode_ascii s0 t h] at hw; simp at hw
  · exact stable_two s0 t _ 0x80 0xBF hf (by decide) rfl rfl hw rest
  · exact stable_three s0 t _ 0xA0 0xBF hf (by decide) rfl rfl hw rest
  · exact stable_three s0 t _ 0x80 0xBF hf (by decide) rfl rfl hw rest
  · exact stable_three s0 t _ 0x80 0x9F hf (by decide) rfl rfl hw rest
  · exact stable_four s0 t _ 0x90 0xBF hf (by decide) rfl rfl hw rest
  · exact stable_four s0 t _ 0x80 0xBF hf (by decide) rfl rfl hw rest
  · exact stable_four s0 t _ 0x80 0x8F hf (by decide) rfl rfl hw rest
  · have : DecodeRuneInString (s0 :: t) = (RuneError, 1) := by
      simp [DecodeRuneInString, hf, RuneError]
    rw [this] at hw; simp at hw

/-! ## The runes of a string, one by one -/

/-- Every rune read from a string is an undecodable byte of at least `0x80`,
an ASCII byte standing for itself, or a rune of two or more bytes, all at
least `0x80`, that is decoded from these bytes whatever follows them. -/
theorem decodeRunes_shape (fuel : Nat) : ∀ (s : GoString) (d : DecodedRune),
    d ∈ decodeRunes fuel s →
      (d.width = 1 ∧ d.r = RuneError ∧ ∃ b : Byte, d.bytes = [b] ∧ 0x80 ≤ b.val) ∨
      (d.width = 1 ∧ d.r < 0x80 ∧ ∃ b : Byte, d.bytes = [b] ∧ b.val = d.r) ∨
      (2 ≤ d.width ∧ 0x80 ≤ d.r ∧ d.bytes.length = d.width ∧
        (∀ b ∈ d.bytes, 0x80 ≤ b.val) ∧
        ∀ rest, DecodeRuneInString (d.bytes ++ rest) = (d.r, d.width)) := by
  induction fuel with
  | zero => intro s d h; simp [decodeRunes] at h
  | succ fuel ih =>
    intro s d h
    cases s with
    | nil => simp [decodeRunes] at h
    | cons s0 t =>
      simp only [decodeRunes, List.mem_cons] at h
      rcases h with rfl | h
      · rcases DecodeRuneInString_reads s0 t with h | ⟨a, u, hs, ha, h⟩ | ⟨hw, hl, hr, _, hb⟩
        · refine Or.inl ⟨by simp [h], by simp [h], s0, by simp [h], ?_⟩
          by_contra hlt
          rw [decode_ascii s0 t (by omega)] at h
          have := congrArg Prod.fst h
          simp only [RuneError] at this
          omega
        · obtain ⟨rfl, rfl⟩ := List.cons.inj hs
          exact Or.inr (Or.inl ⟨by simp [h], by simpa [h] using ha, s0, by simp [h],
            by simp [h]⟩)
        · refine Or.inr (Or.inr ⟨hw, hr, ?_, hb, ?_⟩)
          · simp only [List.length_take]; omega
          · intro rest
            exact DecodeRuneInString_stable s0 t hw rest
      · exact ih _ d h

/-- For each rune read, what is written has twice the quotes of the bytes
the rune was read from and at most twice their number. -/
theorem emitRune_count (lib : Stdlib) (d : DecodedRune)
    (hc : (d.width = 1 ∧ d.r = RuneError ∧ ∃ b : Byte, d.bytes = [b] ∧ 0x80 ≤ b.val) ∨
      (d.width = 1 ∧ d.r < 0x80 ∧ ∃ b : Byte, d.bytes = [b] ∧ b.val = d.r) ∨
      (2 ≤ d.width ∧ 0x80 ≤ d.r ∧ d.bytes.length = d.width ∧
        (∀ b ∈ d.bytes, 0x80 ≤ b.val) ∧
        ∀ rest, DecodeRuneInString (d.bytes ++ rest) = (d.r, d.width))) :
    (emitRune lib d).count quote = 2 * d.bytes.count quote ∧
    (emitRune lib d).length ≤ 2 * d.bytes.length := by
  unfold emitRune
  rcases hc with ⟨hw, hr, b, hb, hbv⟩ | ⟨hw, hr, b, hb, hbv⟩ | ⟨hw, hr, hl, hb, _⟩
  · rw [if_pos ⟨hw, hr⟩, hb]
    have hbq : b ≠ quote := ne_quote_of_val b (by omega)
    simp [List.count_cons, hbq]
  · have h1 : ¬ (d.width = 1 ∧ d.r = RuneError) := by
      intro h; have := h.2; simp only [RuneError] at this; omega
    rw [if_neg h1, hb]
    by_cases hq : d.r = quote.val
    · have hbq : b = quote := Fin.ext (by rw [hbv, hq])
      rw [if_pos hq, hbq]
      simp
    · have hbq : b ≠ quote := fun e => hq (by rw [← hbv, e])
      rw [if_neg hq]
      split <;> simp [List.count_cons, hbq]
  · have h1 : ¬ (d.width = 1 ∧ d.r = RuneError) := by omega
    have hq : ¬ (d.r = quote.val) := by rw [quote_val]; omega
    have hfree : quote ∉ d.bytes := by
      intro h
      have := hb _ h
      rw [quote_val] at this
      omega
    rw [if_neg h1, if_neg hq]
    have h0 := List.count_eq_zero_of_not_mem hfree
    split
    · rw [h0]; omega
    · simp [h0]

theorem flatMap_emit_count (lib : Stdlib) (l : List DecodedRune)
    (h : ∀ d ∈ l, (emitRune lib d).count quote = 2 * d.bytes.count quote ∧
      (emitRune lib d).length ≤ 2 * d.bytes.length) :
    (l.flatMap (emitRune lib)).count quote = 2 * (l.flatMap (fun d => d.bytes)).count quote ∧
    (l.flatMap (emitRune lib)).length ≤ 2 * (l.flatMap (fun d => d.bytes)).length := by
  induction l with
  | nil => simp
  | cons d ds ih =>
    obtain ⟨h1, h2⟩ := h d (List.mem_cons_self _ _)
    obtain ⟨i1, i2⟩ := ih (fun e he => h e (List.mem_cons_of_mem _ he))
    simp only [List.flatMap_cons, List.count_append, List.length_append]
    constructor <;> omega

/-- C26: for every byte string `s`, the number of quote bytes in
`escapeString(s, quote, quote)` is exactly twice the number of quote bytes
in `s`, and the output is at most twice as long as `s`. -/
theorem escapeString_quote_count (lib : Stdlib) (s : GoString) :
    (escapeString lib s quote quote).count quote = 2 * s.count quote ∧
    (escapeString lib s quote quote).length ≤ 2 * s.length := by
  have h := flatMap_emit_count lib (runesOf s)
    (fun d hd => emitRune_count lib d (decodeRunes_shape _ _ d hd))
  have hb : (runesOf s).flatMap (fun d => d.bytes) = s :=
    decodeRunes_bytes s.length s (le_refl _)
  rw [hb] at h
  rw [escapeString_eq_reference, escapeReference]
  exact h

/-! ## The runes of a concatenation -/

/-- With fuel for every byte the runes of a string have all been read: more
fuel reads the same runes. -/
theorem decodeRunes_fuel (n : Nat) : ∀ (s : GoString) (m : Nat),
    s.length ≤ n → s.length ≤ m → decodeRunes n s = decodeRunes m s := by
  induction n with
  | zero =>
    intro s m h _
    have : s = [] := List.length_eq_zero.mp (Nat.le_zero.mp h)
    subst this
    cases m <;> simp [decodeRunes]
  | succ n ih =>
    intro s m h hm
    cases s with
    | nil => cases m <;> simp [decodeRunes]
    | cons s0 t =>
      cases m with
      | zero => simp at hm
      | succ m =>
        obtain ⟨h1, h2⟩ := decode_width s0 t
        have hlen : ((s0 :: t).drop (DecodeRuneInString (s0 :: t)).2).length ≤ n := by
          rw [List.length_drop]; simp only [List.length_cons] at h h2 ⊢; omega
        have hlenm : ((s0 :: t).drop (DecodeRuneInString (s0 :: t)).2).length ≤ m := by
          rw [List.length_drop]; simp only [List.length_cons] at hm h2 ⊢; omega
        simp only [decodeRunes]
        rw [ih _ m hlen hlenm]

/-- The runes of a string that starts with the bytes of sound runes are
these runes followed by the runes of the rest. -/
theorem runesOf_append_sound (E : List DecodedRune) (hE : ∀ e ∈ E, SoundRune e)
    (rest : GoString) :
    runesOf (E.flatMap (fun d => d.bytes) ++ rest) = E ++ runesOf rest := by
  induction E with
  | nil => simp
  | cons e E' ih =>
    obtain ⟨hw, hl, hst⟩ := hE e (List.mem_cons_self _ _)
    have ih' := ih (fun d hd => hE d (List.mem_cons_of_mem _ hd))
    have hne : e.bytes ≠ [] := by
      intro h; rw [h] at hl; simp at hl; omega
    obtain ⟨b, bs, hb⟩ := List.exists_cons_of_ne_nil hne
    have hdec := hst (E'.flatMap (fun d => d.bytes) ++ rest)
    rw [List.flatMap_cons, List.append_assoc]
    generalize htail : E'.flatMap (fun d => d.bytes) ++ rest = tail at ih' hdec
    have hlen : (e.bytes ++ tail).length = (bs ++ tail).length + 1 := by
      rw [hb]; simp
    have hcons : e.bytes ++ tail = b :: (bs ++ tail) := by rw [hb]; rfl
    rw [runesOf, hlen]
    rw [hcons] at hdec ⊢
    simp only [decodeRunes, hdec]
    have htake : (b :: (bs ++ tail)).take e.width = e.bytes := by
      rw [← hcons, ← hl, List.take_left']
      rfl
    have hdrop : (b :: (bs ++ tail)).drop e.width = tail := by
      rw [← hcons, ← hl, List.drop_left']
      rfl
    rw [htake, hdrop]
    have hfuel : decodeRunes (bs ++ tail).length tail = runesOf tail :=
      decodeRunes_fuel _ tail _ (by simp) (le_refl _)
    rw [hfuel, ih']
    rfl

/-- A rune read from a string that is not an undecodable byte is sound. -/
theorem SoundRune_of_shape (d : DecodedRune)
    (hc : (d.width = 1 ∧ d.r = RuneError ∧ ∃ b : Byte, d.bytes = [b] ∧ 0x80 ≤ b.val) ∨
      (d.width = 1 ∧ d.r < 0x80 ∧ ∃ b : Byte, d.bytes = [b] ∧ b.val = d.r) ∨
      (2 ≤ d.width ∧ 0x80 ≤ d.r ∧ d.bytes.length = d.width ∧
        (∀ b ∈ d.bytes, 0x80 ≤ b.val) ∧
        ∀ rest, DecodeRuneInString (d.bytes ++ rest) = (d.r, d.width)))
    (hv : ¬ (d.width = 1 ∧ d.r = RuneError)) : SoundRune d := by
  rcases hc with ⟨hw, hr, _⟩ | ⟨hw, hr, b, hb, hbv⟩ | ⟨hw, hr, hl, _, hst⟩
  · exact absurd ⟨hw, hr⟩ hv
  · refine ⟨by omega, by rw [hb, hw]; rfl, ?_⟩
    intro rest
    rw [hb, hw, ← hbv]
    exact decode_ascii b rest (by omega)
  · exact ⟨by omega, hl, hst⟩

/-- C29: for every valid UTF-8 string `a` and every byte string `b`,
escaping `a ++ b` gives the escaped `a` followed by the escaped `b`; the
escaped empty string is empty and the literal of the empty string is two
quotes. -/
theorem escapeString_append (lib : Stdlib) (a b : GoString) (hv : validUTF8 a = true) :
    escapeString lib (a ++ b) quote quote
      = escapeString lib a quote quote ++ escapeString lib b quote quote ∧
    escapeString lib [] quote quote = [] ∧
    formatParameter lib (.str none []) = .returns [quote, quote] none := by
  refine ⟨?_, rfl, rfl⟩
  have hsound : ∀ e ∈ runesOf a, SoundRune e := by
    intro e he
    have h0 := (List.all_eq_true.mp hv) e he
    have hvd : ¬ (e.width = 1 ∧ e.r = RuneError) := by
      intro hcontra
      simp [hcontra] at h0
    exact SoundRune_of_shape e (decodeRunes_shape _ _ e he) hvd
  have hbytes : (runesOf a).flatMap (fun d => d.bytes) = a :=
    decodeRunes_bytes a.length a (le_refl _)
  have hrunes : runesOf (a ++ b) = runesOf a ++ runesOf b := by
    have := runesOf_append_sound (runesOf a) hsound b
    rw [hbytes] at this
    exact this
  simp only [escapeString_eq_reference, escapeReference, hrunes, List.flatMap_append]

theorem escapeString_append_witness :
    validUTF8 (lit "it's") = true ∧
    escapeString sampleLib (lit "it's" ++ [0xE2, 0x82]) quote quote
      = escapeString sampleLib (lit "it's") quote quote
        ++ escapeString sampleLib [0xE2, 0x82] quote quote :=
  ⟨by decide, (escapeString_append sampleLib (lit "it's") [0xE2, 0x82] (by decide)).1⟩

/-! ## The escaped string is valid and printable -/

theorem IsPrint_ascii (lib : Stdlib) (r : Nat) (hr : r < 0x80) (hp : IsPrint lib r = true) :
    0x20 ≤ r ∧ r ≠ 0x7F := by
  unfold IsPrint at hp
  rw [if_pos (by omega)] at hp
  by_cases h1 : 0x20 ≤ r ∧ r ≤ 0x7E
  · omega
  · rw [if_neg h1] at hp
    by_cases h2 : 0xA1 ≤ r ∧ r ≤ 0xFF
    · omega
    · rw [if_neg h2] at hp
      exact absurd hp (by simp)

/-- What is written for a rune read are the bytes of the runes of
`emittedRunes`, each of which is sound, decodable and printable and has no
byte that is an ASCII control character. -/
theorem emittedRunes_spec (lib : Stdlib) (d : DecodedRune)
    (hc : (d.width = 1 ∧ d.r = RuneError ∧ ∃ b : Byte, d.bytes = [b] ∧ 0x80 ≤ b.val) ∨
      (d.width = 1 ∧ d.r < 0x80 ∧ ∃ b : Byte, d.bytes = [b] ∧ b.val = d.r) ∨
      (2 ≤ d.width ∧ 0x80 ≤ d.r ∧ d.bytes.length = d.width ∧
        (∀ b ∈ d.bytes, 0x80 ≤ b.val) ∧
        ∀ rest, DecodeRuneInString (d.bytes ++ rest) = (d.r, d.width))) :
    emitRune lib d = (emittedRunes lib d).flatMap (fun e => e.bytes) ∧
    ∀ e ∈ emittedRunes lib d,
      SoundRune e ∧ ¬ (e.width = 1 ∧ e.r = RuneError) ∧ IsPrint lib e.r = true ∧
      ∀ b ∈ e.bytes, 0x20 ≤ b.val ∧ b.val ≠ 0x7F := by
  unfold emitRune emittedRunes
  by_cases hv : d.width = 1 ∧ d.r = RuneError
  · rw [if_pos hv, if_pos hv]
    exact ⟨rfl, fun e he => absurd he (List.not_mem_nil _)⟩
  rw [if_neg hv, if_neg hv]
  by_cases hq : d.r = quote.val
  · rw [if_pos hq, if_pos hq]
    refine ⟨rfl, ?_⟩
    intro e he
    have heq : e = { r := quote.val, width := 1, bytes := [quote] } := by
      simp only [List.mem_cons, List.mem_singleton, List.not_mem_nil, or_false, or_self] at he
      exact he
    subst heq
    refine ⟨⟨le_refl _, rfl, fun rest => decode_ascii quote rest (by decide)⟩, ?_, ?_, ?_⟩
    · simp [RuneError, quote_val]
    · simp [IsPrint, quote_val]
    · intro b hb
      simp only [List.mem_singleton] at hb
      subst hb
      decide
  rw [if_neg hq, if_neg hq]
  by_cases hp : IsPrint lib d.r = true
  · rw [if_pos hp, if_pos hp]
    refine ⟨by simp, ?_⟩
    intro e he
    simp only [List.mem_singleton] at he
    subst he
    refine ⟨SoundRune_of_shape e hc hv, hv, hp, ?_⟩
    rcases hc with ⟨hw, hr, _⟩ | ⟨hw, hr, b, hb, hbv⟩ | ⟨hw, hr, hl, hge, _⟩
    · exact absurd ⟨hw, hr⟩ hv
    · intro c hcmem
      rw [hb] at hcmem
      simp only [List.mem_singleton] at hcmem
      subst hcmem
      rw [hbv]
      exact IsPrint_ascii lib e.r hr hp
    · intro c hcmem
      have := hge c hcmem
      omega
  · rw [if_neg hp, if_neg hp]
    exact ⟨rfl, fun e he => absurd he (List.not_mem_nil _)⟩

/-- C27: for every byte string `s`, valid UTF-8 or not,
`escapeString(s, quote, quote)` is valid UTF-8, every rune of it is
printable, and it has no byte that is an ASCII control character. -/
theorem escapeString_valid_printable_output (lib : Stdlib) (s : GoString) :
    validUTF8 (escapeString lib s quote quote) = true ∧
    allPrintable lib (escapeString lib s quote quote) = true ∧
    ∀ b ∈ escapeString lib s quote quote, 0x20 ≤ b.val ∧ b.val ≠ 0x7F := by
  have hspec := fun d hd => emittedRunes_spec lib d (decodeRunes_shape s.length s d hd)
  have hout : escapeString lib s quote quote
      = ((runesOf s).flatMap (emittedRunes lib)).flatMap (fun e => e.bytes) := by
    rw [escapeString_eq_reference, escapeReference, List.flatMap_assoc]
    exact List.flatMap_congr (fun d hd => (hspec d hd).1)
  have hE : ∀ e ∈ (runesOf s).flatMap (emittedRunes lib),
      SoundRune e ∧ ¬ (e.width = 1 ∧ e.r = RuneError) ∧ IsPrint lib e.r = true ∧
      ∀ b ∈ e.bytes, 0x20 ≤ b.val ∧ b.val ≠ 0x7F := by
    intro e he
    obtain ⟨d, hd, hed⟩ := List.mem_flatMap.mp he
    exact (hspec d hd).2 e hed
  have hrunes : runesOf (escapeString lib s quote quote)
      = (runesOf s).flatMap (emittedRunes lib) := by
    have := runesOf_append_sound _ (fun e he => (hE e he).1) []
    rw [List.append_nil] at this
    rw [hout, this]
    simp [runesOf, decodeRunes]
  refine ⟨?_, ?_, ?_⟩
  · rw [validUTF8, hrunes, List.all_eq_true]
    intro e he
    simp [(hE e he).2.1]
  · rw [allPrintable, hrunes, List.all_eq_true]
    intro e he
    exact (hE e he).2.2.1
  · intro b hb
    rw [hout] at hb
    obtain ⟨e, he, hbe⟩ := List.mem_flatMap.mp hb
    exact (hE e he).2.2.2 b hbe

/-! ## The first failing placeholder -/

/-- One token of the stream either ends the loop with an outcome that does
not depend on the tokens after it, or lets the loop continue on them with a
longer buffer. -/
theorem rewriteTokens_step (lib : Stdlib) (PARAMETER : Int) (params : List Value)
    (t : Token) (buf : GoString) :
    (∃ o, ∀ ts, rewriteTokens lib PARAMETER params (t :: ts) buf = o) ∨
    (∃ b, ∀ ts, rewriteTokens lib PARAMETER params (t :: ts) buf
      = rewriteTokens lib PARAMETER params ts b) := by
  by_cases hE : t.tokenType = TokenEOF
  · exact Or.inl ⟨_, fun ts => by rw [rewriteTokens, if_pos hE]⟩
  by_cases hP : t.tokenType = PARAMETER
  swap
  · exact Or.inr ⟨_, fun ts => by rw [rewriteTokens, if_neg hE, if_neg hP]⟩
  cases htx : t.text with
  | nil => exact Or.inl ⟨_, fun ts => by rw [rewriteTokens, if_neg hE, if_pos hP, htx]⟩
  | cons m rest =>
    by_cases hl : rest.length = 0
    · exact Or.inl ⟨.returns [] (some (.text (lit "Missing parameter index"))), fun ts => by
        rw [rewriteTokens, if_neg hE, if_pos hP, htx]; simp only [if_pos hl]⟩
    cases hp : ParseInt rest with
    | mk index err =>
      cases err with
      | some er =>
        exact Or.inl ⟨.returns [] (some er), fun ts => by
          rw [rewriteTokens, if_neg hE, if_pos hP, htx]; simp only [if_neg hl, hp]⟩
      | none =>
        by_cases hr : index < 0 ∨ toInt index > (params.length : ℤ)
        · exact Or.inl ⟨.returns [] (some (.text (lit "Parameter index " ++ FormatInt index
              ++ lit " out of range (" ++ FormatInt params.length ++ lit ")"))), fun ts => by
            rw [rewriteTokens, if_neg hE, if_pos hP, htx]
            simp only [if_neg hl, hp, if_pos hr]⟩
        by_cases hn : index - 1 < 0
        · exact Or.inl ⟨.panics .indexOutOfRange, fun ts => by
            rw [rewriteTokens, if_neg hE, if_pos hP, htx]
            simp only [if_neg hl, hp, if_neg hr, if_pos hn]⟩
        cases hg : params[(index - 1).toNat]? with
        | none =>
          exact Or.inl ⟨.panics .indexOutOfRange, fun ts => by
            rw [rewriteTokens, if_neg hE, if_pos hP, htx]
            simp only [if_neg hl, hp, if_neg hr, if_neg hn, hg]⟩
        | some p =>
          cases hf : formatParameter lib p with
          | panics e =>
            exact Or.inl ⟨.panics e, fun ts => by
              rw [rewriteTokens, if_neg hE, if_pos hP, htx]
              simp only [if_neg hl, hp, if_neg hr, if_neg hn, hg, hf]⟩
          | returns s err =>
            cases err with
            | none =>
              exact Or.inr ⟨buf ++ s, fun ts => by
                rw [rewriteTokens, if_neg hE, if_pos hP, htx]
                simp only [if_neg hl, hp, if_neg hr, if_neg hn, hg, hf]⟩
            | some er =>
              exact Or.inl ⟨.returns [] (some er), fun ts => by
                rw [rewriteTokens, if_neg hE, if_pos hP, htx]
                simp only [if_neg hl, hp, if_neg hr, if_neg hn, hg, hf]⟩

/-- A token at which the loop returns an error returns that error whatever
tokens follow it. -/
theorem rewriteTokens_fail_head (lib : Stdlib) (PARAMETER : Int) (params : List Value)
    (t : Token) (buf s : GoString) (e : GoError)
    (h : rewriteTokens lib PARAMETER params [t] buf = .returns s (some e))
    (post : List Token) :
    rewriteTokens lib PARAMETER params (t :: post) buf = .returns s (some e) := by
  rcases rewriteTokens_step lib PARAMETER params t buf with ⟨o, ho⟩ | ⟨b, hb⟩
  · rw [ho post, ← ho [], h]
  · rw [hb []] at h
    simp [rewriteTokens] at h

/-- A value that no placeholder among the tokens selects does not matter to
the loop: replacing it leaves the outcome unchanged. -/
theorem rewriteTokens_set (lib : Stdlib) (PARAMETER : Int) (params : List Value)
    (j : Nat) (v : Value) : ∀ (ts : List Token) (buf : GoString),
    references PARAMETER ts j = false →
    rewriteTokens lib PARAMETER (params.set j v) ts buf
      = rewriteTokens lib PARAMETER params ts buf := by
  intro ts
  induction ts with
  | nil => intro buf _; simp [rewriteTokens]
  | cons t ts ih =>
    intro buf href
    simp only [references, List.any_cons, Bool.or_eq_false_iff, decide_eq_false_iff_not] at href
    obtain ⟨hnot, hrest⟩ := href
    have ih' := fun b => ih b (by simpa [references] using hrest)
    by_cases hE : t.tokenType = TokenEOF
    · rw [rewriteTokens, rewriteTokens, if_pos hE, if_pos hE]
    by_cases hP : t.tokenType = PARAMETER
    swap
    · rw [rewriteTokens, rewriteTokens, if_neg hE, if_neg hE, if_neg hP, if_neg hP, ih']
    cases htx : t.text with
    | nil => rw [rewriteTokens, rewriteTokens, if_neg hE, if_neg hE, if_pos hP, if_pos hP, htx]
    | cons m rest =>
      rw [rewriteTokens, rewriteTokens, if_neg hE, if_neg hE, if_pos hP, if_pos hP, htx]
      simp only [List.length_set]
      by_cases hl : rest.length = 0
      · simp only [if_pos hl]
      simp only [if_neg hl]
      cases hp : ParseInt rest with
      | mk index err =>
        cases err with
        | some er => rfl
        | none =>
          simp only
          by_cases hr : index < 0 ∨ toInt index > (params.length : ℤ)
          · simp only [if_pos hr]
          simp only [if_neg hr]
          by_cases hn : index - 1 < 0
          · simp only [if_pos hn]
          simp only [if_neg hn]
          have hidx : (ParseInt (t.text.drop 1)).1 = index := by
            rw [htx]; simp only [List.drop_succ_cons, List.drop_zero, hp]
          have hne : j ≠ (index - 1).toNat := by
            intro hj
            apply hnot
            refine ⟨hP, ?_⟩
            rw [hidx, hj]
            omega
          rw [List.getElem?_set_ne hne]
          cases hg : params[(index - 1).toNat]? with
          | none => rfl
          | some p =>
            simp only
            cases hf : formatParameter lib p with
            | panics e => rfl
            | returns s err =>
              cases err with
              | none => exact ih' _
              | some er => rfl

/-- For every validated template in which the loop rewrites the tokens
`pre` without failure and then returns the error `e` at the token after
them, `ValidateAndFormatSql` returns `e` with an empty string, whatever
placeholders follow and whether they would fail too: the result is the same
for any other tokens after the failing one and for any other value in a
position that no placeholder up to the failing one selects. -/
theorem ValidateAndFormatSql_first_error (lib : Stdlib) (g : Grammar) (sql : GoString)
    (params : List Value) (pre post : List Token) (t : Token) (out : GoString) (e : GoError)
    (hsyn : checkSyntax g sql = none) (hts : g.NextTokens sql = pre ++ t :: post)
    (hpreE : ∀ u ∈ pre, u.tokenType ≠ TokenEOF)
    (hpre : rewriteTokens lib g.PARAMETER params pre [] = .returns out none)
    (hfail : rewriteTokens lib g.PARAMETER params [t] out = .returns [] (some e)) :
    ValidateAndFormatSql lib g sql params = .returns [] (some e) ∧
    (∀ (g' : Grammar) (post' : List Token), checkSyntax g' sql = none →
      g'.PARAMETER = g.PARAMETER → g'.NextTokens sql = pre ++ t :: post' →
      ValidateAndFormatSql lib g' sql params = .returns [] (some e)) ∧
    (∀ (j : Nat) (v : Value), references g.PARAMETER (pre ++ [t]) j = false →
      ValidateAndFormatSql lib g sql (params.set j v) = .returns [] (some e)) := by
  refine ⟨?_, ?_, ?_⟩
  · simp only [ValidateAndFormatSql, hsyn, hts]
    rw [rewriteTokens_append lib g.PARAMETER params _ pre [] out hpreE hpre]
    exact rewriteTokens_fail_head lib g.PARAMETER params t out [] e hfail post
  · intro g' post' hsyn' hP' hts'
    simp only [ValidateAndFormatSql, hsyn', hts', hP']
    rw [rewriteTokens_append lib g.PARAMETER params _ pre [] out hpreE hpre]
    exact rewriteTokens_fail_head lib g.PARAMETER params t out [] e hfail post'
  · intro j v href
    simp only [references, List.any_append, Bool.or_eq_false_iff] at href
    have hpre' : rewriteTokens lib g.PARAMETER (params.set j v) pre [] = .returns out none := by
      rw [rewriteTokens_set lib g.PARAMETER params j v pre [] href.1, hpre]
    have hfail' : rewriteTokens lib g.PARAMETER (params.set j v) [t] out
        = .returns [] (some e) := by
      rw [rewriteTokens_set lib g.PARAMETER params j v [t] out href.2, hfail]
    simp only [ValidateAndFormatSql, hsyn, hts]
    rw [rewriteTokens_append lib g.PARAMETER (params.set j v) _ pre [] out hpreE hpre']
    exact rewriteTokens_fail_head lib g.PARAMETER (params.set j v) t out [] e hfail' post

theorem ValidateAndFormatSql_first_error_witness :
    checkSyntax (sampleGrammar 7 [⟨7, lit "$1"⟩, ⟨1, lit ","⟩, ⟨7, lit "$5"⟩, ⟨1, lit ","⟩,
        ⟨7, lit "$x"⟩, ⟨1, lit ","⟩, ⟨7, lit "$2"⟩]) (lit "$1,$5,$x,$2") = none ∧
    rewriteTokens sampleLib 7 [.str none (lit "a"), .nil] [⟨7, lit "$1"⟩, ⟨1, lit ","⟩] []
      = .returns (lit "'a',") none ∧
    rewriteTokens sampleLib 7 [.str none (lit "a"), .nil] [⟨7, lit "$5"⟩] (lit "'a',")
      = .returns [] (some (.text (lit "Parameter index 5 out of range (2)"))) ∧
    ValidateAndFormatSql sampleLib (sampleGrammar 7 [⟨7, lit "$1"⟩, ⟨1, lit ","⟩,
        ⟨7, lit "$5"⟩, ⟨1, lit ","⟩, ⟨7, lit "$x"⟩, ⟨1, lit ","⟩, ⟨7, lit "$2"⟩])
        (lit "$1,$5,$x,$2") [.str none (lit "a"), .nil]
      = .returns [] (some (.text (lit "Parameter index 5 out of range (2)"))) ∧
    references 7 ([⟨7, lit "$1"⟩, ⟨1, lit ","⟩] ++ [⟨7, lit "$5"⟩]) 1 = false ∧
    ValidateAndFormatSql sampleLib (sampleGrammar 7 [⟨7, lit "$1"⟩, ⟨1, lit ","⟩,
        ⟨7, lit "$5"⟩, ⟨1, lit ","⟩, ⟨7, lit "$x"⟩, ⟨1, lit ","⟩, ⟨7, lit "$2"⟩])
        (lit "$1,$5,$x,$2") ([Value.str none (lit "a"), .nil].set 1 (.bool none true))
      = .returns [] (some (.text (lit "Parameter index 5 out of range (2)"))) :=
  ⟨by decide, by decide, by decide,
    (ValidateAndFormatSql_first_error sampleLib (sampleGrammar 7 [⟨7, lit "$1"⟩, ⟨1, lit ","⟩,
        ⟨7, lit "$5"⟩, ⟨1, lit ","⟩, ⟨7, lit "$x"⟩, ⟨1, lit ","⟩, ⟨7, lit "$2"⟩])
      (lit "$1,$5,$x,$2") [.str none (lit "a"), .nil] [⟨7, lit "$1"⟩, ⟨1, lit ","⟩]
      [⟨1, lit ","⟩, ⟨7, lit "$x"⟩, ⟨1, lit ","⟩, ⟨7, lit "$2"⟩] ⟨7, lit "$5"⟩ (lit "'a',")
      (.text (lit "Parameter index 5 out of range (2)"))
      (by decide) rfl (by decide) (by decide) (by decide)).1,
    by decide,
    (ValidateAndFormatSql_first_error sampleLib (sampleGrammar 7 [⟨7, lit "$1"⟩, ⟨1, lit ","⟩,
        ⟨7, lit "$5"⟩, ⟨1, lit ","⟩, ⟨7, lit "$x"⟩, ⟨1, lit ","⟩, ⟨7, lit "$2"⟩])
      (lit "$1,$5,$x,$2") [.str none (lit "a"), .nil] [⟨7, lit "$1"⟩, ⟨1, lit ","⟩]
      [⟨1, lit ","⟩, ⟨7, lit "$x"⟩, ⟨1, lit ","⟩, ⟨7, lit "$2"⟩] ⟨7, lit "$5"⟩ (lit "'a',")
      (.text (lit "Parameter index 5 out of range (2)"))
      (by decide) rfl (by decide) (by decide) (by decide)).2.2 1 (.bool none true)
      (by decide)⟩


/-! ## An index above the number of values -/

/-- On a plus sign followed by decimal digits whose value fits `int64`,
`ParseInt` returns that value and no error. -/
theorem ParseInt_plus_digits (c : Byte) (cs : GoString) (hc : c.val = 43) (hne : cs ≠ [])
    (hd : cs.all isDigit = true) (hlt : digitsValue cs < 2 ^ 63) :
    ParseInt (c :: cs) = ((digitsValue cs : ℤ), none) := by
  cases cs with
  | nil => exact absurd rfl hne
  | cons d ds =>
    have h45 : ¬ (c.val = 45) := by omega
    have hloop := parseUintLoop_digits (d :: ds) 0 hd
      (by have : digitsValueFrom 0 (d :: ds) = digitsValue (d :: ds) := rfl
          rw [this]; norm_num at hlt ⊢; omega)
    have hpu : ParseUint (d :: ds) = (digitsValue (d :: ds), none) := by
      simp only [ParseUint, hloop]; rfl
    have hw : wrapSigned 64 (digitsValue (d :: ds) : ℤ) = (digitsValue (d :: ds) : ℤ) := by
      simp only [wrapSigned]
      norm_num at hlt ⊢
      omega
    have hbody : (if c.val = 43 ∨ c.val = 45 then d :: ds else c :: d :: ds) = d :: ds :=
      if_pos (Or.inl hc)
    have hneg : decide (c.val = 45) = false := decide_eq_false h45
    simp only [ParseInt, hbody, hneg, hpu]
    simp [hw]
    norm_num at hlt
    exact hlt

/-- On an optionally signed string of decimal digits that denotes a
positive integer fitting `int64`, `ParseInt` returns that integer and no
error. -/
theorem ParseInt_signedDecimal_pos (s : GoString) (v : ℤ) (h : signedDecimal s = some v)
    (h0 : 0 < v) (h63 : v < 2 ^ 63) : ParseInt s = (v, none) := by
  cases s with
  | nil => simp [signedDecimal] at h
  | cons c cs =>
    rw [signedDecimal] at h
    by_cases h45 : c.val = 45
    · rw [if_pos h45] at h
      by_cases hcs : cs ≠ [] ∧ cs.all isDigit = true
      · rw [if_pos hcs] at h
        have hv : -(digitsValue cs : ℤ) = v := Option.some.inj h
        omega
      · rw [if_neg hcs] at h
        exact absurd h (by simp)
    · rw [if_neg h45] at h
      by_cases h43 : c.val = 43
      · rw [if_pos h43] at h
        by_cases hcs : cs ≠ [] ∧ cs.all isDigit = true
        · rw [if_pos hcs] at h
          have hv : (digitsValue cs : ℤ) = v := Option.some.inj h
          rw [← hv]
          exact ParseInt_plus_digits c cs h43 hcs.1 hcs.2
            (by rw [← hv] at h63; norm_num at h63 ⊢; omega)
        · rw [if_neg hcs] at h
          exact absurd h (by simp)
      · rw [if_neg h43] at h
        by_cases hd : (c :: cs).all isDigit = true
        · rw [if_pos hd] at h
          have hv : (digitsValue (c :: cs) : ℤ) = v := Option.some.inj h
          rw [← hv]
          exact ParseInt_digits (c :: cs) (by simp) hd
            (by rw [← hv] at h63; norm_num at h63 ⊢; omega)
        · rw [if_neg hd] at h
          exact absurd h (by simp)

/-- C17, as stated, fails: the template `SELECT $9223372036854775808` with
no value is validated and its placeholder has the index `2^63`, above the
number of values, yet the error returned is the range error of
`strconv.ParseInt` for the index text, which does not state the number of
values, and not `Parameter index 9223372036854775808 out of range (0)`. -/
theorem ValidateAndFormatSql_index_beyond_int64_counterexample :
    checkSyntax (sampleGrammar 7 [⟨3, lit "SELECT"⟩, ⟨4, lit " "⟩,
        ⟨7, lit "$9223372036854775808"⟩]) (lit "SELECT $9223372036854775808") = none ∧
    signedDecimal (lit "9223372036854775808") = some (2 ^ 63) ∧
    ((([] : List Value).length : ℤ) < 2 ^ 63) ∧
    ValidateAndFormatSql sampleLib (sampleGrammar 7 [⟨3, lit "SELECT"⟩, ⟨4, lit " "⟩,
        ⟨7, lit "$9223372036854775808"⟩]) (lit "SELECT $9223372036854775808") []
      = .returns [] (some (.numError (lit "ParseInt") (lit "9223372036854775808") .ErrRange)) ∧
    ValidateAndFormatSql sampleLib (sampleGrammar 7 [⟨3, lit "SELECT"⟩, ⟨4, lit " "⟩,
        ⟨7, lit "$9223372036854775808"⟩]) (lit "SELECT $9223372036854775808") []
      ≠ .returns [] (some (.text
          (lit "Parameter index 9223372036854775808 out of range (0)"))) := by
  decide

/-- C17, amended: for every value list of length `n` and every placeholder
that the loop reaches in a validated template and whose text after the
one-character marker is an optionally signed string of decimal digits
denoting an index `i` with `n < i < 2^63` (an index that fits a signed
64-bit integer), `ValidateAndFormatSql` returns an empty string and the
error `Parameter index i out of range (n)`. -/
theorem ValidateAndFormatSql_index_above (lib : Stdlib) (g : Grammar) (sql : GoString)
    (params : List Value) (pre post : List Token) (t : Token) (out : GoString)
    (marker : Byte) (rest : GoString) (i : ℤ)
    (hsyn : checkSyntax g sql = none) (hts : g.NextTokens sql = pre ++ t :: post)
    (hpreE : ∀ u ∈ pre, u.tokenType ≠ TokenEOF)
    (hpre : rewriteTokens lib g.PARAMETER params pre [] = .returns out none)
    (hP : t.tokenType = g.PARAMETER) (hE : t.tokenType ≠ TokenEOF)
    (htx : t.text = marker :: rest) (hidx : signedDecimal rest = some i)
    (hi : (params.length : ℤ) < i) (h63 : i < 2 ^ 63) :
    ValidateAndFormatSql lib g sql params
      = .returns [] (some (.text (lit "Parameter index " ++ FormatInt i
          ++ lit " out of range (" ++ FormatInt params.length ++ lit ")"))) :=
  ValidateAndFormatSql_index_above_parsed lib g sql params pre post t out marker rest i
    hsyn hts hpreE hpre hP hE htx
    (ParseInt_signedDecimal_pos rest i hidx (by omega) h63) hi

theorem ValidateAndFormatSql_index_above_witness :
    checkSyntax (sampleGrammar 7 [⟨3, lit "SELECT"⟩, ⟨4, lit " "⟩, ⟨7, lit "$1"⟩])
      (lit "SELECT $1") = none ∧
    (sampleGrammar 7 [⟨3, lit "SELECT"⟩, ⟨4, lit " "⟩, ⟨7, lit "$1"⟩]).NextTokens
        (lit "SELECT $1")
      = [⟨3, lit "SELECT"⟩, ⟨4, lit " "⟩] ++ ⟨7, lit "$1"⟩ :: [] ∧
    rewriteTokens sampleLib 7 [] [⟨3, lit "SELECT"⟩, ⟨4, lit " "⟩] []
      = .returns (lit "SELECT ") none ∧
    signedDecimal (lit "1") = some 1 ∧
    ValidateAndFormatSql sampleLib
        (sampleGrammar 7 [⟨3, lit "SELECT"⟩, ⟨4, lit " "⟩, ⟨7, lit "$1"⟩]) (lit "SELECT $1") []
      = .returns [] (some (.text (lit "Parameter index " ++ FormatInt 1
          ++ lit " out of range (" ++ FormatInt ([] : List Value).length ++ lit ")"))) ∧
    lit "Parameter index " ++ FormatInt 1 ++ lit " out of range ("
        ++ FormatInt ([] : List Value).length ++ lit ")"
      = lit "Parameter index 1 out of range (0)" :=
  ⟨by decide, rfl, by decide, by decide,
    ValidateAndFormatSql_index_above sampleLib
      (sampleGrammar 7 [⟨3, lit "SELECT"⟩, ⟨4, lit " "⟩, ⟨7, lit "$1"⟩]) (lit "SELECT $1") []
      [⟨3, lit "SELECT"⟩, ⟨4, lit " "⟩] [] ⟨7, lit "$1"⟩ (lit "SELECT ") 36 (lit "1") 1
      (by decide) rfl (by decide) (by decide) rfl (by decide) rfl (by decide) (by decide)
      (by decide),
    by decide⟩

/-! ## The column of a syntax error -/

/-- C20, as stated, fails: for an offending token at the first character of
the first line the parser passes line 1 and column 0 (the position in the
line counted from 0), and the recorded message is
`Syntax error at 1:0: 'SELEC' (mismatched input)`; with a 1-based column it
would read `1:1`. -/
theorem errorListener_column_counterexample :
    (errorListener.SyntaxError { err := none }
        ⟨some ⟨5, lit "SELEC"⟩, 1, 0, lit "mismatched input"⟩).err
      = some (.text (lit "Syntax error at 1:0: 'SELEC' (mismatched input)")) ∧
    (errorListener.SyntaxError { err := none }
        ⟨some ⟨5, lit "SELEC"⟩, 1, 0, lit "mismatched input"⟩).err
      ≠ some (.text (lit "Syntax error at 1:1: 'SELEC' (mismatched input)")) := by
  decide

/-! ## A first failure that is not an error -/

/-- C22 at a failing input: the template `$0,$5` with one value and the
template `$1,$5` with the nil value. In each both placeholders fail, and
the claim says the error of the first one is returned; the first
placeholder makes the call panic instead (`params[index-1]` at index 0,
`reflect.TypeOf(nil).Name()` at the nil value), so no error is returned. -/
theorem ValidateAndFormatSql_first_failure_panics :
    checkSyntax (sampleGrammar 7 [⟨7, lit "$0"⟩, ⟨1, lit ","⟩, ⟨7, lit "$5"⟩])
      (lit "$0,$5") = none ∧
    rewriteTokens sampleLib 7 [.str none (lit "a")] [⟨7, lit "$5"⟩] []
      = .returns [] (some (.text (lit "Parameter index 5 out of range (1)"))) ∧
    ValidateAndFormatSql sampleLib
        (sampleGrammar 7 [⟨7, lit "$0"⟩, ⟨1, lit ","⟩, ⟨7, lit "$5"⟩])
        (lit "$0,$5") [.str none (lit "a")]
      = .panics .indexOutOfRange ∧
    checkSyntax (sampleGrammar 7 [⟨7, lit "$1"⟩, ⟨1, lit ","⟩, ⟨7, lit "$5"⟩])
      (lit "$1,$5") = none ∧
    rewriteTokens sampleLib 7 [.nil] [⟨7, lit "$5"⟩] []
      = .returns [] (some (.text (lit "Parameter index 5 out of range (1)"))) ∧
    ValidateAndFormatSql sampleLib
        (sampleGrammar 7 [⟨7, lit "$1"⟩, ⟨1, lit ","⟩, ⟨7, lit "$5"⟩])
        (lit "$1,$5") [.nil]
      = .panics .nilDereference := by
  decide

/-! ## Termination of the escaping loop -/

/-- With an iteration allowed for every byte the recorded run of the loop
does not depend on the number of iterations allowed. -/
theorem escapeRun_fuel (lib : Stdlib) (delim escape : Byte) (n : Nat) :
    ∀ (s buf : GoString) (m : Nat), s.length ≤ n → s.length ≤ m →
    escapeRun lib delim escape n s buf = escapeRun lib delim escape m s buf := by
  induction n with
  | zero =>
    intro s buf m h _
    have : s = [] := List.length_eq_zero.mp (Nat.le_zero.mp h)
    subst this
    cases m <;> simp [escapeRun]
  | succ n ih =>
    intro s buf m h hm
    cases s with
    | nil => cases m <;> simp [escapeRun]
    | cons s0 t =>
      cases m with
      | zero => simp at hm
      | succ m =>
        obtain ⟨h1, h2⟩ := read_width s0 t
        generalize hrw : (if s0.val ≥ RuneSelf then DecodeRuneInString (s0 :: t)
          else (s0.val, 1)) = rw at h1 h2
        have hlen : ((s0 :: t).drop rw.2).length ≤ n := by
          rw [List.length_drop]; simp only [List.length_cons] at h h2 ⊢; omega
        have hlenm : ((s0 :: t).drop rw.2).length ≤ m := by
          rw [List.length_drop]; simp only [List.length_cons] at hm h2 ⊢; omega
        simp only [escapeRun, hrw]
        split_ifs
        · rw [ih _ _ m hlen hlenm]
        · rw [ih _ _ m hlen hlenm]
        · rw [ih _ _ m hlen hlenm]
        · rw [ih _ _ m hlen hlenm]

/-- The record of a run that starts from `s0 :: t` with the width `w` the
loop reads there, followed by a record that has the stated properties for
the rest of the input, has them for the whole input. -/
theorem escapeRun_record (s0 : Byte) (t : GoString) (w : Nat)
    (hw : w = (if s0.val ≥ RuneSelf then DecodeRuneInString (s0 :: t) else (s0.val, 1)).2)
    (trace : List (GoString × Nat))
    (hlen : trace.length ≤ ((s0 :: t).drop w).length)
    (hall : ∀ x ∈ trace, ∃ (r0 : Byte) (u : GoString), x.1 = r0 :: u ∧ 1 ≤ x.2 ∧
      x.2 ≤ x.1.length ∧ (r0.val < RuneSelf → x.2 = 1) ∧
      (RuneSelf ≤ r0.val → x.2 = (DecodeRuneInString x.1).2) ∧
      (DecodeRuneInString x.1 = (RuneError, 1) → x.2 = 1))
    (hhead : (s0 :: t).drop w ≠ [] → ∃ w1 rest, trace = ((s0 :: t).drop w, w1) :: rest)
    (hnil : (s0 :: t).drop w = [] → trace = [])
    (hchain : List.Chain' (fun a b : GoString × Nat => b.1 = a.1.drop a.2) trace)
    (hlast : ∀ x, trace.getLast? = some x → x.1.drop x.2 = [])
    (hsum : (trace.map Prod.snd).sum = ((s0 :: t).drop w).length) :
    (((s0 :: t, w) :: trace).length ≤ (s0 :: t).length) ∧
    (∀ x ∈ (s0 :: t, w) :: trace, ∃ (r0 : Byte) (u : GoString), x.1 = r0 :: u ∧ 1 ≤ x.2 ∧
      x.2 ≤ x.1.length ∧ (r0.val < RuneSelf → x.2 = 1) ∧
      (RuneSelf ≤ r0.val → x.2 = (DecodeRuneInString x.1).2) ∧
      (DecodeRuneInString x.1 = (RuneError, 1) → x.2 = 1)) ∧
    List.Chain' (fun a b : GoString × Nat => b.1 = a.1.drop a.2) ((s0 :: t, w) :: trace) ∧
    (∀ x, ((s0 :: t, w) :: trace).getLast? = some x → x.1.drop x.2 = []) ∧
    (((s0 :: t, w) :: trace).map Prod.snd).sum = (s0 :: t).length := by
  obtain ⟨h1, h2⟩ := read_width s0 t
  rw [← hw] at h1 h2
  rw [List.length_drop] at hlen hsum
  have hascii : s0.val < RuneSelf → w = 1 := by
    intro h
    rw [hw, if_neg (by omega)]
  have hwide : RuneSelf ≤ s0.val → w = (DecodeRuneInString (s0 :: t)).2 := by
    intro h
    rw [hw, if_pos h]
  refine ⟨?_, ?_, ?_, ?_, ?_⟩
  · simp only [List.length_cons] at hlen h2 ⊢; omega
  · intro x hx
    rcases List.mem_cons.mp hx with rfl | hx
    · refine ⟨s0, t, rfl, h1, h2, hascii, hwide, ?_⟩
      intro hdec
      by_cases h : s0.val < RuneSelf
      · exact hascii h
      · rw [hwide (by omega), hdec]
    · exact hall x hx
  · by_cases hrest : (s0 :: t).drop w = []
    · rw [hnil hrest]
      exact List.chain'_singleton _
    · obtain ⟨w1, rest, htr⟩ := hhead hrest
      rw [htr] at hchain ⊢
      exact List.Chain'.cons rfl hchain
  · intro x hx
    by_cases hrest : (s0 :: t).drop w = []
    · rw [hnil hrest] at hx
      simp only [List.getLast?_singleton, Option.some.injEq] at hx
      rw [← hx]
      exact hrest
    · obtain ⟨w1, rest, htr⟩ := hhead hrest
      rw [htr, List.getLast?_cons_cons] at hx
      rw [htr] at hlast
      exact hlast x hx
  · simp only [List.map_cons, List.sum_cons, hsum, List.length_cons] at h2 ⊢
    omega

/-- The recorded run of the loop of `escapeString` with an iteration allowed
for every byte: it ends with the buffer of `escapeLoop`, and its record
starts from the whole input, continues from what each iteration left, ends
with nothing left, and has a width of at least one and at most the
remaining length in every iteration. -/
theorem escapeRun_spec (lib : Stdlib) (delim escape : Byte) (fuel : Nat) :
    ∀ (s buf : GoString), s.length ≤ fuel →
    ∃ trace : List (GoString × Nat),
      escapeRun lib delim escape fuel s buf
        = some (escapeLoop lib delim escape fuel s buf, trace) ∧
      trace.length ≤ s.length ∧
      (∀ x ∈ trace, ∃ (r0 : Byte) (u : GoString), x.1 = r0 :: u ∧ 1 ≤ x.2 ∧
        x.2 ≤ x.1.length ∧ (r0.val < RuneSelf → x.2 = 1) ∧
        (RuneSelf ≤ r0.val → x.2 = (DecodeRuneInString x.1).2) ∧
        (DecodeRuneInString x.1 = (RuneError, 1) → x.2 = 1)) ∧
      (s ≠ [] → ∃ w rest, trace = (s, w) :: rest) ∧
      (s = [] → trace = []) ∧
      List.Chain' (fun a b : GoString × Nat => b.1 = a.1.drop a.2) trace ∧
      (∀ x, trace.getLast? = some x → x.1.drop x.2 = []) ∧
      (trace.map Prod.snd).sum = s.length := by
  induction fuel with
  | zero =>
    intro s buf h
    have : s = [] := List.length_eq_zero.mp (Nat.le_zero.mp h)
    subst this
    exact ⟨[], by simp [escapeRun, escapeLoop], by simp, by simp, by simp, by simp,
      List.chain'_nil, by simp, by simp⟩
  | succ fuel ih =>
    intro s buf h
    cases s with
    | nil =>
      exact ⟨[], by simp [escapeRun, escapeLoop], by simp, by simp, by simp, by simp,
        List.chain'_nil, by simp, by simp⟩
    | cons s0 t =>
      obtain ⟨h1, h2⟩ := read_width s0 t
      generalize hrw : (if s0.val ≥ RuneSelf then DecodeRuneInString (s0 :: t)
        else (s0.val, 1)) = rw at h1 h2
      have hlen : ((s0 :: t).drop rw.2).length ≤ fuel := by
        rw [List.length_drop]; simp only [List.length_cons] at h h2 ⊢; omega
      have hw : rw.2 = (if s0.val ≥ RuneSelf then DecodeRuneInString (s0 :: t)
          else (s0.val, 1)).2 := by rw [hrw]
      have key : ∀ b : GoString, ∃ trace : List (GoString × Nat),
          (escapeRun lib delim escape fuel ((s0 :: t).drop rw.2) b).map
              (fun r => (r.1, (s0 :: t, rw.2) :: r.2))
            = some (escapeLoop lib delim escape fuel ((s0 :: t).drop rw.2) b, trace) ∧
          trace.length ≤ (s0 :: t).length ∧
          (∀ x ∈ trace, ∃ (r0 : Byte) (u : GoString), x.1 = r0 :: u ∧ 1 ≤ x.2 ∧
            x.2 ≤ x.1.length ∧ (r0.val < RuneSelf → x.2 = 1) ∧
            (RuneSelf ≤ r0.val → x.2 = (DecodeRuneInString x.1).2) ∧
            (DecodeRuneInString x.1 = (RuneError, 1) → x.2 = 1)) ∧
          (s0 :: t ≠ [] → ∃ w rest, trace = (s0 :: t, w) :: rest) ∧
          (s0 :: t = [] → trace = []) ∧
          List.Chain' (fun a b : GoString × Nat => b.1 = a.1.drop a.2) trace ∧
          (∀ x, trace.getLast? = some x → x.1.drop x.2 = []) ∧
          (trace.map Prod.snd).sum = (s0 :: t).length := by
        intro b
        obtain ⟨tr, hrun, hl, hall, hhead, hnil, hchain, hlast, hsum⟩ := ih _ b hlen
        obtain ⟨g1, g2, g3, g4, g5⟩ :=
          escapeRun_record s0 t rw.2 hw tr hl hall hhead hnil hchain hlast hsum
        refine ⟨(s0 :: t, rw.2) :: tr, ?_, g1, g2, fun _ => ⟨rw.2, tr, rfl⟩,
          fun hc => absurd hc (by simp), g3, g4, g5⟩
        rw [hrun]
        rfl
      have hstep : ∃ b : GoString,
          escapeRun lib delim escape (fuel + 1) (s0 :: t) buf
            = (escapeRun lib delim escape fuel ((s0 :: t).drop rw.2) b).map
                (fun r => (r.1, (s0 :: t, rw.2) :: r.2)) ∧
          escapeLoop lib delim escape (fuel + 1) (s0 :: t) buf
            = escapeLoop lib delim escape fuel ((s0 :: t).drop rw.2) b := by
        simp only [escapeRun, escapeLoop, hrw]
        split_ifs
        · exact ⟨buf, rfl, rfl⟩
        · exact ⟨buf ++ [escape, byte rw.1], rfl, rfl⟩
        · exact ⟨buf ++ EncodeRune rw.1, rfl, rfl⟩
        · exact ⟨buf, rfl, rfl⟩
      obtain ⟨b, e1, e2⟩ := hstep
      rw [e1, e2]
      exact key b

/-- C28: for every byte string `s`, the loop of `escapeString` terminates.
Run with `len(s)` iterations allowed, it ends with no input left and with
the buffer that `escapeLoop` returns, and the record of its iterations says:
the first iteration starts from `s`, each next one from what the previous
one left, and the last one leaves nothing; every iteration starts from a
non-empty input and removes `width` bytes from its front, with `width` at
least 1 and never more than the remaining length, 1 at an ASCII byte and at
an undecodable byte and the width of the decoded rune otherwise; the widths
add up to `len(s)` and the number of iterations is at most `len(s)`;
allowing more iterations changes nothing. -/
theorem escapeString_terminates (lib : Stdlib) (delim escape : Byte) (s buf : GoString) :
    ∃ trace : List (GoString × Nat),
      escapeRun lib delim escape s.length s buf
        = some (escapeLoop lib delim escape s.length s buf, trace) ∧
      trace.length ≤ s.length ∧
      (∀ x ∈ trace, ∃ (r0 : Byte) (u : GoString), x.1 = r0 :: u ∧ 1 ≤ x.2 ∧
        x.2 ≤ x.1.length ∧ (r0.val < RuneSelf → x.2 = 1) ∧
        (RuneSelf ≤ r0.val → x.2 = (DecodeRuneInString x.1).2) ∧
        (DecodeRuneInString x.1 = (RuneError, 1) → x.2 = 1)) ∧
      (s ≠ [] → ∃ w rest, trace = (s, w) :: rest) ∧
      (s = [] → trace = []) ∧
      List.Chain' (fun a b : GoString × Nat => b.1 = a.1.drop a.2) trace ∧
      (∀ x, trace.getLast? = some x → x.1.drop x.2 = []) ∧
      (trace.map Prod.snd).sum = s.length ∧
      ∀ fuel : Nat, s.length ≤ fuel →
        escapeRun lib delim escape fuel s buf
          = escapeRun lib delim escape s.length s buf := by
  obtain ⟨tr, hrun, hl, hall, hhead, hnil, hchain, hlast, hsum⟩ :=
    escapeRun_spec lib delim escape s.length s buf (le_refl _)
  exact ⟨tr, hrun, hl, hall, hhead, hnil, hchain, hlast, hsum,
    fun fuel hf => escapeRun_fuel lib delim escape fuel s buf s.length hf (le_refl _)⟩

theorem escapeString_terminates_witness :
    escapeRun sampleLib quote quote 7 (lit "O'Brien") []
      = some (lit "O''Brien", [(lit "O'Brien", 1), (lit "'Brien", 1), (lit "Brien", 1),
          (lit "rien", 1), (lit "ien", 1), (lit "en", 1), (lit "n", 1)]) ∧
    escapeRun sampleLib quote quote 2 [255, 97] [] = some (lit "a", [([255, 97], 1), ([97], 1)]) ∧
    escapeRun sampleLib quote quote 3 [195, 169, 97] []
      = some ([195, 169, 97], [([195, 169, 97], 2), ([97], 1)]) ∧
    (lit "O'Brien").length ≤ 100 ∧
    escapeRun sampleLib quote quote 100 (lit "O'Brien") []
      = escapeRun sampleLib quote quote (lit "O'Brien").length (lit "O'Brien") [] := by
  obtain ⟨_, _, _, _, _, _, _, _, _, h⟩ :=
    escapeString_terminates sampleLib quote quote (lit "O'Brien") []
  exact ⟨by decide, by decide, by decide, by decide, h 100 (by decide)⟩

end Presto
